import Mathlib

/-!
# iff2gif: the GIF writer (`gifwrite.cpp`)

A shallow embedding of the LZW code stream (`CodeStream`, `LZWCompress`) and of the
frame optimiser of `GIFWriter`, followed by the properties proved about them.

Conventions of the embedding.
* A `UBYTE *` buffer is a function `Nat → Nat` from an index to the byte stored there.
* A `std::vector<UBYTE>` is a `List Nat`; `push_back` and `insert(end, ...)` append.
* Machine integers are `Nat`/`Int`.  In the range the writer works in (code sizes up to 8
  bits, codes below `CODE_LIMIT`, a bit position below 20) no operation of `CodeStream`
  leaves the range of its C++ type.
-/

namespace Iff2Gif

/-! ## The LZW code stream -/

/-- GIF restricts codes to 12 bits max. -/
def CODE_LIMIT : Nat := 1 <<< 12

/-- The state of `class CodeStream`.  `Chunk` holds the payload bytes `Chunk[1..Chunk[0]]` of
the sub-block being filled, so `Chunk[0]` is its length.  `Dict` is the `unordered_map`, as
an association list read with `List.lookup`.  `Written` is a history variable: the
arguments of the calls of `WriteCode` so far, each with the `CodeSize` it was packed
with; no operation reads it. -/
structure CodeStream where
  Codes : List Nat
  Accum : Nat
  ClearCode : Nat
  EOICode : Nat
  NextCode : Nat
  Match : Int
  CodeSize : Nat
  MinCodeSize : Nat
  BitPos : Int
  Chunk : List Nat
  Dict : List (Nat × Nat)
  Written : List (Nat × Nat)
deriving Repr

namespace CodeStream

/-- `CodeStream::Dump`: append the sub-block being filled, behind its length byte. -/
def Dump (s : CodeStream) : CodeStream :=
  if s.Chunk.length > 0 then
    { s with Codes := s.Codes ++ (s.Chunk.length :: s.Chunk), Chunk := [] }
  else s

/-- The `while (BitPos > stop)` loop of `CodeStream::DumpAccum`; each turn lowers `BitPos`
by 8, so `BitPos.toNat` turns are enough (`DumpAccumLoop_exit`). -/
def DumpAccumLoop (stop : Int) : Nat → CodeStream → CodeStream
  | 0, s => s
  | fuel + 1, s =>
    if s.BitPos > stop then
      let s1 := { s with Chunk := s.Chunk ++ [s.Accum &&& 0xFF],
                         Accum := s.Accum >>> 8,
                         BitPos := s.BitPos - 8 }
      DumpAccumLoop stop fuel (if s1.Chunk.length = 255 then s1.Dump else s1)
    else s

/-- `CodeStream::DumpAccum`: if `full`, dump every accumulated bit, otherwise every complete
accumulated byte. -/
def DumpAccum (s : CodeStream) (full : Bool) : CodeStream :=
  DumpAccumLoop (if full then 0 else 7) s.BitPos.toNat s

/-- The loop of `CodeStream::ResetDict` that enters the raw bytes, from `i = n - 1` down
to `0`. -/
def ResetDictFill : Nat → List (Nat × Nat) → List (Nat × Nat)
  | 0, d => d
  | i + 1, d => ResetDictFill i ((i, i) :: d)

/-- `CodeStream::ResetDict`. -/
def ResetDict (s : CodeStream) : CodeStream :=
  { s with CodeSize := s.MinCodeSize + 1,
           NextCode := s.EOICode + 1,
           Match := -1,
           Dict := ResetDictFill (1 <<< s.MinCodeSize) [] }

/-- `CodeStream::WriteCode`. -/
def WriteCode (s : CodeStream) (code : Nat) : CodeStream :=
  let s1 := { s with Accum := s.Accum ||| (code <<< s.BitPos.toNat),
                     BitPos := s.BitPos + s.CodeSize,
                     Written := s.Written ++ [(code, s.CodeSize)] }
  let s2 := s1.DumpAccum false
  if code = s2.ClearCode then s2.ResetDict else s2

/-- `CodeStream::AddByte`. -/
def AddByte (s : CodeStream) (p : Nat) : CodeStream :=
  if s.Match < 0 then
    { s with Match := p }
  else
    let str := s.Match.toNat ||| (p <<< 16) ||| (1 <<< 24)
    match s.Dict.lookup str with
    | some got => { s with Match := got }
    | none =>
      let s1 := s.WriteCode s.Match.toNat
      let s2 := { s1 with Dict := (str, s1.NextCode) :: s1.Dict, NextCode := s1.NextCode + 1 }
      let s3 :=
        if s2.NextCode = CODE_LIMIT then s2.WriteCode s2.ClearCode
        else if s2.NextCode = (1 <<< s2.CodeSize) + 1 then { s2 with CodeSize := s2.CodeSize + 1 }
        else s2
      { s3 with Match := p }

/-- The constructor `CodeStream::CodeStream`.  `NextCode` and `Match` are not initialised
by the constructor itself; the `ResetDict` run by `WriteCode(ClearCode)` sets them before
anything reads them.  The source keeps `ClearCode`, `EOICode` and `NextCode` in 16 bits
and `CodeSize`, `MinCodeSize` and `BitPos` in 8; with `mincodesize` at most 8, the largest
a GIF image has, every value the fields take here fits them. -/
def construct (mincodesize : Nat) (codes : List Nat) : CodeStream :=
  let s : CodeStream :=
    { Codes := codes, Accum := 0, ClearCode := 1 <<< mincodesize,
      EOICode := (1 <<< mincodesize) + 1, NextCode := 0, Match := 0,
      CodeSize := mincodesize + 1, MinCodeSize := mincodesize, BitPos := 0,
      Chunk := [], Dict := [], Written := [] }
  s.WriteCode s.ClearCode

/-- The destructor `CodeStream::~CodeStream`: finish the output. -/
def destruct (s : CodeStream) : CodeStream :=
  let s1 := if s.Match ≥ 0 then s.WriteCode s.Match.toNat else s
  let s2 := s1.WriteCode s1.EOICode
  let s3 := (s2.DumpAccum true).Dump
  { s3 with Codes := s3.Codes ++ [0] }

end CodeStream

/-- The 9 bytes behind the image separator (`struct ImageDescriptor`). -/
structure ImageDescriptor where
  Left : Nat
  Top : Nat
  Width : Nat
  Height : Nat
  Flags : Nat
deriving Repr, DecidableEq

/-- The rows loop of `LZWCompress`: `rows` rows are left, `off` is where `in` points (and
`prev`, which is advanced in step with it); `px off x` is the byte handed to `AddByte`. -/
def LZWCompressRows (px : Nat → Nat) (width pitch : Nat) :
    Nat → Nat → CodeStream → CodeStream
  | 0, _, codes => codes
  | rows + 1, off, codes =>
    LZWCompressRows px width pitch rows (off + pitch)
      ((List.range width).foldl (fun c x => c.AddByte (px (off + x))) codes)

/-- The body of `LZWCompress` up to the end of its loops: the local `CodeStream codes`
after every byte of the rectangle was handed to `AddByte`. `trans < 0` is "no
substitution". -/
def LZWCompressCodes (vec : List Nat) (imd : ImageDescriptor) (prev chunky : Nat → Nat)
    (pitch : Nat) (mincodesize : Nat) (trans : Int) : CodeStream :=
  let mincodesize := if mincodesize < 2 then 2 else mincodesize
  let codes := CodeStream.construct mincodesize (vec ++ [mincodesize])
  let off := imd.Left + imd.Top * pitch
  if trans < 0 then
    LZWCompressRows chunky imd.Width pitch imd.Height off codes
  else
    let transcolor := (trans % 256).toNat
    LZWCompressRows (fun i => if prev i ≠ chunky i then chunky i else transcolor)
      imd.Width pitch imd.Height off codes

/-- `LZWCompress`: the vector `vec` after the call, which ends with the destructor of
`codes` running. -/
def LZWCompress (vec : List Nat) (imd : ImageDescriptor) (prev chunky : Nat → Nat)
    (pitch : Nat) (mincodesize : Nat) (trans : Int) : List Nat :=
  (LZWCompressCodes vec imd prev chunky pitch mincodesize trans).destruct.Codes

end Iff2Gif

namespace Iff2Gif

/-! ## Sub-block framing and bit packing, as specification -/

/-- The GIF sub-block framing of `blocks`: each block behind its length byte. -/
def frameBlocks (blocks : List (List Nat)) : List Nat :=
  blocks.flatMap (fun b => b.length :: b)

/-- The vector `codes` and the sub-block buffer `chunk` of a `CodeStream` that started
behind `pre` hold the payload bytes `payload`: `codes` is `pre` and full sub-blocks of 255
bytes, `chunk` is the rest, shorter than 255 bytes. -/
def Packed (pre payload codes chunk : List Nat) : Prop :=
  ∃ blocks : List (List Nat), codes = pre ++ frameBlocks blocks ∧
    (∀ b ∈ blocks, b.length = 255) ∧ chunk.length < 255 ∧ blocks.flatten ++ chunk = payload

/-- The `k` low bytes of `a`, lowest first. -/
def accumBytes : Nat → Nat → List Nat
  | 0, _ => []
  | k + 1, a => (a % 256) :: accumBytes k (a / 256)

/-- The bytes `LZWCompress` hands to `AddByte`, in order: the rectangle of `chunky` row by
row, with the unchanged pixels replaced by the substitution colour when there is one. -/
def LZWCompressInput (imd : ImageDescriptor) (prev chunky : Nat → Nat) (pitch : Nat)
    (trans : Int) : List Nat :=
  (List.range imd.Height).flatMap fun y =>
    (List.range imd.Width).map fun x =>
      let i := imd.Left + imd.Top * pitch + y * pitch + x
      if trans < 0 then chunky i
      else if prev i ≠ chunky i then chunky i else (trans % 256).toNat

/-- The invariant of a `CodeStream` with minimum code size `m` between two calls of
`AddByte` on bytes below `2 ^ m`. -/
structure NumInv (m : Nat) (s : CodeStream) : Prop where
  minCodeSize : s.MinCodeSize = m
  clearCode : s.ClearCode = 2 ^ m
  eoiCode : s.EOICode = s.ClearCode + 1
  codeSize_ge : m + 1 ≤ s.CodeSize
  codeSize_le : s.CodeSize ≤ 12
  clear_pow : 2 * s.ClearCode ≤ 2 ^ s.CodeSize
  nextCode_ge : s.ClearCode + 2 ≤ s.NextCode
  nextCode_le : s.NextCode ≤ 4095
  nextCode_pow : s.NextCode ≤ 2 ^ s.CodeSize
  match_ge : -1 ≤ s.Match
  match_lt : s.Match < s.NextCode
  match_ne : s.Match ≠ s.ClearCode ∧ s.Match ≠ s.ClearCode + 1
  dict : ∀ k v, (k, v) ∈ s.Dict → v < s.NextCode ∧ v ≠ s.ClearCode ∧ v ≠ s.ClearCode + 1
  written : ∀ cw ∈ s.Written, m + 1 ≤ cw.2 ∧ cw.2 ≤ 12 ∧ cw.1 < 2 ^ cw.2
  bitPos : 0 ≤ s.BitPos ∧ s.BitPos ≤ 7
  clears_len : ∃ q, s.Written.length = q * (4095 - s.ClearCode) + (s.NextCode - s.ClearCode - 1)
  clears : ∀ i, i < s.Written.length →
    (s.Written[i]?.map Prod.fst = some s.ClearCode ↔ i % (4095 - s.ClearCode) = 0)

end Iff2Gif

namespace Iff2Gif

/-! ## The writer

`iff2gif.h`, which declares `PlanarBitmap`, `GIFFrame`, `GIFFrameQueue`, `GIFWriter`,
`LittleShort` and `QUEUE_SIZE`, is not among the sources; what `gifwrite.cpp` uses of them
is given here, and `QUEUE_SIZE` is a parameter.  `LittleShort` is the identity (a
little-endian host). -/

/-- `ColorRegister` of `iff.h`. -/
structure ColorRegister where
  red : Nat
  green : Nat
  blue : Nat
deriving Repr, DecidableEq

/-- Modelled from the spec: `PlanarBitmap` (the SourceFrame of the spec) is declared outside
the sources; these are the fields `gifwrite.cpp` reads.  `TransparentColor` is negative when
the frame declares no transparent colour. -/
structure PlanarBitmap where
  Width : Nat
  Height : Nat
  NumPlanes : Nat
  Palette : Nat → ColorRegister
  PaletteSize : Int
  TransparentColor : Int
  Delay : Int
  Rate : Int
  Interleave : Nat

/-- The 8 bytes of a graphic control extension (`GIFFrame::GCE`), as the constructor
`GIFFrame::GIFFrame` sets them. -/
structure GraphicControlExtension where
  ExtensionIntroducer : Nat := 0x21
  GraphicControlLabel : Nat := 0xF9
  BlockSize : Nat := 4
  Flags : Nat := 0
  DelayTime : Int := 0
  TransparentColor : Nat := 0
  BlockTerminator : Nat := 0
deriving Repr, DecidableEq

/-- `GIFFrame`, with the values of the constructor `GIFFrame::GIFFrame` as defaults. -/
structure GIFFrame where
  GCE : GraphicControlExtension := {}
  IMD : ImageDescriptor := { Left := 0, Top := 0, Width := 0, Height := 0, Flags := 0 }
  LZW : List Nat := []
deriving Repr, DecidableEq

/-- Modelled from the spec: `GIFFrame::SetDelay` is declared outside the sources; the spec
has the frame's delay set to the difference `MakeFrame` passes.  The delay is kept in
`GCE.DelayTime`, which is 16 bits of the 8 bytes `GIFFrame::Write` sends, so what is stored
is the difference modulo 65536. -/
def GIFFrame.SetDelay (f : GIFFrame) (centisecs : Int) : GIFFrame :=
  { f with GCE := { f.GCE with DelayTime := centisecs % 65536 } }

/-- The C library is outside the repository.  A stream opened for writing is the bytes it
has accepted and `room`, the number of further bytes the device takes before a write
fails. -/
structure FILE where
  data : List Nat
  room : Nat
deriving Repr, DecidableEq

/-- A write of `bytes` (`fwrite`, `fputc`): whether all of it was accepted, and the stream
afterwards. -/
def FILE.write (f : FILE) (bytes : List Nat) : Bool × FILE :=
  if bytes.length ≤ f.room then
    (true, { data := f.data ++ bytes, room := f.room - bytes.length })
  else
    (false, { data := f.data ++ bytes.take f.room, room := 0 })

/-- The low and the high byte of a 16-bit field. -/
def word16 (v : Nat) : List Nat := [v % 256, v / 256 % 256]

/-- The bytes of `GCE`, as `fwrite(&GCE, 8, 1, file)` sends them. -/
def GraphicControlExtension.bytes (g : GraphicControlExtension) : List Nat :=
  [g.ExtensionIntroducer, g.GraphicControlLabel, g.BlockSize, g.Flags] ++
    word16 (g.DelayTime % 65536).toNat ++ [g.TransparentColor, g.BlockTerminator]

/-- The bytes of `IMD`, as `fwrite(&IMD, 9, 1, file)` sends them. -/
def ImageDescriptor.bytes (d : ImageDescriptor) : List Nat :=
  word16 d.Left ++ word16 d.Top ++ word16 d.Width ++ word16 d.Height ++ [d.Flags]

/-- `GIFFrame::Write`.  `file` says whether the pointer is not `NULL`, and `out` is the
stream it points to then; the result is what `Write` returns and the stream afterwards. -/
def GIFFrame.Write (f : GIFFrame) (file : Bool) (out : FILE) : Bool × FILE :=
  if file then
    -- Write Graphic Control Extension, if needed
    let gce := if f.GCE.Flags ≠ 0 ∨ f.GCE.DelayTime ≠ 0 then out.write f.GCE.bytes
               else (true, out)
    if !gce.1 then (false, gce.2)
    else
      -- Write the image descriptor
      let sep := gce.2.write [0x2C]
      if !sep.1 then (false, sep.2)
      else
        let imd := sep.2.write f.IMD.bytes
        if !imd.1 then (false, imd.2)
        else
          -- Write the compressed image data
          let lzw := imd.2.write f.LZW
          if !lzw.1 then (false, lzw.2) else (true, lzw.2)
  else (true, out) -- Pretend success if no file open

/-- `GIFFrameQueue`.  `File` says whether the pointer `File` is not `NULL`; it then points
to the writer's stream, which the operations that write take and give back.  `Queue` holds
`Queue[0 .. QueueCount - 1]`, so `QueueCount` is its length. -/
structure GIFFrameQueue where
  File : Bool := false
  Queue : List GIFFrame := []
  FinalFramesToDrop : Nat := 0

namespace GIFFrameQueue

/-- `QueueCount`. -/
def QueueCount (q : GIFFrameQueue) : Nat := q.Queue.length

/-- Modelled from the spec: `GIFFrameQueue::SetFile` is declared outside the sources; it
sets the queue's `File`. -/
def SetFile (q : GIFFrameQueue) (file : Bool) : GIFFrameQueue :=
  { q with File := file }

/-- Modelled from the spec: `GIFFrameQueue::MostRecent` is declared outside the sources; it
exposes the most recently enqueued frame, `none` (`NULL`) when the queue is empty. -/
def MostRecent (q : GIFFrameQueue) : Option GIFFrame := q.Queue.getLast?

/-- A store through the pointer `MostRecent` returned. -/
def setMostRecent (q : GIFFrameQueue) (f : GIFFrame) : GIFFrameQueue :=
  { q with Queue := q.Queue.dropLast ++ [f] }

/-- Modelled from the spec: `GIFFrameQueue::SetDropFrames` is declared outside the sources;
it records the count of trailing frames `Flush` is to drop. -/
def SetDropFrames (q : GIFFrameQueue) (n : Nat) : GIFFrameQueue :=
  { q with FinalFramesToDrop := n }

/-- The loop of `GIFFrameQueue::Flush` over the frames still to write. -/
def FlushLoop (file : Bool) : List GIFFrame → FILE → Bool × FILE
  | [], out => (true, out)
  | f :: rest, out =>
    let r := f.Write file out
    if !r.1 then (false, r.2) else FlushLoop file rest r.2

/-- `GIFFrameQueue::Flush`. -/
def Flush (q : GIFFrameQueue) (out : FILE) : Bool × GIFFrameQueue × FILE :=
  let r := FlushLoop q.File (q.Queue.take (q.QueueCount - q.FinalFramesToDrop)) out
  (r.1, { q with Queue := [] }, r.2)

/-- `GIFFrameQueue::Shift`: write out one frame and shift the others left. -/
def Shift (q : GIFFrameQueue) (out : FILE) : Bool × GIFFrameQueue × FILE :=
  match q.Queue with
  | f :: rest =>
    let r := f.Write q.File out
    (r.1, { q with Queue := rest }, r.2)
  | [] => (true, q, out)

/-- `GIFFrameQueue::Enqueue`.  The store `Queue[QueueCount++] = frame` is inside the array
when `QueueCount ≤ QUEUE_SIZE` and `1 ≤ QUEUE_SIZE`. -/
def Enqueue (QUEUE_SIZE : Nat) (q : GIFFrameQueue) (out : FILE) (frame : GIFFrame) :
    Bool × GIFFrameQueue × FILE :=
  let r := if q.QueueCount = QUEUE_SIZE then q.Shift out else (true, q, out)
  (r.1, { r.2.1 with Queue := r.2.1.Queue ++ [frame] }, r.2.2)

end GIFFrameQueue

/-- `GIFWriter`, with the values of the constructor `GIFWriter::GIFWriter` as defaults.
`File` says whether the pointer `File` is not `NULL`; `Output` is the output file, which
`File` points to then, and `CanOpen` whether `_tfopen` will open it.  `PrevFrame` is `none`
for `NULL`. -/
structure GIFWriter where
  Output : FILE
  CanOpen : Bool
  File : Bool := false
  WriteQueue : GIFFrameQueue := {}
  FrameCount : Nat := 0
  TotalTicks : Nat := 0
  GIFTime : Nat := 0
  FrameRate : Int := 50
  PrevFrame : Option (Nat → Nat) := none
  BkgColor : Nat := 0
  PageWidth : Nat := 0
  PageHeight : Nat := 0
  GlobalPalBits : Nat := 0
  GlobalPal : Nat → ColorRegister := fun _ => ⟨0, 0, 0⟩

namespace GIFWriter

/-- `GIFWriter::BadWrite`: the stream is closed and both `File` pointers become `NULL`. -/
def BadWrite (w : GIFWriter) : GIFWriter :=
  { w with File := false, WriteQueue := w.WriteQueue.SetFile false }

/-- The loop `while (1 << p < numsrc && p < 8) ++p` of `ExtendPalette`; `p` grows by one
each turn and stops at 8, so 8 turns are enough. -/
def ExtendPaletteBits (numsrc : Int) : Nat → Nat → Nat
  | 0, p => p
  | fuel + 1, p => if ((1 <<< p : Nat) : Int) < numsrc ∧ p < 8 then ExtendPaletteBits numsrc fuel (p + 1)
                   else p

/-- The loop `for (i = 0; i < numsrc && i < numdest; ++i) dest[i] = src[i]` of
`ExtendPalette`, entered at `i`: the `i` it ends with and `dest` afterwards.  `i` grows by
one each turn, so `numdest - i` turns are enough. -/
def ExtendPaletteCopy (src : Nat → ColorRegister) (numsrc : Int) (numdest : Nat) :
    Nat → Nat → (Nat → ColorRegister) → Nat × (Nat → ColorRegister)
  | 0, i, dest => (i, dest)
  | fuel + 1, i, dest =>
    if (i : Int) < numsrc ∧ i < numdest then
      ExtendPaletteCopy src numsrc numdest fuel (i + 1) (Function.update dest i (src i))
    else (i, dest)

/-- The loop `for (; i < numdest; ++i)` of `ExtendPalette` that sets the extras to
grayscale.  The value `(i * 255) >> p` is below 255 for `i < 1 << p`, so it fits the
`UBYTE` it is stored in. -/
def ExtendPaletteGray (p numdest : Nat) :
    Nat → Nat → (Nat → ColorRegister) → (Nat → ColorRegister)
  | 0, _, dest => dest
  | fuel + 1, i, dest =>
    if i < numdest then
      ExtendPaletteGray p numdest fuel (i + 1)
        (Function.update dest i ⟨(i * 255) >>> p, (i * 255) >>> p, (i * 255) >>> p⟩)
    else dest

/-- `GIFWriter::ExtendPalette`: the number of bits returned and `dest` afterwards. -/
def ExtendPalette (dest src : Nat → ColorRegister) (numsrc : Int) : Nat × (Nat → ColorRegister) :=
  if numsrc ≤ 0 then (0, dest)
  else
    -- What's the closest power of 2 the palette fits in?
    let p := ExtendPaletteBits numsrc 8 1
    let numdest := 1 <<< p
    -- The source could potentially have more colors than we need, but also
    -- might not have enough.
    let copied := ExtendPaletteCopy src numsrc numdest numdest 0 dest
    -- Set extras to grayscale
    (p, ExtendPaletteGray p numdest numdest copied.1 copied.2)

/-- The scan `while (++start < end)` of `MinimumArea` for the first changed pixel, with
`start` already incremented: the `start` the loop ends with. -/
def MinimumAreaStart (prev cur : Nat → Nat) (end_ : Nat) : Nat → Nat → Nat
  | 0, start => start
  | fuel + 1, start =>
    if start < end_ then
      if prev start ≠ cur start then start
      else MinimumAreaStart prev cur end_ fuel (start + 1)
    else start

/-- The scan `while (--end > start)` of `MinimumArea` for the last changed pixel, entered
with `end`: the `end` the loop ends with.  It is entered with `start < end`, so `end` does
not go below `start`. -/
def MinimumAreaEnd (prev cur : Nat → Nat) (start : Nat) : Nat → Nat
  | 0 => 0
  | e + 1 =>
    if e > start then
      if prev e ≠ cur e then e
      else MinimumAreaEnd prev cur start e
    else e

/-- The inner loop `for (int y = top; y <= bot; ++y, p += imd.Width)` of `MinimumArea`:
whether a changed pixel was met, in the `rows` rows from `p` on. -/
def MinimumAreaColumn (prev cur : Nat → Nat) (width : Nat) : Nat → Nat → Bool
  | 0, _ => false
  | rows + 1, p =>
    if prev p ≠ cur p then true
    else MinimumAreaColumn prev cur width rows (p + width)

/-- The loop `for (x = 0; x < imd.Width - 1; ++x)` of `MinimumArea`, entered at `x`: the
`x` at `gotleft`. -/
def MinimumAreaLeft (prev cur : Nat → Nat) (width top bot : Nat) : Nat → Nat → Nat
  | 0, x => x
  | fuel + 1, x =>
    if x < width - 1 then
      if MinimumAreaColumn prev cur width (bot + 1 - top) (top * width + x) then x
      else MinimumAreaLeft prev cur width top bot fuel (x + 1)
    else x

/-- The loop `for (x = imd.Width - 1; x > 0; --x)` of `MinimumArea`, entered at `x`: the
`x` at `gotright`. -/
def MinimumAreaRight (prev cur : Nat → Nat) (width top bot : Nat) : Nat → Nat
  | 0 => 0
  | x + 1 =>
    if MinimumAreaColumn prev cur width (bot + 1 - top) (top * width + (x + 1)) then x + 1
    else MinimumAreaRight prev cur width top bot x

/-- `GIFWriter::MinimumArea`: the image descriptor afterwards. -/
def MinimumArea (prev cur : Nat → Nat) (imd : ImageDescriptor) : ImageDescriptor :=
  let end_ := imd.Width * imd.Height
  -- Scan from beginning to find first changed pixel.
  let start := MinimumAreaStart prev cur end_ end_ 0
  if start = end_ then
    -- Nothing changed! Use a dummy 1x1 rectangle
    { imd with Width := 1, Height := 1 }
  else
    -- Scan from end to find last changed pixel.
    let end_ := MinimumAreaEnd prev cur start end_
    -- Now we know the top and bottom of the changed area, but not the left and right.
    let top := start / imd.Width
    let bot := end_ / imd.Width
    let left := MinimumAreaLeft prev cur imd.Width top bot imd.Width 0
    let right := MinimumAreaRight prev cur imd.Width top bot (imd.Width - 1)
    { imd with Left := left, Top := top, Width := right - left + 1, Height := bot - top + 1 }

/-- The loops of `SelectDisposal`: whether some pixel of the rectangle is not `trans` in
`src` and is `trans` in `dest`. -/
def SelectDisposalScan (src dest : Nat → Nat) (imd : ImageDescriptor) (pitch trans : Nat) : Bool :=
  (List.range imd.Height).any fun y =>
    (List.range imd.Width).any fun x =>
      let i := imd.Left + imd.Top * pitch + y * pitch + x
      src i ≠ trans ∧ dest i = trans

/-- `memset(buffer, c, n)`. -/
def memset (buffer : Nat → Nat) (c : Nat) (n : Nat) : Nat → Nat :=
  fun i => if i < n then c % 256 else buffer i

/-- `GIFWriter::SelectDisposal`: the disposal method for this frame, and the writer
afterwards (`PrevFrame` is blanked when the preceding frame is disposed). -/
def SelectDisposal (w : GIFWriter) (planar : PlanarBitmap) (imd : ImageDescriptor)
    (chunky : Nat → Nat) : Nat × GIFWriter :=
  match w.PrevFrame with
  | none => (1, w)
  | some prevFrame =>
    -- If there is no transparent color, then we can keep the old frame intact.
    if planar.TransparentColor < 0 then (1, w)
    else
      let trans := (planar.TransparentColor % 256).toNat
      if SelectDisposalScan prevFrame chunky imd planar.Width trans then
        -- Dispose the preceding frame.
        let blank := memset prevFrame planar.TransparentColor.toNat (planar.Width * planar.Height)
        (2, { w with PrevFrame := some blank })
      else (1, w)

/-- The marking loops of `SelectTransparentColor`: `used` after a bit was set for every
colour used in the destination that changed from the preceding frame. -/
def SelectTransparentColorMark (prev now : Nat → Nat) (imd : ImageDescriptor) (pitch : Nat) :
    Nat → Nat :=
  ((List.range imd.Height).flatMap fun y =>
      (List.range imd.Width).map fun x => imd.Left + imd.Top * pitch + y * pitch + x).foldl
    (fun used i =>
      if prev i ≠ now i then
        Function.update used (now i >>> 3) (used (now i >>> 3) ||| (1 <<< (now i &&& 7)))
      else used)
    (fun _ => 0)

/-- The loop `for (j = 0; bits & 1; ++j) bits >>= 1` of `SelectTransparentColor`: the `j` it
ends with.  It is entered with `bits < 255`, so it ends within 8 turns. -/
def SelectTransparentColorBit : Nat → Nat → Nat → Nat
  | 0, _, j => j
  | fuel + 1, bits, j =>
    if bits &&& 1 ≠ 0 then SelectTransparentColorBit fuel (bits >>> 1) (j + 1) else j

/-- The loop `for (int i = 0; i < 256 / 8; ++i)` of `SelectTransparentColor`, entered at
`i` with `n` turns left, and the `return -1` behind it. -/
def SelectTransparentColorFind (used : Nat → Nat) (GlobalPalBits : Nat) : Nat → Nat → Int
  | 0, _ => -1
  | n + 1, i =>
    if used i ≠ 255 then
      let j := SelectTransparentColorBit 8 (used i) 0
      -- The color must be a part of the palette, if the palette has fewer than 256 colors.
      let color := (i <<< 3) + j
      if color < 1 <<< GlobalPalBits then (color : Int) else -1
    else SelectTransparentColorFind used GlobalPalBits n (i + 1)

/-- `GIFWriter::SelectTransparentColor`. -/
def SelectTransparentColor (w : GIFWriter) (prev now : Nat → Nat) (imd : ImageDescriptor)
    (pitch : Nat) : Int :=
  SelectTransparentColorFind (SelectTransparentColorMark prev now imd pitch) w.GlobalPalBits
    (256 / 8) 0

/-- `GIFWriter::DetectBackgroundColor`. -/
def DetectBackgroundColor (w : GIFWriter) (bitmap : PlanarBitmap) (_chunky : Nat → Nat) :
    GIFWriter :=
  -- If there is a transparent color, let it be the background.
  if bitmap.TransparentColor ≥ 0 then
    let bkg := (bitmap.TransparentColor % 256).toNat
    { w with BkgColor := bkg,
             PrevFrame := some (memset (fun _ => 0) bkg (bitmap.Width * bitmap.Height)) }
  else
    { w with BkgColor := 0 }

/-- The 7 bytes of the logical screen descriptor `lsd` of `WriteHeader`. -/
def WriteHeaderLSD (w : GIFWriter) : List Nat :=
  word16 w.PageWidth ++ word16 w.PageHeight ++
    [if w.GlobalPalBits > 0 then 0xF0 ||| (w.GlobalPalBits - 1) else 0, w.BkgColor, 0]

/-- The bytes of the first `n` entries of a palette. -/
def paletteBytes (pal : Nat → ColorRegister) (n : Nat) : List Nat :=
  (List.range n).flatMap fun i => [(pal i).red, (pal i).green, (pal i).blue]

/-- The string `"\x21\xFF\x0BNETSCAPE2.0\x03\x01\x00\x00"` with its terminating zero:
the 19 bytes of the looping extension. -/
def loopingExtension : List Nat :=
  [0x21, 0xFF, 0x0B, 78, 69, 84, 83, 67, 65, 80, 69, 50, 46, 48, 0x03, 0x01, 0x00, 0x00, 0x00]

/-- `GIFWriter::WriteHeader`. -/
def WriteHeader (w : GIFWriter) (loop : Bool) : GIFWriter :=
  let lsd := w.WriteHeaderLSD
  if !w.CanOpen then w -- Could not open
  else
    -- "wb" empties the file
    let w := { w with File := true, Output := { w.Output with data := [] },
                      WriteQueue := w.WriteQueue.SetFile true }
    let sig := w.Output.write [71, 73, 70, 56, 57, 97] -- "GIF89a"
    if !sig.1 then ({ w with Output := sig.2 }).BadWrite
    else
      let dsc := sig.2.write lsd
      if !dsc.1 then ({ w with Output := dsc.2 }).BadWrite
      else
        -- Write (or skip) palette
        let pal := if (lsd.getD 4 0) &&& 0x80 ≠ 0 then
                     dsc.2.write (paletteBytes w.GlobalPal (1 <<< w.GlobalPalBits))
                   else (true, dsc.2)
        if !pal.1 then ({ w with Output := pal.2 }).BadWrite
        else
          -- Write (or skip) the looping extension
          let lp := if loop then pal.2.write loopingExtension else (true, pal.2)
          if !lp.1 then ({ w with Output := lp.2 }).BadWrite
          else { w with Output := lp.2 }

/-- `MakeFrame`, lines 200 to 211: `newframe` as constructed, with the size of the bitmap
and its transparent colour, if there is one. -/
def MakeFrameNew (bitmap : PlanarBitmap) : GIFFrame :=
  let newframe : GIFFrame := {}
  let newframe := { newframe with IMD := { newframe.IMD with Width := bitmap.Width,
                                                               Height := bitmap.Height } }
  -- Is there a transparent color?
  if bitmap.TransparentColor ≥ 0 then
    { newframe with GCE := { newframe.GCE with
                               Flags := 1,
                               TransparentColor := (bitmap.TransparentColor % 256).toNat } }
  else newframe

/-- `MakeFrame`, lines 212 to 229: update properties on the preceding frame that couldn't
be determined until this frame.  `ULONG` is 32 bits wide and `int delay` holds the
difference of the two times as a signed 32-bit value. -/
def MakeFramePatch (w : GIFWriter) (bitmap : PlanarBitmap) (newframe : GIFFrame)
    (chunky : Nat → Nat) : GIFWriter :=
  match w.WriteQueue.MostRecent with
  | some oldframe =>
    let d := w.SelectDisposal bitmap newframe.IMD chunky
    let w := d.2
    let oldframe := { oldframe with
      GCE := { oldframe.GCE with Flags := (oldframe.GCE.Flags ||| (d.1 <<< 2)) % 256 } }
    if bitmap.Delay ≠ 0 then
      -- GIF timing is in 1/100 sec. ANIM timing is in multiples of an FPS clock.
      let tick : Nat := (((w.TotalTicks : Int) + bitmap.Delay) % 2 ^ 32).toNat
      let lasttime : Nat := w.GIFTime
      let nowtime : Nat := tick * 100 % 2 ^ 32 / (w.FrameRate % 2 ^ 32).toNat
      let delay : Int := ((nowtime : Int) - lasttime + 2 ^ 31) % 2 ^ 32 - 2 ^ 31
      { w with WriteQueue := w.WriteQueue.setMostRecent (oldframe.SetDelay delay),
               TotalTicks := tick,
               GIFTime := (((w.GIFTime : Int) + delay) % 2 ^ 32).toNat }
    else
      { w with WriteQueue := w.WriteQueue.setMostRecent oldframe }
  | none => w

/-- `MakeFrame`, lines 230 to 234: identify the minimum rectangle that needs to be
updated. -/
def MakeFrameArea (w : GIFWriter) (newframe : GIFFrame) (chunky : Nat → Nat) : GIFFrame :=
  match w.PrevFrame with
  | some prevFrame => { newframe with IMD := MinimumArea prevFrame chunky newframe.IMD }
  | none => newframe

/-- `MakeFrame`, lines 235 to 255: `trans`, `temptrans` and `newframe` afterwards. -/
def MakeFrameTrans (w : GIFWriter) (bitmap : PlanarBitmap) (newframe : GIFFrame)
    (chunky : Nat → Nat) : Int × Bool × GIFFrame :=
  match w.PrevFrame with
  | none => (-1, false, newframe)
  | some prevFrame =>
    if w.FrameCount = 0 ∨ newframe.GCE.Flags &&& 0x1C0 = 0x80 then (-1, false, newframe)
    else if newframe.GCE.Flags &&& 1 ≠ 0 then
      ((newframe.GCE.TransparentColor : Int), false, newframe)
    else
      let trans := w.SelectTransparentColor prevFrame chunky newframe.IMD bitmap.Width
      if trans ≥ 0 then
        (trans, true,
          { newframe with GCE := { newframe.GCE with Flags := newframe.GCE.Flags ||| 1,
                                                     TransparentColor := (trans % 256).toNat } })
      else (trans, false, newframe)

/-- `MakeFrame`, lines 256 to 275: compress the image data, with the transparent
substitution and, if that was done, again without. `prevFrame` is not read when
`trans < 0`. -/
def MakeFrameCompress (prevFrame : Nat → Nat) (bitmap : PlanarBitmap) (chunky : Nat → Nat)
    (newframe : GIFFrame) (trans : Int) (temptrans : Bool) : GIFFrame :=
  let newframe := { newframe with
    LZW := LZWCompress newframe.LZW newframe.IMD prevFrame chunky bitmap.Width
      (bitmap.NumPlanes % 256) trans }
  if trans ≥ 0 then
    let try2 := LZWCompress [] newframe.IMD prevFrame chunky bitmap.Width
      (bitmap.NumPlanes % 256) (-1)
    if try2.length ≤ newframe.LZW.length then
      let newframe := { newframe with LZW := try2 }
      if temptrans then
        -- Undo the transparent color
        { newframe with GCE := { newframe.GCE with Flags := newframe.GCE.Flags &&& 0xFE,
                                                   TransparentColor := 0 } }
      else newframe
    else newframe
  else newframe

/-- `MakeFrame` at line 230: the writer after `SetDropFrames` and the update of the
preceding frame. -/
def MakeFramePatched (w : GIFWriter) (bitmap : PlanarBitmap) (chunky : Nat → Nat) : GIFWriter :=
  ({ w with WriteQueue := w.WriteQueue.SetDropFrames bitmap.Interleave } :
    GIFWriter).MakeFramePatch bitmap (MakeFrameNew bitmap) chunky

/-- `MakeFrame` at line 235: `newframe` with the rectangle to encode. -/
def MakeFrameRect (w : GIFWriter) (bitmap : PlanarBitmap) (chunky : Nat → Nat) : GIFFrame :=
  (w.MakeFramePatched bitmap chunky).MakeFrameArea (MakeFrameNew bitmap) chunky

/-- `MakeFrame` at line 256: `trans`, `temptrans` and `newframe`. -/
def MakeFrameChoice (w : GIFWriter) (bitmap : PlanarBitmap) (chunky : Nat → Nat) :
    Int × Bool × GIFFrame :=
  (w.MakeFramePatched bitmap chunky).MakeFrameTrans bitmap (w.MakeFrameRect bitmap chunky) chunky

/-- What `LZWCompress` makes of the rectangle of `MakeFrame` with the substitution colour
`trans` (none when `trans < 0`), into an empty vector. -/
def MakeFrameTry (w : GIFWriter) (bitmap : PlanarBitmap) (chunky : Nat → Nat) (trans : Int) :
    List Nat :=
  LZWCompress [] (w.MakeFrameRect bitmap chunky).IMD
    ((w.MakeFramePatched bitmap chunky).PrevFrame.getD fun _ => 0) chunky bitmap.Width
    (bitmap.NumPlanes % 256) trans

/-- `MakeFrame` at line 276: the `newframe` handed to `Enqueue`. -/
def MakeFrameFrame (w : GIFWriter) (bitmap : PlanarBitmap) (chunky : Nat → Nat) : GIFFrame :=
  MakeFrameCompress ((w.MakeFramePatched bitmap chunky).PrevFrame.getD fun _ => 0) bitmap chunky
    (w.MakeFrameChoice bitmap chunky).2.2 (w.MakeFrameChoice bitmap chunky).1
    (w.MakeFrameChoice bitmap chunky).2.1

/-- `GIFWriter::MakeFrame`. -/
def MakeFrame (QUEUE_SIZE : Nat) (w : GIFWriter) (bitmap : PlanarBitmap) (chunky : Nat → Nat) :
    GIFWriter :=
  let newframe := w.MakeFrameFrame bitmap chunky
  let w := w.MakeFramePatched bitmap chunky
  -- Queue this frame for later writing, possibly flushing one frame to disk.
  let r := w.WriteQueue.Enqueue QUEUE_SIZE w.Output newframe
  let w := { w with WriteQueue := r.2.1, Output := r.2.2 }
  let w := if !r.1 then w.BadWrite else w
  -- Remember this frame's pixels
  { w with PrevFrame := some chunky }

/-- `GIFWriter::AddFrame`; `chunky` is the buffer `bitmap->ToChunky` has filled. -/
def AddFrame (QUEUE_SIZE : Nat) (w : GIFWriter) (bitmap : PlanarBitmap) (chunky : Nat → Nat) :
    GIFWriter :=
  let w :=
    if w.FrameCount = 0 then
      let pal := ExtendPalette w.GlobalPal bitmap.Palette bitmap.PaletteSize
      ({ w with PageWidth := bitmap.Width, PageHeight := bitmap.Height,
                GlobalPalBits := pal.1, GlobalPal := pal.2 }).DetectBackgroundColor bitmap
        chunky
    else if w.FrameCount = 1 then
      -- This is the second frame, so we know we can loop this GIF.
      w.WriteHeader true
    else w
  let w := if bitmap.Rate > 0 then { w with FrameRate := bitmap.Rate } else w
  let w := w.MakeFrame QUEUE_SIZE bitmap chunky
  { w with FrameCount := w.FrameCount + 1 }

/-- The destructor `GIFWriter::~GIFWriter`, and behind it the destructor of `WriteQueue`,
which runs `Flush`. -/
def destruct (w : GIFWriter) : GIFWriter :=
  let w := if w.FrameCount = 1 then w.WriteHeader false else w
  let w :=
    if w.File then
      let fl := w.WriteQueue.Flush w.Output
      let w := { w with WriteQueue := fl.2.1, Output := fl.2.2 }
      if !fl.1 then w.BadWrite
      else
        -- Add the trailer byte to terminate the GIF
        let tr := w.Output.write [0x3B]
        if !tr.1 then ({ w with Output := tr.2 }).BadWrite else { w with Output := tr.2 }
    else w
  let fl := w.WriteQueue.Flush w.Output
  { w with WriteQueue := fl.2.1, Output := fl.2.2, PrevFrame := none }

end GIFWriter

end Iff2Gif

namespace Iff2Gif

/-! ## Concrete inputs -/

namespace Example

/-- A bitmap of 2x1 pixels with 2 colours, colour 0 transparent. -/
def bitmap2x1 : PlanarBitmap :=
  { Width := 2, Height := 1, NumPlanes := 1, Palette := fun _ => ⟨0, 0, 0⟩,
    PaletteSize := 2, TransparentColor := 0, Delay := 3, Rate := 50, Interleave := 0 }

/-- A writer whose preceding frame holds colour 1 everywhere, with one frame queued. -/
def writer1 : GIFWriter :=
  { Output := ⟨[], 1000⟩, CanOpen := true, PrevFrame := some (fun _ => 1), FrameCount := 1,
    GlobalPalBits := 1, WriteQueue := { Queue := [{}] } }

/-- The pixels `1 0`: the second one turns transparent. -/
def chunky10 : Nat → Nat := fun i => if i = 1 then 0 else 1

/-- The pixels `1 1`: nothing changes. -/
def chunky11 : Nat → Nat := fun _ => 1

end Example

end Iff2Gif

namespace Iff2Gif

/-! ## A reference GIF decoder

The repository only encodes.  This is the decoder of the GIF89a specification, against
which the round trip of `LZWCompress` is stated: it reads the code-size byte, de-frames the
sub-blocks, unpacks the variable-width codes lowest bit first, and handles the clear and
the end-of-information code.  It yields the pixels decoded when it reads
end-of-information or the data ends, and fails on a code that is not in its table. -/

/-- The low `w` bits of `n`, lowest first. -/
def natBits : Nat → Nat → List Bool
  | 0, _ => []
  | w + 1, n => (n % 2 == 1) :: natBits w (n / 2)

/-- The bits of a byte sequence, each byte lowest bit first. -/
def bytesBits (bytes : List Nat) : List Bool :=
  bytes.flatMap (natBits 8)

/-- The bits `WriteCode` was asked to pack: each code lowest bit first, in the width it
was written with. -/
def writtenBits (written : List (Nat × Nat)) : List Bool :=
  written.flatMap fun cw => natBits cw.2 cw.1

/-- The payload of a sequence of sub-blocks: `n` is the number of bytes the current
sub-block still holds; a length byte of 0 ends the sequence. -/
def deframe : Nat → List Nat → List Nat
  | _, [] => []
  | 0, len :: rest => if len = 0 then [] else deframe len rest
  | n + 1, b :: rest => b :: deframe n rest

/-- The state of the LZW decoder: the current code width, the string of every code of
the table (the entries of the clear and the end-of-information code are placeholders), the
previous code since the last clear code, and the pixels decoded so far. -/
structure LZWDecoder where
  minCodeSize : Nat
  codeSize : Nat
  table : List (List Nat)
  prev : Option Nat
  out : List Nat
deriving Repr

namespace LZWDecoder

/-- The decoder after a clear code. -/
def clear (m : Nat) (out : List Nat) : LZWDecoder :=
  { minCodeSize := m, codeSize := m + 1,
    table := (List.range (2 ^ m)).map (fun i => [i]) ++ [[], []],
    prev := none, out := out }

/-- The decoder after the code `code`, which is not end-of-information; `none` when the
code is not in the table and is not the next one to enter it. -/
def step (d : LZWDecoder) (code : Nat) : Option LZWDecoder :=
  if code = 2 ^ d.minCodeSize then some (clear d.minCodeSize d.out)
  else
    match d.prev with
    | none =>
      if code < d.table.length then
        some { d with prev := some code, out := d.out ++ d.table.getD code [] }
      else none
    | some pc =>
      if code ≤ d.table.length then
        let ps := d.table.getD pc []
        let entry := if code < d.table.length then d.table.getD code [] else ps ++ ps.take 1
        let table := if d.table.length < 4096 then d.table ++ [ps ++ entry.take 1] else d.table
        let codeSize := if table.length = 2 ^ d.codeSize ∧ d.codeSize < 12 then d.codeSize + 1
                        else d.codeSize
        some { d with codeSize := codeSize, table := table, prev := some code,
                      out := d.out ++ entry }
      else none

/-- The decoder on a bit stream: `acc` holds the `n` bits read of the current code.  It
ends with the pixels decoded at end-of-information or at the end of the bits, and with
`none` at a code `step` rejects. -/
def run (d : LZWDecoder) (acc n : Nat) : List Bool → Option (List Nat)
  | [] => some d.out
  | b :: bits =>
    if n + 1 = d.codeSize then
      if acc + (if b then 2 ^ n else 0) = 2 ^ d.minCodeSize + 1 then some d.out
      else
        match d.step (acc + if b then 2 ^ n else 0) with
        | none => none
        | some d => run d 0 0 bits
    else run d (acc + if b then 2 ^ n else 0) (n + 1) bits

end LZWDecoder

/-- The GIF decoder on the image data of one frame: the code-size byte, then the
sub-blocks. -/
def GIFDecode (bytes : List Nat) : Option (List Nat) :=
  match bytes with
  | [] => none
  | m :: rest => (LZWDecoder.clear m []).run 0 0 (bytesBits (deframe 0 rest))

/-- The bits of a `CodeStream` that started behind `pre`: the payload bytes dumped so far
and the `BitPos` bits in the accumulator are the bits of the codes written. -/
def BitInv (pre : List Nat) (s : CodeStream) : Prop :=
  ∃ payload : List Nat, Packed pre payload s.Codes s.Chunk ∧ 0 ≤ s.BitPos ∧ s.BitPos ≤ 7 ∧
    s.Accum < 2 ^ s.BitPos.toNat ∧
    bytesBits payload ++ natBits s.BitPos.toNat s.Accum = writtenBits s.Written

/-- The encoder `s` and the decoder `d` agree once the encoder has taken the pixels `inp`
and the decoder has read the codes written so far.  The decoder enters a string one code
later than the encoder assigns it: `pend` is the entry the encoder has and the decoder
has not yet (none right after a clear code), so `d.table ++ pend` is the encoder's
dictionary read backwards, from a code to its string. -/
structure Sim (m : Nat) (s : CodeStream) (d : LZWDecoder) (inp : List Nat)
    (pend : List (List Nat)) : Prop where
  minCodeSize : d.minCodeSize = m
  codeSize : d.codeSize = s.CodeSize
  table_len : 2 ^ m + 2 ≤ d.table.length
  table_lit : ∀ i, i < 2 ^ m → d.table.getD i [] = [i]
  next : (d.table ++ pend).length = s.NextCode
  nonempty : ∀ i, i < (d.table ++ pend).length → i ≠ 2 ^ m → i ≠ 2 ^ m + 1 →
    (d.table ++ pend).getD i [] ≠ []
  fresh : d.prev = none → pend = [] ∧ d.table.length = 2 ^ m + 2 ∧ d.codeSize = m + 1
  pending : ∀ pc, d.prev = some pc → pc < d.table.length ∧ pc ≠ 2 ^ m ∧ pc ≠ 2 ^ m + 1 ∧
    ∃ q, pend = [d.table.getD pc [] ++ [q]] ∧
      ((d.table ++ pend).getD s.Match.toNat []).head? = some q
  matched : (s.Match < 0 ∧ d.out = inp ∧ d.prev = none) ∨
    (0 ≤ s.Match ∧ d.out ++ (d.table ++ pend).getD s.Match.toNat [] = inp)
  dict : ∀ c b v, c < 65536 → b < 256 →
    s.Dict.lookup (c ||| (b <<< 16) ||| (1 <<< 24)) = some v →
      c < v ∧ v < (d.table ++ pend).length ∧
        (d.table ++ pend).getD v [] = (d.table ++ pend).getD c [] ++ [b]
  decoded : ∀ rest, (LZWDecoder.clear m []).run 0 0 (writtenBits s.Written ++ rest) =
    d.run 0 0 rest

end Iff2Gif

namespace Iff2Gif

/-! ## Frames in the stream -/

/-- The bytes of a frame in the stream: the graphic control extension when a flag or the
delay is set, the image separator, the image descriptor, the LZW payload. -/
def GIFFrame.bytes (f : GIFFrame) : List Nat :=
  (if f.GCE.Flags ≠ 0 ∨ f.GCE.DelayTime ≠ 0 then f.GCE.bytes else []) ++ [0x2C] ++
    f.IMD.bytes ++ f.LZW

/-- A run of `Enqueue` calls, as `MakeFrame` issues them frame after frame: the queue and
the stream afterwards. -/
def GIFFrameQueue.EnqueueAll (QUEUE_SIZE : Nat) (q : GIFFrameQueue) (out : FILE) :
    List GIFFrame → GIFFrameQueue × FILE
  | [] => (q, out)
  | g :: gs =>
    GIFFrameQueue.EnqueueAll QUEUE_SIZE (q.Enqueue QUEUE_SIZE out g).2.1
      (q.Enqueue QUEUE_SIZE out g).2.2 gs

/-- The bytes in front of the first frame: the signature `GIF89a`, the logical screen
descriptor, the global palette when there is one, and the looping extension when `loop`
is set. -/
def GIFWriter.headerBytes (w : GIFWriter) (loop : Bool) : List Nat :=
  [71, 73, 70, 56, 57, 97] ++ w.WriteHeaderLSD ++
    (if 0 < w.GlobalPalBits then paletteBytes w.GlobalPal (2 ^ w.GlobalPalBits) else []) ++
    (if loop then loopingExtension else [])

namespace Example

/-- A frame with the transparency flag set, the rectangle `(1, 2, 3, 4)` and the payload
`2 1 0`. -/
def frameT : GIFFrame :=
  { GCE := { Flags := 1, TransparentColor := 5 }, IMD := ⟨1, 2, 3, 4, 0⟩, LZW := [2, 1, 0] }

/-- An open queue that holds two frames, with the payloads `1` and `2`. -/
def queue2 : GIFFrameQueue :=
  { File := true, Queue := [{ LZW := [1] }, { LZW := [2] }] }

/-- The queue `queue2`, told to drop its last frame. -/
def queue2drop : GIFFrameQueue := { queue2 with FinalFramesToDrop := 1 }

/-- The writer after `AddFrame` has taken the pixels `1 1` of `bitmap2x1` as the first
frame of a stream. -/
def writerA : GIFWriter :=
  GIFWriter.AddFrame 2 { Output := ⟨[], 1000⟩, CanOpen := true } bitmap2x1 chunky11

/-- The writer `writerA` in a second `AddFrame` for `bitmap2x1`, when it calls `MakeFrame`:
the header is written and the frame rate of the bitmap is set. -/
def writerB : GIFWriter :=
  { writerA.WriteHeader true with FrameRate := 50 }

/-- The frame `writerA` has queued: the two pixels `1 1`, flagged transparent. -/
def frameA : GIFFrame :=
  { GCE := { Flags := 1 }, IMD := ⟨0, 0, 2, 1, 0⟩, LZW := [2, 2, 76, 10, 0] }

/-- The bitmap `bitmap2x1` with a delay of 40000 ticks, 800 seconds at 50 ticks a
second. -/
def bitmapLong : PlanarBitmap := { bitmap2x1 with Delay := 40000 }

/-- A bitmap of 2x1 pixels with the palette black, white and no transparent colour. -/
def still2x1 : PlanarBitmap :=
  { Width := 2, Height := 1, NumPlanes := 1,
    Palette := fun i => if i = 0 then ⟨0, 0, 0⟩ else ⟨255, 255, 255⟩,
    PaletteSize := 2, TransparentColor := -1, Delay := 0, Rate := 0, Interleave := 0 }

/-- A writer that has taken one frame of 1x1 pixels with the palette black, white. -/
def writerHeader : GIFWriter :=
  { Output := ⟨[], 100⟩, CanOpen := true, FrameCount := 1, PageWidth := 1, PageHeight := 1,
    GlobalPalBits := 1,
    GlobalPal := fun i => if i = 0 then ⟨0, 0, 0⟩ else ⟨255, 255, 255⟩ }

/-- A writer after a failed write, with one frame queued and two frames taken. -/
def writerFailed : GIFWriter :=
  { Output := ⟨[71, 73], 0⟩, CanOpen := true, PrevFrame := some (fun _ => 1), FrameCount := 2,
    GlobalPalBits := 1, WriteQueue := { Queue := [{}] } }

end Example

end Iff2Gif

namespace Iff2Gif

open CodeStream

/-! ## Framing: what `Dump` and `DumpAccum` do to `Codes` and `Chunk` -/

theorem frameBlocks_append (xs ys : List (List Nat)) :
    frameBlocks (xs ++ ys) = frameBlocks xs ++ frameBlocks ys := by
  simp [frameBlocks]

theorem Packed.init (pre : List Nat) : Packed pre [] pre [] :=
  ⟨[], by simp [frameBlocks], by simp, by simp, by simp⟩

/-- Appending one byte to the sub-block buffer, with the `Dump` that follows when it
reaches 255 bytes. -/
theorem Packed.push {pre payload codes chunk : List Nat} (h : Packed pre payload codes chunk)
    (b : Nat) :
    Packed pre (payload ++ [b])
      (if (chunk ++ [b]).length = 255 then codes ++ ((chunk ++ [b]).length :: (chunk ++ [b]))
        else codes)
      (if (chunk ++ [b]).length = 255 then [] else chunk ++ [b]) := by
  obtain ⟨blocks, hc, hb, hl, hp⟩ := h
  by_cases h255 : (chunk ++ [b]).length = 255
  · refine ⟨blocks ++ [chunk ++ [b]], ?_, ?_, ?_, ?_⟩
    · simp only [h255, if_true, hc, frameBlocks_append, List.append_assoc]
      simp [frameBlocks, h255]
    · intro x hx
      rcases List.mem_append.1 hx with hx | hx
      · exact hb x hx
      · simp at hx; subst hx; exact h255
    · simp [h255]
    · simp [h255, ← hp]
  · have h254 : ¬ chunk.length = 254 := by simpa using h255
    refine ⟨blocks, ?_, hb, ?_, ?_⟩
    · simp [h254, hc]
    · simp only [h255, if_false]
      simp at h255 ⊢; omega
    · simp [h254, ← hp]

@[simp] theorem Dump_Accum (s : CodeStream) : s.Dump.Accum = s.Accum := by
  unfold Dump; split <;> rfl
@[simp] theorem Dump_BitPos (s : CodeStream) : s.Dump.BitPos = s.BitPos := by
  unfold Dump; split <;> rfl

theorem DumpAccumLoop_spec (stop : Int) (hstop : 0 ≤ stop) :
    ∀ (fuel : Nat) (s : CodeStream),
      ∃ (codes chunk : List Nat) (k : Nat),
        DumpAccumLoop stop fuel s =
          { s with Codes := codes, Chunk := chunk, Accum := s.Accum / 256 ^ k,
                   BitPos := s.BitPos - 8 * k } ∧
        (∀ pre payload, Packed pre payload s.Codes s.Chunk →
          Packed pre (payload ++ accumBytes k s.Accum) codes chunk) ∧
        (k = 0 ∨ stop < s.BitPos - 8 * k + 8) ∧
        (s.BitPos.toNat ≤ fuel → s.BitPos - 8 * k ≤ stop) := by
  intro fuel
  induction fuel with
  | zero =>
    intro s
    refine ⟨s.Codes, s.Chunk, 0, ?_, ?_, Or.inl rfl, ?_⟩
    · simp [DumpAccumLoop]
    · intro pre payload h; simpa [accumBytes] using h
    · intro hf; simp at hf ⊢; omega
  | succ fuel ih =>
    intro s
    by_cases hgt : s.BitPos > stop
    · have hand : s.Accum &&& 0xFF = s.Accum % 256 := Nat.and_pow_two_sub_one_eq_mod s.Accum 8
      have hshift : s.Accum >>> 8 = s.Accum / 256 := Nat.shiftRight_eq_div_pow s.Accum 8
      have hacc : ∀ k (payload : List Nat), payload ++ accumBytes (k + 1) s.Accum
            = payload ++ [s.Accum &&& 0xFF] ++ accumBytes k (s.Accum >>> 8) := by
        intro k payload; simp [accumBytes, hand, hshift]
      have hdiv : ∀ k, s.Accum >>> 8 / 256 ^ k = s.Accum / 256 ^ (k + 1) := by
        intro k; rw [hshift, Nat.div_div_eq_div_mul, pow_succ, mul_comm]
      rw [DumpAccumLoop, if_pos hgt]
      simp only []
      by_cases h255 : (s.Chunk ++ [s.Accum &&& 0xFF]).length = 255
      · simp only [h255, if_true]
        obtain ⟨codes, chunk, k, heq, hpk, hk, hex⟩ := ih
          ({ s with Chunk := s.Chunk ++ [s.Accum &&& 0xFF], Accum := s.Accum >>> 8,
                    BitPos := s.BitPos - 8 } : CodeStream).Dump
        refine ⟨codes, chunk, k + 1, ?_, ?_, Or.inr ?_, ?_⟩
        · rw [heq]; simp [Dump, h255, hdiv]; omega
        · intro pre payload h
          have hp := h.push (s.Accum &&& 0xFF)
          simp only [h255, if_true] at hp
          rw [hacc]
          simpa using hpk pre (payload ++ [s.Accum &&& 0xFF]) (by simpa [Dump, h255] using hp)
        · simp at hk; push_cast; omega
        · intro hf; simp at hex; push_cast; omega
      · simp only [h255, if_false]
        obtain ⟨codes, chunk, k, heq, hpk, hk, hex⟩ := ih
          ({ s with Chunk := s.Chunk ++ [s.Accum &&& 0xFF], Accum := s.Accum >>> 8,
                    BitPos := s.BitPos - 8 } : CodeStream)
        refine ⟨codes, chunk, k + 1, ?_, ?_, Or.inr ?_, ?_⟩
        · rw [heq]; simp [hdiv]; omega
        · intro pre payload h
          have hp := h.push (s.Accum &&& 0xFF)
          simp only [h255, if_false] at hp
          rw [hacc]
          simpa using hpk pre (payload ++ [s.Accum &&& 0xFF]) (by simpa using hp)
        · simp at hk; push_cast; omega
        · intro hf; simp at hex; push_cast; omega
    · refine ⟨s.Codes, s.Chunk, 0, ?_, ?_, Or.inl rfl, ?_⟩
      · simp [DumpAccumLoop, hgt]
      · intro pre payload h; simpa [accumBytes] using h
      · intro _; simp; omega

/-- What `WriteCode` does: the code is or-ed into the accumulator, `k` bytes are dumped,
and a clear code resets the dictionary. -/
theorem WriteCode_spec (s : CodeStream) (code : Nat) :
    ∃ (codes chunk : List Nat) (k : Nat),
      s.WriteCode code =
        (let t : CodeStream :=
          { s with Codes := codes, Chunk := chunk,
                   Accum := (s.Accum ||| (code <<< s.BitPos.toNat)) / 256 ^ k,
                   BitPos := s.BitPos + s.CodeSize - 8 * k,
                   Written := s.Written ++ [(code, s.CodeSize)] }
         if code = s.ClearCode then t.ResetDict else t) ∧
      (∀ pre payload, Packed pre payload s.Codes s.Chunk →
        Packed pre (payload ++ accumBytes k (s.Accum ||| (code <<< s.BitPos.toNat))) codes chunk) ∧
      (k = 0 ∨ 7 < s.BitPos + s.CodeSize - 8 * k + 8) ∧
      s.BitPos + s.CodeSize - 8 * k ≤ 7 := by
  obtain ⟨codes, chunk, k, heq, hpk, hk, hex⟩ :=
    DumpAccumLoop_spec 7 (by norm_num) (s.BitPos + s.CodeSize).toNat
      { s with Accum := s.Accum ||| (code <<< s.BitPos.toNat),
               BitPos := s.BitPos + s.CodeSize,
               Written := s.Written ++ [(code, s.CodeSize)] }
  refine ⟨codes, chunk, k, ?_, hpk, hk, hex (le_refl _)⟩
  simp only [WriteCode, DumpAccum, Bool.false_eq_true, if_false]
  rw [heq]

/-- The framing alone: `Codes` is `pre` and full sub-blocks, `Chunk` is shorter than 255. -/
theorem WriteCode_framed (pre : List Nat) (s : CodeStream) (code : Nat)
    (h : ∃ payload, Packed pre payload s.Codes s.Chunk) :
    ∃ payload, Packed pre payload (s.WriteCode code).Codes (s.WriteCode code).Chunk := by
  obtain ⟨payload, h⟩ := h
  obtain ⟨codes, chunk, k, heq, hpk, -, -⟩ := WriteCode_spec s code
  refine ⟨payload ++ accumBytes k (s.Accum ||| (code <<< s.BitPos.toNat)), ?_⟩
  rw [heq]
  by_cases hc : code = s.ClearCode
  · simpa [hc, ResetDict] using hpk pre payload h
  · simpa [hc] using hpk pre payload h

theorem AddByte_framed (pre : List Nat) (s : CodeStream) (p : Nat)
    (h : ∃ payload, Packed pre payload s.Codes s.Chunk) :
    ∃ payload, Packed pre payload (s.AddByte p).Codes (s.AddByte p).Chunk := by
  unfold AddByte
  by_cases hm : s.Match < 0
  · simpa [hm] using h
  · simp only [hm, if_false]
    cases hl : s.Dict.lookup (s.Match.toNat ||| (p <<< 16) ||| (1 <<< 24)) with
    | some got => simpa using h
    | none =>
      have h1 := WriteCode_framed pre s s.Match.toNat h
      simp only []
      split_ifs
      · exact WriteCode_framed pre _ _ (by simpa using h1)
      · simpa using h1
      · simpa using h1

theorem construct_framed (m : Nat) (pre : List Nat) :
    ∃ payload, Packed pre payload (construct m pre).Codes (construct m pre).Chunk :=
  WriteCode_framed pre _ _ ⟨[], by simpa using Packed.init pre⟩

theorem foldl_AddByte_framed (pre : List Nat) (input : List Nat) :
    ∀ s : CodeStream, (∃ payload, Packed pre payload s.Codes s.Chunk) →
      ∃ payload, Packed pre payload (input.foldl AddByte s).Codes (input.foldl AddByte s).Chunk := by
  induction input with
  | nil => intro s h; simpa using h
  | cons p ps ih => intro s h; exact ih _ (AddByte_framed pre s p h)

/-- The rows loop of `LZWCompress` hands the bytes of the rectangle to `AddByte`, row by
row. -/
theorem LZWCompressRows_eq_foldl (px : Nat → Nat) (width pitch : Nat) :
    ∀ (rows off : Nat) (codes : CodeStream),
      LZWCompressRows px width pitch rows off codes =
        (((List.range rows).flatMap fun y =>
            (List.range width).map fun x => px (off + y * pitch + x)).foldl AddByte codes) := by
  intro rows
  induction rows with
  | zero => intro off codes; simp [LZWCompressRows]
  | succ rows ih =>
    intro off codes
    rw [LZWCompressRows, ih, List.range_succ_eq_map, List.flatMap_cons, List.foldl_append]
    have h1 : List.foldl (fun c x => c.AddByte (px (off + x))) codes (List.range width)
        = List.foldl AddByte codes (List.map (fun x => px (off + 0 * pitch + x)) (List.range width)) := by
      simp [List.foldl_map]
    rw [h1]
    congr 1
    simp only [List.flatMap_map]
    apply List.flatMap_congr
    intro y _
    apply List.map_congr_left
    intro x _
    congr 1
    simp [Nat.succ_mul]; ring

theorem LZWCompressCodes_eq (vec : List Nat) (imd : ImageDescriptor) (prev chunky : Nat → Nat)
    (pitch mincodesize : Nat) (trans : Int) :
    LZWCompressCodes vec imd prev chunky pitch mincodesize trans =
      (LZWCompressInput imd prev chunky pitch trans).foldl AddByte
        (construct (if mincodesize < 2 then 2 else mincodesize)
          (vec ++ [if mincodesize < 2 then 2 else mincodesize])) := by
  unfold LZWCompressCodes LZWCompressInput
  by_cases ht : trans < 0
  · simp only [ht, if_true]
    rw [LZWCompressRows_eq_foldl]
  · simp only [ht, if_false]
    rw [LZWCompressRows_eq_foldl]

theorem DumpAccum_framed (pre : List Nat) (s : CodeStream) (full : Bool)
    (h : ∃ payload, Packed pre payload s.Codes s.Chunk) :
    ∃ payload, Packed pre payload (s.DumpAccum full).Codes (s.DumpAccum full).Chunk := by
  obtain ⟨payload, h⟩ := h
  obtain ⟨codes, chunk, k, heq, hpk, -, -⟩ :=
    DumpAccumLoop_spec (if full then 0 else 7) (by split <;> norm_num) s.BitPos.toNat s
  exact ⟨_, by unfold DumpAccum; rw [heq]; exact hpk pre payload h⟩

/-- The final `Dump` and the block terminator, on a framed stream. -/
theorem Dump_terminated (pre : List Nat) (s : CodeStream)
    (h : ∃ payload, Packed pre payload s.Codes s.Chunk) :
    ∃ blocks : List (List Nat),
      s.Dump.Codes ++ [0] = pre ++ frameBlocks blocks ++ [0] ∧
      (∀ b ∈ blocks, 1 ≤ b.length ∧ b.length ≤ 255) ∧
      (∀ b ∈ blocks.dropLast, b.length = 255) ∧
      (∃ payload, Packed pre payload s.Codes s.Chunk ∧ blocks.flatten = payload) := by
  obtain ⟨payload, blocks, hc, hb, hl, hp⟩ := h
  by_cases hch : s.Chunk.length > 0
  · refine ⟨blocks ++ [s.Chunk], ?_, ?_, ?_, payload, ⟨blocks, hc, hb, hl, hp⟩, ?_⟩
    · simp [Dump, hch, hc, frameBlocks]
    · intro b hb'
      rcases List.mem_append.1 hb' with hb' | hb'
      · rw [hb b hb']; omega
      · simp at hb'; subst hb'; omega
    · intro b hb'
      rw [List.dropLast_concat] at hb'
      exact hb b hb'
    · simpa using hp
  · have hnil : s.Chunk = [] := by
      cases hs : s.Chunk with
      | nil => rfl
      | cons a t => simp [hs] at hch
    refine ⟨blocks, ?_, ?_, ?_, payload, ⟨blocks, hc, hb, hl, hp⟩, ?_⟩
    · simp [Dump, hch, hc]
    · intro b hb'; rw [hb b hb']; omega
    · intro b hb'; exact hb b (List.mem_of_mem_dropLast hb')
    · simpa [hnil] using hp

theorem destruct_Codes (s : CodeStream) :
    s.destruct.Codes =
      (((if s.Match ≥ 0 then s.WriteCode s.Match.toNat else s).WriteCode
          (if s.Match ≥ 0 then s.WriteCode s.Match.toNat else s).EOICode).DumpAccum true).Dump.Codes
        ++ [0] := rfl

theorem destruct_framed (pre : List Nat) (s : CodeStream)
    (h : ∃ payload, Packed pre payload s.Codes s.Chunk) :
    ∃ blocks : List (List Nat),
      s.destruct.Codes = pre ++ frameBlocks blocks ++ [0] ∧
      (∀ b ∈ blocks, 1 ≤ b.length ∧ b.length ≤ 255) ∧
      (∀ b ∈ blocks.dropLast, b.length = 255) := by
  have h1 : ∃ payload, Packed pre payload
      (if s.Match ≥ 0 then s.WriteCode s.Match.toNat else s).Codes
      (if s.Match ≥ 0 then s.WriteCode s.Match.toNat else s).Chunk := by
    split
    · exact WriteCode_framed _ _ _ h
    · exact h
  have h2 := DumpAccum_framed _ _ true (WriteCode_framed _ _
    (if s.Match ≥ 0 then s.WriteCode s.Match.toNat else s).EOICode h1)
  obtain ⟨blocks, hc, hb, hd, -⟩ := Dump_terminated _ _ h2
  exact ⟨blocks, by rw [destruct_Codes]; exact hc, hb, hd⟩

end Iff2Gif

namespace Iff2Gif

open CodeStream

/-! ## The numeric invariant of the code stream -/

theorem mem_of_lookup_eq_some {k v : Nat} :
    ∀ {d : List (Nat × Nat)}, d.lookup k = some v → (k, v) ∈ d := by
  intro d
  induction d with
  | nil => intro h; simp at h
  | cons a t ih =>
    intro h
    obtain ⟨a1, a2⟩ := a
    rw [List.lookup_cons] at h
    by_cases hk : k = a1
    · subst hk; simp at h; subst h; simp
    · have : (k == a1) = false := by simpa using hk
      rw [this] at h
      exact List.mem_cons_of_mem _ (ih h)

theorem mem_ResetDictFill {k v : Nat} :
    ∀ (n : Nat) (d : List (Nat × Nat)), (k, v) ∈ ResetDictFill n d → (k, v) ∈ d ∨ (k < n ∧ v = k) := by
  intro n
  induction n with
  | zero => intro d h; exact Or.inl h
  | succ n ih =>
    intro d h
    rcases ih _ h with h | h
    · rcases List.mem_cons.1 h with h | h
      · right; simp at h; omega
      · exact Or.inl h
    · right; omega

theorem two_pow_bounds {m : Nat} (h2 : 2 ≤ m) (h8 : m ≤ 8) : 4 ≤ 2 ^ m ∧ 2 ^ m ≤ 256 := by
  constructor
  · calc 4 = 2 ^ 2 := by norm_num
      _ ≤ 2 ^ m := Nat.pow_le_pow_right (by norm_num) h2
  · calc 2 ^ m ≤ 2 ^ 8 := Nat.pow_le_pow_right (by norm_num) h8
      _ = 256 := by norm_num

theorem getElem?_snoc_fst (l : List (Nat × Nat)) (x : Nat × Nat) (i : Nat) (c : Nat) :
    ((l ++ [x])[i]?.map Prod.fst = some c) ↔
      (i < l.length ∧ l[i]?.map Prod.fst = some c) ∨ (i = l.length ∧ x.1 = c) := by
  by_cases hi : i < l.length
  · rw [List.getElem?_append_left hi]
    constructor
    · intro h; exact Or.inl ⟨hi, h⟩
    · rintro (⟨_, h⟩ | ⟨h, _⟩)
      · exact h
      · omega
  · rw [List.getElem?_append_right (by omega)]
    by_cases he : i = l.length
    · subst he; simp
    · have : i - l.length ≠ 0 := by omega
      obtain ⟨j, hj⟩ := Nat.exists_eq_succ_of_ne_zero this
      rw [hj]; simp
      exact ⟨fun h => absurd h hi, fun h => absurd h he⟩

end Iff2Gif

namespace Iff2Gif

open CodeStream

theorem mod_aux (q n r : Nat) (hr : r < n) : (q * n + r) % n = r := by
  rw [Nat.add_comm, Nat.add_mul_mod_self_right, Nat.mod_eq_of_lt hr]

theorem pow_ge_of_gt_12 {cs : Nat} (h : 12 ≤ cs) : 4096 ≤ 2 ^ cs := by
  calc 4096 = 2 ^ 12 := by norm_num
    _ ≤ 2 ^ cs := Nat.pow_le_pow_right (by norm_num) h

/-- `WriteCode` on a code that is not the clear code. -/
theorem WriteCode_of_ne (s : CodeStream) (code : Nat) (hc : code ≠ s.ClearCode) :
    ∃ (codes chunk : List Nat) (k : Nat),
      s.WriteCode code =
          { s with Codes := codes, Chunk := chunk,
                   Accum := (s.Accum ||| (code <<< s.BitPos.toNat)) / 256 ^ k,
                   BitPos := s.BitPos + s.CodeSize - 8 * k,
                   Written := s.Written ++ [(code, s.CodeSize)] } ∧
      (∀ pre payload, Packed pre payload s.Codes s.Chunk →
        Packed pre (payload ++ accumBytes k (s.Accum ||| (code <<< s.BitPos.toNat))) codes chunk) ∧
      (k = 0 ∨ 7 < s.BitPos + s.CodeSize - 8 * k + 8) ∧
      s.BitPos + s.CodeSize - 8 * k ≤ 7 := by
  obtain ⟨codes, chunk, k, heq, h⟩ := WriteCode_spec s code
  exact ⟨codes, chunk, k, by simpa [hc] using heq, h⟩

/-- `WriteCode` on the clear code. -/
theorem WriteCode_clear (s : CodeStream) :
    ∃ (codes chunk : List Nat) (k : Nat),
      s.WriteCode s.ClearCode =
          { s with Codes := codes, Chunk := chunk,
                   Accum := (s.Accum ||| (s.ClearCode <<< s.BitPos.toNat)) / 256 ^ k,
                   BitPos := s.BitPos + s.CodeSize - 8 * k,
                   Written := s.Written ++ [(s.ClearCode, s.CodeSize)],
                   CodeSize := s.MinCodeSize + 1,
                   NextCode := s.EOICode + 1,
                   Match := -1,
                   Dict := ResetDictFill (1 <<< s.MinCodeSize) [] } ∧
      (∀ pre payload, Packed pre payload s.Codes s.Chunk →
        Packed pre (payload ++ accumBytes k (s.Accum ||| (s.ClearCode <<< s.BitPos.toNat)))
          codes chunk) ∧
      (k = 0 ∨ 7 < s.BitPos + s.CodeSize - 8 * k + 8) ∧
      s.BitPos + s.CodeSize - 8 * k ≤ 7 := by
  obtain ⟨codes, chunk, k, heq, h⟩ := WriteCode_spec s s.ClearCode
  exact ⟨codes, chunk, k, by simpa [ResetDict] using heq, h⟩

theorem NumInv_construct {m : Nat} (h2 : 2 ≤ m) (h8 : m ≤ 8) (pre : List Nat) :
    NumInv m (construct m pre) := by
  obtain ⟨hlo, hhi⟩ := two_pow_bounds h2 h8
  obtain ⟨codes, chunk, k, heq, -, hk, hle⟩ := WriteCode_clear
    { Codes := pre, Accum := 0, ClearCode := 1 <<< m,
      EOICode := (1 <<< m) + 1, NextCode := 0, Match := 0,
      CodeSize := m + 1, MinCodeSize := m, BitPos := 0,
      Chunk := [], Dict := [], Written := [] }
  have h1 : (1 : Nat) <<< m = 2 ^ m := by simp [Nat.shiftLeft_eq]
  simp only [h1] at heq hk hle
  unfold construct
  simp only [h1]
  rw [heq]
  refine ⟨rfl, rfl, rfl, le_refl _, by simp; omega, by simp [pow_succ]; omega, by simp,
    by simp; omega, by simp [pow_succ]; omega, by simp,
    by show ((-1 : ℤ) < ((2 ^ m + 1 + 1 : ℕ) : ℤ)); omega,
    ⟨by show ((-1 : ℤ) ≠ ((2 ^ m : ℕ) : ℤ)); omega,
     by show ((-1 : ℤ) ≠ ((2 ^ m : ℕ) : ℤ) + 1); omega⟩, ?_, ?_,
    ?_, ?_, ?_⟩
  · intro k v hkv
    simp only at hkv
    rcases mem_ResetDictFill _ _ hkv with h | h
    · simp at h
    · simp; omega
  · intro cw hcw
    simp at hcw; subst hcw
    simp [pow_succ]; omega
  · simp at hk hle ⊢; omega
  · exact ⟨0, by simp; omega⟩
  · intro i hi
    simp at hi; subst hi; simp

/-- `AddByte` when the string is not in the dictionary and the dictionary is not full:
the match is written, the string gets the next code, and the code size may grow. -/
theorem AddByte_miss (s : CodeStream) (p : Nat) (hm : ¬ s.Match < 0)
    (hl : s.Dict.lookup (s.Match.toNat ||| (p <<< 16) ||| (1 <<< 24)) = none)
    (hne : s.Match.toNat ≠ s.ClearCode) (hlim : s.NextCode + 1 ≠ 4096) :
    ∃ (codes chunk : List Nat) (k : Nat),
      s.AddByte p =
          { s with Codes := codes, Chunk := chunk,
                   Accum := (s.Accum ||| (s.Match.toNat <<< s.BitPos.toNat)) / 256 ^ k,
                   BitPos := s.BitPos + s.CodeSize - 8 * k,
                   Written := s.Written ++ [(s.Match.toNat, s.CodeSize)],
                   Dict := (s.Match.toNat ||| (p <<< 16) ||| (1 <<< 24), s.NextCode) :: s.Dict,
                   NextCode := s.NextCode + 1,
                   CodeSize := if s.NextCode + 1 = 2 ^ s.CodeSize + 1 then s.CodeSize + 1
                               else s.CodeSize,
                   Match := p } ∧
      (∀ pre payload, Packed pre payload s.Codes s.Chunk →
        Packed pre (payload ++ accumBytes k (s.Accum ||| (s.Match.toNat <<< s.BitPos.toNat)))
          codes chunk) ∧
      (k = 0 ∨ 7 < s.BitPos + s.CodeSize - 8 * k + 8) ∧
      s.BitPos + s.CodeSize - 8 * k ≤ 7 := by
  obtain ⟨codes, chunk, k, heq, h⟩ := WriteCode_of_ne s s.Match.toNat hne
  refine ⟨codes, chunk, k, ?_, h⟩
  have hshift : ∀ n : Nat, (1 : Nat) <<< n = 2 ^ n := fun n => by simp [Nat.shiftLeft_eq]
  unfold AddByte
  simp only [hm, if_false, hl]
  rw [heq]
  simp only [hshift, show CODE_LIMIT = 4096 from rfl]
  rw [if_neg hlim]
  by_cases hb : s.NextCode + 1 = 2 ^ s.CodeSize + 1
  · rw [if_pos hb, if_pos hb]
  · rw [if_neg hb, if_neg hb]

/-- `AddByte` when the string is not in the dictionary and takes the last code: the match
is written, then the clear code, and the dictionary is reset. -/
theorem AddByte_miss_clear (s : CodeStream) (p : Nat) (hm : ¬ s.Match < 0)
    (hl : s.Dict.lookup (s.Match.toNat ||| (p <<< 16) ||| (1 <<< 24)) = none)
    (hne : s.Match.toNat ≠ s.ClearCode) (hlim : s.NextCode + 1 = 4096) :
    ∃ (codes chunk : List Nat) (k : Nat) (codes2 chunk2 : List Nat) (k2 : Nat),
      s.AddByte p =
          { s with Codes := codes2, Chunk := chunk2,
                   Accum := ((s.Accum ||| (s.Match.toNat <<< s.BitPos.toNat)) / 256 ^ k |||
                      (s.ClearCode <<< (s.BitPos + s.CodeSize - 8 * k).toNat)) / 256 ^ k2,
                   BitPos := s.BitPos + s.CodeSize - 8 * k + s.CodeSize - 8 * k2,
                   Written := s.Written ++ [(s.Match.toNat, s.CodeSize)] ++
                      [(s.ClearCode, s.CodeSize)],
                   Dict := ResetDictFill (1 <<< s.MinCodeSize) [],
                   NextCode := s.EOICode + 1,
                   CodeSize := s.MinCodeSize + 1,
                   Match := p } ∧
      (∀ pre payload, Packed pre payload s.Codes s.Chunk →
        Packed pre (payload ++ accumBytes k (s.Accum ||| (s.Match.toNat <<< s.BitPos.toNat)))
          codes chunk) ∧
      (k = 0 ∨ 7 < s.BitPos + s.CodeSize - 8 * k + 8) ∧
      s.BitPos + s.CodeSize - 8 * k ≤ 7 ∧
      (∀ pre payload, Packed pre payload codes chunk →
        Packed pre (payload ++ accumBytes k2
          ((s.Accum ||| (s.Match.toNat <<< s.BitPos.toNat)) / 256 ^ k |||
                      (s.ClearCode <<< (s.BitPos + s.CodeSize - 8 * k).toNat)))
          codes2 chunk2) ∧
      (k2 = 0 ∨ 7 < s.BitPos + s.CodeSize - 8 * k + s.CodeSize - 8 * k2 + 8) ∧
      s.BitPos + s.CodeSize - 8 * k + s.CodeSize - 8 * k2 ≤ 7 := by
  obtain ⟨codes, chunk, k, heq, h1, h2, h3⟩ := WriteCode_of_ne s s.Match.toNat hne
  obtain ⟨codes2, chunk2, k2, heq2, h4, h5, h6⟩ := WriteCode_clear
    { s with Codes := codes, Chunk := chunk,
             Accum := (s.Accum ||| (s.Match.toNat <<< s.BitPos.toNat)) / 256 ^ k,
             BitPos := s.BitPos + s.CodeSize - 8 * k,
             Written := s.Written ++ [(s.Match.toNat, s.CodeSize)],
             Dict := (s.Match.toNat ||| (p <<< 16) ||| (1 <<< 24), s.NextCode) :: s.Dict,
             NextCode := s.NextCode + 1 }
  refine ⟨codes, chunk, k, codes2, chunk2, k2, ?_, h1, h2, h3, h4, h5, h6⟩
  unfold AddByte
  simp only [hm, if_false, hl]
  rw [heq]
  simp only [show CODE_LIMIT = 4096 from rfl]
  rw [if_pos hlim]
  simp only [] at heq2
  rw [heq2]

theorem AddByte_start (s : CodeStream) (p : Nat) (hm : s.Match < 0) :
    s.AddByte p = { s with Match := p } := by
  unfold AddByte; simp only [hm, if_true]

theorem AddByte_hit (s : CodeStream) (p got : Nat) (hm : ¬ s.Match < 0)
    (hl : s.Dict.lookup (s.Match.toNat ||| (p <<< 16) ||| (1 <<< 24)) = some got) :
    s.AddByte p = { s with Match := got } := by
  unfold AddByte; simp only [hm, if_false, hl]

theorem NumInv_AddByte {m : Nat} (h2 : 2 ≤ m) (h8 : m ≤ 8) {s : CodeStream} (h : NumInv m s)
    {p : Nat} (hp : p < 2 ^ m) : NumInv m (s.AddByte p) := by
  obtain ⟨hlo, hhi⟩ := two_pow_bounds h2 h8
  obtain ⟨hmin, hcc, heoi, hcsge, hcsle, hcpow, hnge, hnle, hnpow, hmge, hmlt, hmne, hdict, hwr,
    hbp, hcl, hcs⟩ := h
  have hshift : ∀ n : Nat, (1 : Nat) <<< n = 2 ^ n := fun n => by simp [Nat.shiftLeft_eq]
  by_cases hm : s.Match < 0
  · rw [AddByte_start s p hm]
    exact ⟨hmin, hcc, heoi, hcsge, hcsle, hcpow, hnge, hnle, hnpow,
      by show (-1 : ℤ) ≤ (p : ℤ); omega, by show (p : ℤ) < s.NextCode; omega,
      ⟨by show (p : ℤ) ≠ s.ClearCode; omega, by show (p : ℤ) ≠ s.ClearCode + 1; omega⟩,
      hdict, hwr, hbp, hcl, hcs⟩
  · cases hl : s.Dict.lookup (s.Match.toNat ||| (p <<< 16) ||| (1 <<< 24)) with
    | some got =>
      rw [AddByte_hit s p got hm hl]
      obtain ⟨hg1, hg2, hg3⟩ := hdict _ _ (mem_of_lookup_eq_some hl)
      exact ⟨hmin, hcc, heoi, hcsge, hcsle, hcpow, hnge, hnle, hnpow,
        by show (-1 : ℤ) ≤ (got : ℤ); omega, by show (got : ℤ) < s.NextCode; omega,
        ⟨by show (got : ℤ) ≠ s.ClearCode; omega, by show (got : ℤ) ≠ s.ClearCode + 1; omega⟩,
        hdict, hwr, hbp, hcl, hcs⟩
    | none =>
      have hmnat : s.Match.toNat < s.NextCode := by omega
      have hmne1 : s.Match.toNat ≠ s.ClearCode := by omega
      obtain ⟨q, hq⟩ := hcl
      have hN1 : s.NextCode - s.ClearCode - 1 < 4095 - s.ClearCode := by omega
      have hlenmod : s.Written.length % (4095 - s.ClearCode) = s.NextCode - s.ClearCode - 1 := by
        rw [hq]; exact mod_aux _ _ _ hN1
      have hwr1 : ∀ cw ∈ s.Written ++ [(s.Match.toNat, s.CodeSize)],
          m + 1 ≤ cw.2 ∧ cw.2 ≤ 12 ∧ cw.1 < 2 ^ cw.2 := by
        intro cw hcw
        rcases List.mem_append.1 hcw with hcw | hcw
        · exact hwr cw hcw
        · simp at hcw; subst hcw
          exact ⟨hcsge, hcsle, by show s.Match.toNat < 2 ^ s.CodeSize; omega⟩
      have hcs1 : ∀ i, i < (s.Written ++ [(s.Match.toNat, s.CodeSize)]).length →
          ((s.Written ++ [(s.Match.toNat, s.CodeSize)])[i]?.map Prod.fst = some s.ClearCode ↔
            i % (4095 - s.ClearCode) = 0) := by
        intro i hi
        rw [getElem?_snoc_fst]
        by_cases hil : i < s.Written.length
        · rw [← hcs i hil]
          constructor
          · rintro (⟨_, h⟩ | ⟨h, _⟩)
            · exact h
            · omega
          · intro h; exact Or.inl ⟨hil, h⟩
        · have hieq : i = s.Written.length := by simp at hi; omega
          subst hieq
          constructor
          · rintro (⟨h, _⟩ | ⟨_, h⟩)
            · omega
            · exact absurd h hmne1
          · intro h; omega
      by_cases h4096 : s.NextCode + 1 = 4096
      · obtain ⟨codes, chunk, k, codes2, chunk2, k2, heq, -, hk1, hle1, -, hk2, hle2⟩ :=
          AddByte_miss_clear s p hm hl hmne1 h4096
        rw [heq]
        refine ⟨hmin, hcc, heoi, by simp only [hmin]; exact le_refl _, by simp only [hmin]; omega,
          by simp only [hmin, hcc, pow_succ]; omega, by simp only [heoi]; omega,
          by simp only [heoi]; omega, by simp only [hmin, heoi, hcc, pow_succ]; omega,
          by show (-1 : ℤ) ≤ (p : ℤ); omega,
          by show (p : ℤ) < ((s.EOICode + 1 : ℕ) : ℤ); omega,
          ⟨by show (p : ℤ) ≠ s.ClearCode; omega, by show (p : ℤ) ≠ s.ClearCode + 1; omega⟩,
          ?_, ?_, ?_, ?_, ?_⟩
        · intro k v hkv
          simp only at hkv
          rcases mem_ResetDictFill _ _ hkv with h | h
          · simp at h
          · simp only [hshift, hmin] at h
            simp only [heoi]; omega
        · intro cw hcw
          rcases List.mem_append.1 hcw with hcw | hcw
          · exact hwr1 cw hcw
          · simp at hcw; subst hcw
            exact ⟨hcsge, hcsle, by show s.ClearCode < 2 ^ s.CodeSize; omega⟩
        · simp only; omega
        · refine ⟨q + 1, ?_⟩
          simp only [List.length_append, List.length_singleton, heoi, hq, Nat.succ_mul]
          omega
        · intro i hi
          rw [getElem?_snoc_fst]
          by_cases hil : i < (s.Written ++ [(s.Match.toNat, s.CodeSize)]).length
          · rw [← hcs1 i hil]
            constructor
            · rintro (⟨_, h⟩ | ⟨h, _⟩)
              · exact h
              · omega
            · intro h; exact Or.inl ⟨hil, h⟩
          · have hieq : i = (s.Written ++ [(s.Match.toNat, s.CodeSize)]).length := by
              simp at hi hil ⊢; omega
            constructor
            · intro _
              rw [hieq, List.length_append, List.length_singleton, hq]
              have : q * (4095 - s.ClearCode) + (s.NextCode - s.ClearCode - 1) + 1
                  = (q + 1) * (4095 - s.ClearCode) := by rw [Nat.succ_mul]; omega
              rw [this]; exact Nat.mul_mod_left _ _
            · intro _; exact Or.inr ⟨hieq, rfl⟩
      · obtain ⟨codes, chunk, k, heq, -, hk1, hle1⟩ := AddByte_miss s p hm hl hmne1 h4096
        rw [heq]
        refine ⟨hmin, hcc, heoi, ?_, ?_, ?_, by simp only; omega, by simp only; omega, ?_,
          by show (-1 : ℤ) ≤ (p : ℤ); omega,
          by show (p : ℤ) < ((s.NextCode + 1 : ℕ) : ℤ); omega,
          ⟨by show (p : ℤ) ≠ s.ClearCode; omega, by show (p : ℤ) ≠ s.ClearCode + 1; omega⟩,
          ?_, hwr1, ?_, ?_, hcs1⟩
        · simp only; split <;> omega
        · simp only; split
          · have := @pow_ge_of_gt_12 s.CodeSize
            omega
          · exact hcsle
        · simp only; split
          · rw [pow_succ]; omega
          · exact hcpow
        · simp only; split
          · rw [pow_succ]; omega
          · omega
        · intro k v hkv
          simp only at hkv ⊢
          rcases List.mem_cons.1 hkv with h | h
          · simp at h; omega
          · have := hdict k v h; omega
        · simp only; omega
        · refine ⟨q, ?_⟩
          simp only [List.length_append, List.length_singleton, hq]
          omega

theorem NumInv_foldl {m : Nat} (h2 : 2 ≤ m) (h8 : m ≤ 8) :
    ∀ (input : List Nat) (s : CodeStream), NumInv m s → (∀ p ∈ input, p < 2 ^ m) →
      NumInv m (input.foldl AddByte s) := by
  intro input
  induction input with
  | nil => intro s h _; exact h
  | cons p ps ih =>
    intro s h hp
    exact ih _ (NumInv_AddByte h2 h8 h (hp p (List.mem_cons_self _ _)))
      (fun x hx => hp x (List.mem_cons_of_mem _ hx))

theorem DumpAccum_Written (s : CodeStream) (full : Bool) :
    (s.DumpAccum full).Written = s.Written ∧ (s.DumpAccum full).CodeSize = s.CodeSize := by
  obtain ⟨codes, chunk, k, heq, -, -, -⟩ :=
    DumpAccumLoop_spec (if full then 0 else 7) (by split <;> norm_num) s.BitPos.toNat s
  unfold DumpAccum
  rw [heq]
  exact ⟨rfl, rfl⟩

theorem Dump_Written (s : CodeStream) :
    s.Dump.Written = s.Written ∧ s.Dump.CodeSize = s.CodeSize := by
  unfold Dump; split <;> exact ⟨rfl, rfl⟩

/-- The codes the destructor writes: the pending match, if any, and end-of-information,
both with the code size the stream was left with. -/
theorem destruct_Written {m : Nat} {s : CodeStream} (h : NumInv m s) :
    s.destruct.Written =
      s.Written ++ (if s.Match ≥ 0 then [(s.Match.toNat, s.CodeSize)] else []) ++
        [(s.EOICode, s.CodeSize)] ∧
    s.destruct.CodeSize = s.CodeSize := by
  have hmne := h.match_ne
  have heoi := h.eoiCode
  have hE : ∀ t : CodeStream, t.ClearCode = s.ClearCode → t.EOICode = s.EOICode →
      (((t.WriteCode t.EOICode).DumpAccum true).Dump.Written
          = t.Written ++ [(s.EOICode, t.CodeSize)] ∧
       ((t.WriteCode t.EOICode).DumpAccum true).Dump.CodeSize = t.CodeSize) := by
    intro t h1 h2
    obtain ⟨codes, chunk, k, heq, -⟩ := WriteCode_of_ne t t.EOICode (by rw [h1, h2, heoi]; omega)
    rw [(Dump_Written _).1, (DumpAccum_Written _ _).1, (Dump_Written _).2,
      (DumpAccum_Written _ _).2, heq, h2]
    exact ⟨rfl, rfl⟩
  unfold destruct
  simp only []
  by_cases hm : s.Match ≥ 0
  · simp only [hm, if_true]
    obtain ⟨codes, chunk, k, heq, -⟩ := WriteCode_of_ne s s.Match.toNat (by omega)
    rw [heq]
    exact hE
      ({ s with Codes := codes, Chunk := chunk,
                Accum := (s.Accum ||| (s.Match.toNat <<< s.BitPos.toNat)) / 256 ^ k,
                BitPos := s.BitPos + s.CodeSize - 8 * k,
                Written := s.Written ++ [(s.Match.toNat, s.CodeSize)] } : CodeStream) rfl rfl
  · simp only [hm, if_false]
    have := hE s rfl rfl
    simpa using this

end Iff2Gif

namespace Iff2Gif

open GIFWriter

/-! ## `ExtendPalette` -/

theorem ExtendPaletteBits_spec (numsrc : Int) :
    ∀ (fuel p : Nat), 8 ≤ p + fuel → p ≤ 8 →
      p ≤ ExtendPaletteBits numsrc fuel p ∧ ExtendPaletteBits numsrc fuel p ≤ 8 ∧
      (numsrc ≤ ((2 ^ ExtendPaletteBits numsrc fuel p : Nat) : Int) ∨
        ExtendPaletteBits numsrc fuel p = 8) ∧
      (∀ q, p ≤ q → q < ExtendPaletteBits numsrc fuel p → ((2 ^ q : Nat) : Int) < numsrc) := by
  intro fuel
  induction fuel with
  | zero =>
    intro p h8 hp
    have : p = 8 := by omega
    subst this
    rw [ExtendPaletteBits]
    exact ⟨le_refl _, le_refl _, Or.inr rfl, fun q h1 h2 => by omega⟩
  | succ fuel ih =>
    intro p h8 hp
    rw [ExtendPaletteBits]
    have hs : (1 : Nat) <<< p = 2 ^ p := by simp [Nat.shiftLeft_eq]
    rw [hs]
    by_cases hc : ((2 ^ p : Nat) : Int) < numsrc ∧ p < 8
    · rw [if_pos hc]
      obtain ⟨h1, h2, h3, h4⟩ := ih (p + 1) (by omega) (by omega)
      refine ⟨by omega, h2, h3, ?_⟩
      intro q hq1 hq2
      by_cases hqp : q = p
      · subst hqp; exact hc.1
      · exact h4 q (by omega) hq2
    · rw [if_neg hc]
      refine ⟨le_refl _, hp, ?_, fun q h1 h2 => by omega⟩
      by_cases h : p < 8
      · left
        have : ¬ ((2 ^ p : Nat) : Int) < numsrc := fun h' => hc ⟨h', h⟩
        omega
      · right; omega

theorem ExtendPaletteCopy_spec (src : Nat → ColorRegister) (numsrc : Int) (numdest : Nat) :
    ∀ (fuel i : Nat) (dest : Nat → ColorRegister), numdest ≤ i + fuel → (i : Int) ≤ numsrc →
      i ≤ numdest →
      ((ExtendPaletteCopy src numsrc numdest fuel i dest).1 : Int) = min numsrc numdest ∧
      (∀ j, j < i → (ExtendPaletteCopy src numsrc numdest fuel i dest).2 j = dest j) ∧
      (∀ j, i ≤ j → (j : Int) < min numsrc numdest →
        (ExtendPaletteCopy src numsrc numdest fuel i dest).2 j = src j) ∧
      (∀ j : Nat, min numsrc (numdest : Int) ≤ (j : Int) →
        (ExtendPaletteCopy src numsrc numdest fuel i dest).2 j = dest j) := by
  intro fuel
  induction fuel with
  | zero =>
    intro i dest h1 h2 h3
    have : i = numdest := by omega
    subst this
    rw [ExtendPaletteCopy]
    refine ⟨by simp only; omega, fun _ _ => rfl, fun j hj1 hj2 => by omega, fun _ _ => rfl⟩
  | succ fuel ih =>
    intro i dest h1 h2 h3
    rw [ExtendPaletteCopy]
    by_cases hc : (i : Int) < numsrc ∧ i < numdest
    · rw [if_pos hc]
      obtain ⟨e1, e2, e3, e4⟩ := ih (i + 1) (Function.update dest i (src i)) (by omega)
        (by omega) (by omega)
      refine ⟨e1, ?_, ?_, ?_⟩
      · intro j hj
        rw [e2 j (by omega), Function.update_noteq (by omega)]
      · intro j hj1 hj2
        by_cases hji : j = i
        · subst hji
          rw [e2 j (by omega), Function.update_same]
        · exact e3 j (by omega) hj2
      · intro j hj
        rw [e4 j hj, Function.update_noteq]
        intro hji; subst hji; omega
    · rw [if_neg hc]
      refine ⟨by simp only; omega, fun _ _ => rfl, fun j hj1 hj2 => by omega, fun _ _ => rfl⟩

theorem ExtendPaletteGray_spec (p numdest : Nat) :
    ∀ (fuel i : Nat) (dest : Nat → ColorRegister), numdest ≤ i + fuel →
      (∀ j, j < i → ExtendPaletteGray p numdest fuel i dest j = dest j) ∧
      (∀ j, i ≤ j → j < numdest →
        ExtendPaletteGray p numdest fuel i dest j =
          ⟨(j * 255) >>> p, (j * 255) >>> p, (j * 255) >>> p⟩) ∧
      (∀ j, numdest ≤ j → ExtendPaletteGray p numdest fuel i dest j = dest j) := by
  intro fuel
  induction fuel with
  | zero =>
    intro i dest h1
    rw [ExtendPaletteGray]
    exact ⟨fun _ _ => rfl, fun j hj1 hj2 => by omega, fun _ _ => rfl⟩
  | succ fuel ih =>
    intro i dest h1
    rw [ExtendPaletteGray]
    by_cases hc : i < numdest
    · rw [if_pos hc]
      obtain ⟨e1, e2, e3⟩ := ih (i + 1)
        (Function.update dest i ⟨(i * 255) >>> p, (i * 255) >>> p, (i * 255) >>> p⟩) (by omega)
      refine ⟨?_, ?_, ?_⟩
      · intro j hj
        rw [e1 j (by omega), Function.update_noteq (by omega)]
      · intro j hj1 hj2
        by_cases hji : j = i
        · subst hji
          rw [e1 j (by omega), Function.update_same]
        · exact e2 j (by omega) hj2
      · intro j hj
        rw [e3 j hj, Function.update_noteq (by omega)]
    · rw [if_neg hc]
      exact ⟨fun _ _ => rfl, fun j hj1 hj2 => by omega, fun _ _ => rfl⟩

end Iff2Gif

namespace Iff2Gif

open GIFWriter

/-! ## `MinimumArea` -/

theorem MinimumAreaStart_spec (prev cur : Nat → Nat) (end_ : Nat) :
    ∀ (fuel start : Nat), end_ ≤ start + fuel → start ≤ end_ →
      start ≤ MinimumAreaStart prev cur end_ fuel start ∧
      MinimumAreaStart prev cur end_ fuel start ≤ end_ ∧
      (MinimumAreaStart prev cur end_ fuel start < end_ →
        prev (MinimumAreaStart prev cur end_ fuel start) ≠
          cur (MinimumAreaStart prev cur end_ fuel start)) ∧
      (∀ j, start ≤ j → j < MinimumAreaStart prev cur end_ fuel start → prev j = cur j) := by
  intro fuel
  induction fuel with
  | zero =>
    intro start h1 h2
    rw [MinimumAreaStart]
    exact ⟨le_refl _, h2, fun h => by omega, fun j h3 h4 => by omega⟩
  | succ fuel ih =>
    intro start h1 h2
    rw [MinimumAreaStart]
    by_cases hlt : start < end_
    · rw [if_pos hlt]
      by_cases hd : prev start ≠ cur start
      · rw [if_pos hd]
        exact ⟨le_refl _, h2, fun _ => hd, fun j h3 h4 => by omega⟩
      · rw [if_neg hd]
        obtain ⟨e1, e2, e3, e4⟩ := ih (start + 1) (by omega) (by omega)
        refine ⟨by omega, e2, e3, ?_⟩
        intro j hj1 hj2
        by_cases hjs : j = start
        · subst hjs; exact not_not.1 hd
        · exact e4 j (by omega) hj2
    · rw [if_neg hlt]
      exact ⟨le_refl _, h2, fun h => by omega, fun j h3 h4 => by omega⟩

theorem MinimumAreaEnd_spec (prev cur : Nat → Nat) (start : Nat) :
    ∀ (e : Nat), start < e →
      start ≤ MinimumAreaEnd prev cur start e ∧
      MinimumAreaEnd prev cur start e < e ∧
      (start < MinimumAreaEnd prev cur start e →
        prev (MinimumAreaEnd prev cur start e) ≠ cur (MinimumAreaEnd prev cur start e)) ∧
      (∀ j, MinimumAreaEnd prev cur start e < j → j < e → prev j = cur j) := by
  intro e
  induction e with
  | zero => intro h; omega
  | succ e ih =>
    intro h
    rw [MinimumAreaEnd]
    by_cases hgt : e > start
    · rw [if_pos hgt]
      by_cases hd : prev e ≠ cur e
      · rw [if_pos hd]
        exact ⟨by omega, by omega, fun _ => hd, fun j h3 h4 => by omega⟩
      · rw [if_neg hd]
        obtain ⟨e1, e2, e3, e4⟩ := ih hgt
        refine ⟨e1, by omega, e3, ?_⟩
        intro j hj1 hj2
        by_cases hje : j = e
        · subst hje; exact not_not.1 hd
        · exact e4 j hj1 (by omega)
    · rw [if_neg hgt]
      exact ⟨by omega, by omega, fun h' => by omega, fun j h3 h4 => by omega⟩

theorem MinimumAreaColumn_spec (prev cur : Nat → Nat) (width : Nat) :
    ∀ (rows p : Nat), MinimumAreaColumn prev cur width rows p = true ↔
      ∃ k, k < rows ∧ prev (p + k * width) ≠ cur (p + k * width) := by
  intro rows
  induction rows with
  | zero => intro p; simp [MinimumAreaColumn]
  | succ rows ih =>
    intro p
    rw [MinimumAreaColumn]
    by_cases hd : prev p ≠ cur p
    · rw [if_pos hd]
      simp only [true_iff]
      exact ⟨0, by omega, by simpa using hd⟩
    · rw [if_neg hd, ih]
      constructor
      · rintro ⟨k, hk, h⟩
        refine ⟨k + 1, by omega, ?_⟩
        rw [Nat.succ_mul]
        rw [show p + (k * width + width) = p + width + k * width by ring]
        exact h
      · rintro ⟨k, hk, h⟩
        cases k with
        | zero => simp at h; exact absurd h hd
        | succ k =>
          refine ⟨k, by omega, ?_⟩
          rw [Nat.succ_mul] at h
          rw [show p + width + k * width = p + (k * width + width) by ring]
          exact h

theorem MinimumAreaLeft_spec (prev cur : Nat → Nat) (width top bot : Nat) :
    ∀ (fuel x : Nat), width - 1 ≤ x + fuel → x ≤ width - 1 →
      x ≤ MinimumAreaLeft prev cur width top bot fuel x ∧
      MinimumAreaLeft prev cur width top bot fuel x ≤ width - 1 ∧
      (MinimumAreaLeft prev cur width top bot fuel x < width - 1 →
        MinimumAreaColumn prev cur width (bot + 1 - top)
          (top * width + MinimumAreaLeft prev cur width top bot fuel x) = true) ∧
      (∀ c, x ≤ c → c < MinimumAreaLeft prev cur width top bot fuel x →
        MinimumAreaColumn prev cur width (bot + 1 - top) (top * width + c) = false) := by
  intro fuel
  induction fuel with
  | zero =>
    intro x h1 h2
    rw [MinimumAreaLeft]
    exact ⟨le_refl _, h2, fun h => by omega, fun c h3 h4 => by omega⟩
  | succ fuel ih =>
    intro x h1 h2
    rw [MinimumAreaLeft]
    by_cases hlt : x < width - 1
    · rw [if_pos hlt]
      by_cases hc : MinimumAreaColumn prev cur width (bot + 1 - top) (top * width + x) = true
      · rw [if_pos hc]
        exact ⟨le_refl _, h2, fun _ => hc, fun c h3 h4 => by omega⟩
      · rw [if_neg hc]
        obtain ⟨e1, e2, e3, e4⟩ := ih (x + 1) (by omega) (by omega)
        refine ⟨by omega, e2, e3, ?_⟩
        intro c hc1 hc2
        by_cases hcx : c = x
        · subst hcx; simpa using hc
        · exact e4 c (by omega) hc2
    · rw [if_neg hlt]
      exact ⟨le_refl _, h2, fun h => by omega, fun c h3 h4 => by omega⟩

theorem MinimumAreaRight_spec (prev cur : Nat → Nat) (width top bot : Nat) :
    ∀ (x : Nat),
      MinimumAreaRight prev cur width top bot x ≤ x ∧
      (0 < MinimumAreaRight prev cur width top bot x →
        MinimumAreaColumn prev cur width (bot + 1 - top)
          (top * width + MinimumAreaRight prev cur width top bot x) = true) ∧
      (∀ c, MinimumAreaRight prev cur width top bot x < c → c ≤ x →
        MinimumAreaColumn prev cur width (bot + 1 - top) (top * width + c) = false) := by
  intro x
  induction x with
  | zero =>
    rw [MinimumAreaRight]
    exact ⟨le_refl _, fun h => by omega, fun c h3 h4 => by omega⟩
  | succ x ih =>
    rw [MinimumAreaRight]
    by_cases hc : MinimumAreaColumn prev cur width (bot + 1 - top) (top * width + (x + 1)) = true
    · rw [if_pos hc]
      exact ⟨le_refl _, fun _ => hc, fun c h3 h4 => by omega⟩
    · rw [if_neg hc]
      obtain ⟨e1, e2, e3⟩ := ih
      refine ⟨by omega, e2, ?_⟩
      intro c hc1 hc2
      by_cases hcx : c = x + 1
      · subst hcx; simpa using hc
      · exact e3 c hc1 (by omega)

/-- `MinimumArea` on a frame without a changed pixel. -/
theorem MinimumArea_unchanged (prev cur : Nat → Nat) (imd : ImageDescriptor)
    (h : ∀ i, i < imd.Width * imd.Height → prev i = cur i) :
    MinimumArea prev cur imd = { imd with Width := 1, Height := 1 } := by
  obtain ⟨-, e2, e3, -⟩ := MinimumAreaStart_spec prev cur (imd.Width * imd.Height)
    (imd.Width * imd.Height) 0 (by omega) (by omega)
  have hs : MinimumAreaStart prev cur (imd.Width * imd.Height) (imd.Width * imd.Height) 0
      = imd.Width * imd.Height := by
    by_contra hne
    have hlt : MinimumAreaStart prev cur (imd.Width * imd.Height) (imd.Width * imd.Height) 0
        < imd.Width * imd.Height := by omega
    exact e3 hlt (h _ hlt)
  simp only [MinimumArea, hs, if_true]

/-- `MinimumArea` on a frame with a changed pixel: the rows `top .. bot` and the columns
`left .. right` it finds are the smallest spans that hold every changed pixel. -/
theorem MinimumArea_spec (W H : Nat) (hW : 1 ≤ W) (prev cur : Nat → Nat)
    (l0 t0 fl : Nat) (hd : ∃ i, i < W * H ∧ prev i ≠ cur i) :
    ∃ top bot left right : Nat,
      MinimumArea prev cur ⟨l0, t0, W, H, fl⟩ =
        ⟨left, top, right - left + 1, bot - top + 1, fl⟩ ∧
      top ≤ bot ∧ bot < H ∧ left ≤ right ∧ right < W ∧
      (∀ i, i < W * H → prev i ≠ cur i →
        top ≤ i / W ∧ i / W ≤ bot ∧ left ≤ i % W ∧ i % W ≤ right) ∧
      (∃ x, x < W ∧ prev (top * W + x) ≠ cur (top * W + x)) ∧
      (∃ x, x < W ∧ prev (bot * W + x) ≠ cur (bot * W + x)) ∧
      (∃ y, top ≤ y ∧ y ≤ bot ∧ prev (y * W + left) ≠ cur (y * W + left)) ∧
      (∃ y, top ≤ y ∧ y ≤ bot ∧ prev (y * W + right) ≠ cur (y * W + right)) := by
  obtain ⟨i0, hi0, hdi0⟩ := hd
  obtain ⟨-, s2, s3, s4⟩ := MinimumAreaStart_spec prev cur (W * H) (W * H) 0 (by omega) (by omega)
  generalize hsdef : MinimumAreaStart prev cur (W * H) (W * H) 0 = s at s2 s3 s4
  have hsle : s ≤ i0 := by
    by_contra hgt
    exact hdi0 (s4 i0 (by omega) (by omega))
  have hslt : s < W * H := by omega
  have hDs := s3 hslt
  obtain ⟨e1, e2, e3, e4⟩ := MinimumAreaEnd_spec prev cur s (W * H) hslt
  generalize hedef : MinimumAreaEnd prev cur s (W * H) = e at e1 e2 e3 e4
  have hDe : prev e ≠ cur e := by
    by_cases h : s < e
    · exact e3 h
    · have : e = s := by omega
      rw [this]; exact hDs
  have hWpos : 0 < W := by omega
  have hbetween : ∀ i, i < W * H → prev i ≠ cur i → s ≤ i ∧ i ≤ e := by
    intro i hi hDi
    constructor
    · by_contra hgt; exact hDi (s4 i (by omega) (by omega))
    · by_contra hgt; exact hDi (e4 i (by omega) hi)
  have htb : s / W ≤ e / W := Nat.div_le_div_right e1
  have hbot : e / W < H := (Nat.div_lt_iff_lt_mul hWpos).2 (by rw [Nat.mul_comm]; exact e2)
  -- a changed pixel marks its column
  have hcol : ∀ i, i < W * H → prev i ≠ cur i →
      MinimumAreaColumn prev cur W (e / W + 1 - s / W) (s / W * W + i % W) = true := by
    intro i hi hDi
    obtain ⟨h1, h2⟩ := hbetween i hi hDi
    rw [MinimumAreaColumn_spec]
    refine ⟨i / W - s / W, ?_, ?_⟩
    · have : i / W ≤ e / W := Nat.div_le_div_right h2
      have : s / W ≤ i / W := Nat.div_le_div_right h1
      omega
    · have h3 : s / W ≤ i / W := Nat.div_le_div_right h1
      have : s / W * W + i % W + (i / W - s / W) * W = i := by
        rw [Nat.sub_mul]
        have h4 : s / W * W ≤ i / W * W := Nat.mul_le_mul_right W h3
        have h5 := Nat.div_add_mod i W
        rw [Nat.mul_comm] at h5
        omega
      rw [this]; exact hDi
  -- a marked column holds a changed pixel in the rows top .. bot
  have hcolinv : ∀ c, MinimumAreaColumn prev cur W (e / W + 1 - s / W) (s / W * W + c) = true →
      ∃ y, s / W ≤ y ∧ y ≤ e / W ∧ prev (y * W + c) ≠ cur (y * W + c) := by
    intro c hc
    rw [MinimumAreaColumn_spec] at hc
    obtain ⟨k, hk, hD⟩ := hc
    refine ⟨s / W + k, by omega, by omega, ?_⟩
    rw [show (s / W + k) * W + c = s / W * W + c + k * W by ring]
    exact hD
  have hsmod : s % W < W := Nat.mod_lt _ hWpos
  obtain ⟨-, l2, l3, l4⟩ := MinimumAreaLeft_spec prev cur W (s / W) (e / W) W 0 (by omega)
    (by omega)
  generalize hldef : MinimumAreaLeft prev cur W (s / W) (e / W) W 0 = left at l2 l3 l4
  obtain ⟨r1, r2, r3⟩ := MinimumAreaRight_spec prev cur W (s / W) (e / W) (W - 1)
  generalize hrdef : MinimumAreaRight prev cur W (s / W) (e / W) (W - 1) = right at r1 r2 r3
  have hleftmin : ∀ i, i < W * H → prev i ≠ cur i → left ≤ i % W := by
    intro i hi hDi
    by_contra hlt
    have := l4 (i % W) (by omega) (by omega)
    rw [hcol i hi hDi] at this
    exact absurd this (by simp)
  have hrightmax : ∀ i, i < W * H → prev i ≠ cur i → i % W ≤ right := by
    intro i hi hDi
    by_contra hgt
    have hm : i % W < W := Nat.mod_lt _ hWpos
    have := r3 (i % W) (by omega) (by omega)
    rw [hcol i hi hDi] at this
    exact absurd this (by simp)
  have hcolleft : MinimumAreaColumn prev cur W (e / W + 1 - s / W) (s / W * W + left) = true := by
    by_cases h : left < W - 1
    · exact l3 h
    · have h1 := hleftmin s hslt hDs
      have : s % W = left := by omega
      rw [← this]; exact hcol s hslt hDs
  have hcolright : MinimumAreaColumn prev cur W (e / W + 1 - s / W) (s / W * W + right) = true := by
    by_cases h : 0 < right
    · exact r2 h
    · have h1 := hrightmax s hslt hDs
      have : s % W = right := by omega
      rw [← this]; exact hcol s hslt hDs
  obtain ⟨yl, yl1, yl2, yl3⟩ := hcolinv left hcolleft
  obtain ⟨yr, yr1, yr2, yr3⟩ := hcolinv right hcolright
  have hidx : ∀ y c, y ≤ e / W → c < W → y * W + c < W * H := by
    intro y c hy hc
    have : (y + 1) * W ≤ H * W := Nat.mul_le_mul_right W (by omega)
    rw [Nat.succ_mul] at this
    rw [Nat.mul_comm W H]; omega
  have hmodc : ∀ y c, c < W → (y * W + c) % W = c := by
    intro y c hc
    rw [Nat.add_comm, Nat.add_mul_mod_self_right, Nat.mod_eq_of_lt hc]
  have hlr : left ≤ right := by
    have := hrightmax (yl * W + left) (hidx yl left yl2 (by omega)) yl3
    rw [hmodc yl left (by omega)] at this
    exact this
  refine ⟨s / W, e / W, left, right, ?_, htb, hbot, hlr, by omega, ?_, ?_, ?_,
    ⟨yl, yl1, yl2, yl3⟩, ⟨yr, yr1, yr2, yr3⟩⟩
  · have hne : ¬ s = W * H := by omega
    simp only [MinimumArea, hsdef, hne, if_false, hedef, hldef, hrdef]
  · intro i hi hDi
    obtain ⟨h1, h2⟩ := hbetween i hi hDi
    exact ⟨Nat.div_le_div_right h1, Nat.div_le_div_right h2, hleftmin i hi hDi,
      hrightmax i hi hDi⟩
  · refine ⟨s % W, hsmod, ?_⟩
    have := Nat.div_add_mod s W
    rw [Nat.mul_comm] at this
    rw [this]; exact hDs
  · refine ⟨e % W, Nat.mod_lt _ hWpos, ?_⟩
    have := Nat.div_add_mod e W
    rw [Nat.mul_comm] at this
    rw [this]; exact hDe

end Iff2Gif

namespace Iff2Gif

open GIFWriter

/-! ## `SelectDisposal` and `MakeFrame` -/

theorem SelectDisposalScan_iff (src dest : Nat → Nat) (imd : ImageDescriptor)
    (pitch trans : Nat) :
    SelectDisposalScan src dest imd pitch trans = true ↔
      ∃ y x, y < imd.Height ∧ x < imd.Width ∧
        src (imd.Left + imd.Top * pitch + y * pitch + x) ≠ trans ∧
        dest (imd.Left + imd.Top * pitch + y * pitch + x) = trans := by
  simp only [SelectDisposalScan, List.any_eq_true, List.mem_range, decide_eq_true_eq]
  constructor
  · rintro ⟨y, hy, x, hx, h⟩
    exact ⟨y, x, hy, hx, h⟩
  · rintro ⟨y, x, hy, hx, h⟩
    exact ⟨y, hy, x, hx, h⟩

/-- What `SelectDisposal` returns and leaves in `PrevFrame`. -/
theorem SelectDisposal_cases (w : GIFWriter) (planar : PlanarBitmap) (imd : ImageDescriptor)
    (chunky : Nat → Nat) :
    (w.SelectDisposal planar imd chunky = (1, w) ∧
      ¬ (0 ≤ planar.TransparentColor ∧ ∃ prev, w.PrevFrame = some prev ∧
          SelectDisposalScan prev chunky imd planar.Width
            (planar.TransparentColor % 256).toNat = true)) ∨
    (0 ≤ planar.TransparentColor ∧ ∃ prev, w.PrevFrame = some prev ∧
      SelectDisposalScan prev chunky imd planar.Width
        (planar.TransparentColor % 256).toNat = true ∧
      w.SelectDisposal planar imd chunky =
        (2, { w with PrevFrame := some (memset prev planar.TransparentColor.toNat
                (planar.Width * planar.Height)) })) := by
  unfold SelectDisposal
  cases hp : w.PrevFrame with
  | none => left; simp
  | some prev =>
    by_cases ht : planar.TransparentColor < 0
    · left; simp only [ht, if_true, true_and]
      rintro ⟨h, -⟩; omega
    · simp only [ht, if_false]
      by_cases hs : SelectDisposalScan prev chunky imd planar.Width
          (planar.TransparentColor % 256).toNat = true
      · right
        refine ⟨by omega, prev, rfl, hs, ?_⟩
        simp only [hs, if_true]
      · left
        simp only [hs]
        refine ⟨by simp, ?_⟩
        rintro ⟨-, prev', hp', hs'⟩
        simp only [Option.some.injEq] at hp'
        subst hp'
        exact hs hs'

theorem MakeFrameNew_IMD (bitmap : PlanarBitmap) :
    (MakeFrameNew bitmap).IMD = ⟨0, 0, bitmap.Width, bitmap.Height, 0⟩ ∧
    (MakeFrameNew bitmap).LZW = [] := by
  unfold MakeFrameNew; split <;> exact ⟨rfl, rfl⟩

theorem getLast?_setMostRecent (q : GIFFrameQueue) (f : GIFFrame) :
    (q.setMostRecent f).MostRecent = some f := by
  simp [GIFFrameQueue.setMostRecent, GIFFrameQueue.MostRecent]

/-- `MakeFramePatch` changes the queue, the two clocks and, through `SelectDisposal`, the
previous-frame buffer, and nothing else. -/
theorem MakeFramePatch_fields (w : GIFWriter) (bitmap : PlanarBitmap) (newframe : GIFFrame)
    (chunky : Nat → Nat) :
    ∃ (q : GIFFrameQueue) (T G : Nat) (pf : Option (Nat → Nat)),
      w.MakeFramePatch bitmap newframe chunky =
        { w with WriteQueue := q, TotalTicks := T, GIFTime := G, PrevFrame := pf } ∧
      (pf = w.PrevFrame ∨
        (0 ≤ bitmap.TransparentColor ∧ ∃ prev, w.PrevFrame = some prev ∧
          SelectDisposalScan prev chunky newframe.IMD bitmap.Width
            (bitmap.TransparentColor % 256).toNat = true ∧
          pf = some (memset prev bitmap.TransparentColor.toNat
            (bitmap.Width * bitmap.Height)))) := by
  unfold MakeFramePatch
  cases hq : w.WriteQueue.MostRecent with
  | none => exact ⟨w.WriteQueue, w.TotalTicks, w.GIFTime, w.PrevFrame, rfl, Or.inl rfl⟩
  | some old =>
    simp only
    rcases SelectDisposal_cases w bitmap newframe.IMD chunky with
      ⟨heq, -⟩ | ⟨h0, prev, hprev, hs, heq⟩
    · rw [heq]
      simp only
      split
      · exact ⟨_, _, _, _, rfl, Or.inl rfl⟩
      · exact ⟨_, _, _, _, rfl, Or.inl rfl⟩
    · rw [heq]
      simp only
      split
      · exact ⟨_, _, _, _, rfl, Or.inr ⟨h0, prev, hprev, hs, rfl⟩⟩
      · exact ⟨_, _, _, _, rfl, Or.inr ⟨h0, prev, hprev, hs, rfl⟩⟩

/-- `MakeFrame` leaves the clocks as `MakeFramePatch` set them. -/
theorem MakeFrame_clocks (QUEUE_SIZE : Nat) (w : GIFWriter) (bitmap : PlanarBitmap)
    (chunky : Nat → Nat) :
    (w.MakeFrame QUEUE_SIZE bitmap chunky).TotalTicks =
      (w.MakeFramePatched bitmap chunky).TotalTicks ∧
    (w.MakeFrame QUEUE_SIZE bitmap chunky).GIFTime =
      (w.MakeFramePatched bitmap chunky).GIFTime := by
  unfold MakeFrame
  simp only
  split <;> exact ⟨rfl, rfl⟩

/-- The frame `MakeFrame` has built is the most recent one of the queue afterwards. -/
theorem MakeFrame_MostRecent (QUEUE_SIZE : Nat) (w : GIFWriter) (bitmap : PlanarBitmap)
    (chunky : Nat → Nat) :
    (w.MakeFrame QUEUE_SIZE bitmap chunky).WriteQueue.MostRecent =
      some (w.MakeFrameFrame bitmap chunky) := by
  unfold MakeFrame
  simp only
  split <;>
    simp [GIFFrameQueue.Enqueue, GIFFrameQueue.MostRecent, BadWrite, GIFFrameQueue.SetFile]

theorem MakeFrameTrans_frame (w : GIFWriter) (bitmap : PlanarBitmap) (newframe : GIFFrame)
    (chunky : Nat → Nat) :
    (w.MakeFrameTrans bitmap newframe chunky).2.2.IMD = newframe.IMD ∧
    (w.MakeFrameTrans bitmap newframe chunky).2.2.LZW = newframe.LZW := by
  unfold MakeFrameTrans
  split
  · exact ⟨rfl, rfl⟩
  · split
    · exact ⟨rfl, rfl⟩
    · split
      · exact ⟨rfl, rfl⟩
      · simp only
        split <;> exact ⟨rfl, rfl⟩

theorem MakeFrameArea_LZW (w : GIFWriter) (newframe : GIFFrame) (chunky : Nat → Nat) :
    (w.MakeFrameArea newframe chunky).LZW = newframe.LZW ∧
    (w.MakeFrameArea newframe chunky).GCE = newframe.GCE := by
  unfold MakeFrameArea
  split <;> exact ⟨rfl, rfl⟩

/-- What `MakeFrameCompress` keeps, for a frame whose payload is still empty: `S` is the
payload with the substitution colour `trans`, `U` the one without. -/
theorem MakeFrameCompress_cases (prevFrame : Nat → Nat) (bitmap : PlanarBitmap)
    (chunky : Nat → Nat) (newframe : GIFFrame) (trans : Int) (temptrans : Bool)
    (hnil : newframe.LZW = []) (S U : List Nat)
    (hS : S = LZWCompress [] newframe.IMD prevFrame chunky bitmap.Width
      (bitmap.NumPlanes % 256) trans)
    (hU : U = LZWCompress [] newframe.IMD prevFrame chunky bitmap.Width
      (bitmap.NumPlanes % 256) (-1)) :
    (trans < 0 →
      MakeFrameCompress prevFrame bitmap chunky newframe trans temptrans =
        { newframe with LZW := S }) ∧
    (0 ≤ trans → S.length < U.length →
      MakeFrameCompress prevFrame bitmap chunky newframe trans temptrans =
        { newframe with LZW := S }) ∧
    (0 ≤ trans → U.length ≤ S.length →
      MakeFrameCompress prevFrame bitmap chunky newframe trans temptrans =
        { newframe with
            LZW := U,
            GCE := if temptrans then
                     { newframe.GCE with Flags := newframe.GCE.Flags &&& 0xFE,
                                         TransparentColor := 0 }
                   else newframe.GCE }) := by
  unfold MakeFrameCompress
  simp only [hnil, ← hS, ← hU]
  refine ⟨?_, ?_, ?_⟩
  · intro h
    have : ¬ trans ≥ 0 := by omega
    simp only [this, if_false]
  · intro h hlt
    have : ¬ U.length ≤ S.length := by omega
    simp only [ge_iff_le, h, if_true, this, if_false]
  · intro h hle
    simp only [ge_iff_le, h, if_true, hle]
    cases temptrans <;> simp

/-- `LZWCompress` on a rectangle of one pixel: the compression of one byte. -/
theorem LZWCompress_single (l t fl : Nat) (prev chunky : Nat → Nat) (pitch planes : Nat)
    (trans : Int) :
    ∃ b, LZWCompress [] ⟨l, t, 1, 1, fl⟩ prev chunky pitch planes trans =
      ((CodeStream.construct (if planes < 2 then 2 else planes)
          [if planes < 2 then 2 else planes]).AddByte b).destruct.Codes := by
  unfold LZWCompress
  rw [LZWCompressCodes_eq]
  simp only [LZWCompressInput, List.range_succ, List.range_zero, List.flatMap_cons, List.map_cons, List.map_nil,
    List.flatMap_nil, List.append_nil, List.foldl_cons, List.foldl_nil, List.nil_append]
  exact ⟨_, rfl⟩

end Iff2Gif

namespace Iff2Gif

open CodeStream

/-! ## Bits: what the accumulator packs and what the decoder reads -/

theorem natBits_length : ∀ (w n : Nat), (natBits w n).length = w := by
  intro w
  induction w with
  | zero => intro n; rfl
  | succ w ih => intro n; simp [natBits, ih]

theorem natBits_add : ∀ (a b n : Nat), natBits (a + b) n = natBits a n ++ natBits b (n / 2 ^ a) := by
  intro a
  induction a with
  | zero => intro b n; simp [natBits]
  | succ a ih =>
    intro b n
    rw [show a + 1 + b = (a + b) + 1 by omega, natBits, natBits, ih, Nat.div_div_eq_div_mul,
      pow_succ, Nat.mul_comm 2]
    rfl

theorem natBits_mod : ∀ (w n : Nat), natBits w (n % 2 ^ w) = natBits w n := by
  intro w
  induction w with
  | zero => intro n; rfl
  | succ w ih =>
    intro n
    rw [natBits, natBits]
    have h1 : n % 2 ^ (w + 1) % 2 = n % 2 := by
      rw [pow_succ, Nat.mul_comm]
      exact Nat.mod_mul_right_mod n 2 (2 ^ w)
    have h2 : n % 2 ^ (w + 1) / 2 = n / 2 % 2 ^ w := by
      rw [pow_succ, Nat.mul_comm]
      exact Nat.mod_mul_right_div_self n 2 (2 ^ w)
    rw [h1, h2, ih]

theorem natBits_zero : ∀ (w : Nat), natBits w 0 = List.replicate w false := by
  intro w
  induction w with
  | zero => rfl
  | succ w ih => simp [natBits, ih, List.replicate_succ]

theorem natBits_of_lt {a x : Nat} (hx : x < 2 ^ a) (b : Nat) :
    natBits (a + b) x = natBits a x ++ List.replicate b false := by
  rw [natBits_add, Nat.div_eq_of_lt hx, natBits_zero]

theorem bytesBits_append (xs ys : List Nat) : bytesBits (xs ++ ys) = bytesBits xs ++ bytesBits ys := by
  simp [bytesBits]

theorem writtenBits_append (xs ys : List (Nat × Nat)) :
    writtenBits (xs ++ ys) = writtenBits xs ++ writtenBits ys := by
  simp [writtenBits]

theorem writtenBits_singleton (c w : Nat) : writtenBits [(c, w)] = natBits w c := by
  simp [writtenBits]

theorem bytesBits_accumBytes : ∀ (k A : Nat), bytesBits (accumBytes k A) = natBits (8 * k) A := by
  intro k
  induction k with
  | zero => intro A; rfl
  | succ k ih =>
    intro A
    rw [accumBytes, show 8 * (k + 1) = 8 + 8 * k by omega, natBits_add]
    have : bytesBits (A % 256 :: accumBytes k (A / 256))
        = natBits 8 (A % 256) ++ bytesBits (accumBytes k (A / 256)) := by
      simp [bytesBits]
    rw [this, ih, show (256 : Nat) = 2 ^ 8 by norm_num, natBits_mod]

/-- The accumulator after `WriteCode`: the `k` bytes dumped and the bits left are the bits
before with the bits of the code behind them. -/
theorem accum_bits (A b code cs k : Nat) (hA : A < 2 ^ b) (hc : code < 2 ^ cs)
    (hk : 8 * k ≤ b + cs) :
    A ||| (code <<< b) < 2 ^ (b + cs) ∧
    (A ||| (code <<< b)) / 256 ^ k < 2 ^ (b + cs - 8 * k) ∧
    bytesBits (accumBytes k (A ||| (code <<< b))) ++
        natBits (b + cs - 8 * k) ((A ||| (code <<< b)) / 256 ^ k) =
      natBits b A ++ natBits cs code := by
  have hor : A ||| (code <<< b) = 2 ^ b * code + A := by
    rw [Nat.shiftLeft_eq, Nat.mul_comm, Nat.or_comm]
    exact (Nat.mul_add_lt_is_or hA code).symm
  have hlt : 2 ^ b * code + A < 2 ^ (b + cs) := by
    rw [pow_add]
    have : 2 ^ b * (code + 1) ≤ 2 ^ b * 2 ^ cs := Nat.mul_le_mul_left _ hc
    rw [Nat.mul_add, Nat.mul_one] at this
    omega
  rw [hor]
  have h256 : (256 : Nat) ^ k = 2 ^ (8 * k) := by
    rw [show (256 : Nat) = 2 ^ 8 by norm_num, ← pow_mul]
  refine ⟨hlt, ?_, ?_⟩
  · rw [h256, Nat.div_lt_iff_lt_mul (by positivity), ← pow_add]
    rw [show b + cs - 8 * k + 8 * k = b + cs by omega]
    exact hlt
  · rw [bytesBits_accumBytes, h256, ← natBits_add, show 8 * k + (b + cs - 8 * k) = b + cs by omega,
      natBits_add]
    congr 1
    · rw [← natBits_mod b]
      congr 1
      rw [Nat.mul_add_mod, Nat.mod_eq_of_lt hA]
    · congr 1
      rw [Nat.mul_add_div (by positivity), Nat.div_eq_of_lt hA, Nat.add_zero]

/-- One `WriteCode` keeps the bits: `t` is the stream after a code below `2 ^ CodeSize` was
or-ed in and `k` bytes were dumped. -/
theorem BitInv_step (pre : List Nat) (s t : CodeStream) (code : Nat) (codes chunk : List Nat)
    (k : Nat) (h : BitInv pre s) (hc : code < 2 ^ s.CodeSize)
    (hp : ∀ pre payload, Packed pre payload s.Codes s.Chunk →
      Packed pre (payload ++ accumBytes k (s.Accum ||| (code <<< s.BitPos.toNat))) codes chunk)
    (hk : k = 0 ∨ 7 < s.BitPos + s.CodeSize - 8 * k + 8)
    (hle : s.BitPos + s.CodeSize - 8 * k ≤ 7)
    (h1 : t.Codes = codes) (h2 : t.Chunk = chunk)
    (h3 : t.Accum = (s.Accum ||| (code <<< s.BitPos.toNat)) / 256 ^ k)
    (h4 : t.BitPos = s.BitPos + s.CodeSize - 8 * k)
    (h5 : t.Written = s.Written ++ [(code, s.CodeSize)]) : BitInv pre t := by
  obtain ⟨payload, hpk, hb0, hb7, hA, hbits⟩ := h
  have h8k : 8 * k ≤ s.BitPos.toNat + s.CodeSize := by omega
  obtain ⟨-, a2, a3⟩ := accum_bits s.Accum s.BitPos.toNat code s.CodeSize k hA hc h8k
  have hbp : t.BitPos.toNat = s.BitPos.toNat + s.CodeSize - 8 * k := by omega
  refine ⟨payload ++ accumBytes k (s.Accum ||| (code <<< s.BitPos.toNat)), ?_, by omega,
    by omega, ?_, ?_⟩
  · rw [h1, h2]; exact hp pre payload hpk
  · rw [h3, hbp]; exact a2
  · rw [h3, hbp, h5, bytesBits_append, List.append_assoc, a3, writtenBits_append,
      writtenBits_singleton, ← List.append_assoc, hbits]

theorem BitInv_construct (m : Nat) (pre : List Nat) :
    BitInv pre (construct m pre) := by
  have hshift : (1 : Nat) <<< m = 2 ^ m := by simp [Nat.shiftLeft_eq]
  have h0 : BitInv pre
      { Codes := pre, Accum := 0, ClearCode := 1 <<< m,
        EOICode := (1 <<< m) + 1, NextCode := 0, Match := 0,
        CodeSize := m + 1, MinCodeSize := m, BitPos := 0,
        Chunk := [], Dict := [], Written := [] } :=
    ⟨[], Packed.init pre, le_refl _, by norm_num, by simp, by simp [bytesBits, writtenBits, natBits]⟩
  obtain ⟨codes, chunk, k, heq, hp, hk, hle⟩ := WriteCode_clear
    { Codes := pre, Accum := 0, ClearCode := 1 <<< m,
      EOICode := (1 <<< m) + 1, NextCode := 0, Match := 0,
      CodeSize := m + 1, MinCodeSize := m, BitPos := 0,
      Chunk := [], Dict := [], Written := [] }
  unfold construct
  simp only []
  rw [heq]
  exact BitInv_step pre _ _ (1 <<< m) codes chunk k h0
    (by rw [hshift]; exact Nat.pow_lt_pow_right (by norm_num) (by simp))
    hp hk hle rfl rfl rfl rfl rfl

theorem BitInv_AddByte {m : Nat} (pre : List Nat) {s : CodeStream}
    (hn : NumInv m s) (h : BitInv pre s) (p : Nat) : BitInv pre (s.AddByte p) := by
  by_cases hm : s.Match < 0
  · rw [AddByte_start s p hm]; exact h
  · cases hl : s.Dict.lookup (s.Match.toNat ||| (p <<< 16) ||| (1 <<< 24)) with
    | some got => rw [AddByte_hit s p got hm hl]; exact h
    | none =>
      have hmne := hn.match_ne
      have hmlt := hn.match_lt
      have hnp := hn.nextCode_pow
      have hcp := hn.clear_pow
      have hmne1 : s.Match.toNat ≠ s.ClearCode := by omega
      have hmc : s.Match.toNat < 2 ^ s.CodeSize := by omega
      by_cases h4096 : s.NextCode + 1 = 4096
      · obtain ⟨codes, chunk, k, codes2, chunk2, k2, heq, hp1, hk1, hle1, hp2, hk2, hle2⟩ :=
          AddByte_miss_clear s p hm hl hmne1 h4096
        rw [heq]
        have hmid : BitInv pre
            { s with Codes := codes, Chunk := chunk,
                     Accum := (s.Accum ||| (s.Match.toNat <<< s.BitPos.toNat)) / 256 ^ k,
                     BitPos := s.BitPos + s.CodeSize - 8 * k,
                     Written := s.Written ++ [(s.Match.toNat, s.CodeSize)] } :=
          BitInv_step pre s _ s.Match.toNat codes chunk k h hmc hp1 hk1 hle1 rfl rfl rfl rfl rfl
        exact BitInv_step pre _ _ s.ClearCode codes2 chunk2 k2 hmid
          (by show s.ClearCode < 2 ^ s.CodeSize; omega) hp2 hk2 hle2 rfl rfl rfl rfl rfl
      · obtain ⟨codes, chunk, k, heq, hp1, hk1, hle1⟩ := AddByte_miss s p hm hl hmne1 h4096
        rw [heq]
        exact BitInv_step pre s _ s.Match.toNat codes chunk k h hmc hp1 hk1 hle1 rfl rfl rfl rfl rfl

end Iff2Gif

namespace Iff2Gif

open CodeStream

/-! ## The decoder on the bits of one code, and the dictionary key -/

theorem run_short (d : LZWDecoder) :
    ∀ (bits : List Bool) (acc n : Nat), n + bits.length < d.codeSize → d.run acc n bits = some d.out := by
  intro bits
  induction bits with
  | nil => intro acc n _; rfl
  | cons b bits ih =>
    intro acc n h
    simp only [List.length_cons] at h
    rw [LZWDecoder.run, if_neg (by omega)]
    exact ih _ _ (by omega)

theorem run_natBits (d : LZWDecoder) :
    ∀ (w n acc c : Nat) (rest : List Bool), 1 ≤ w → n + w = d.codeSize →
      d.run acc n (natBits w c ++ rest) =
        if acc + 2 ^ n * (c % 2 ^ w) = 2 ^ d.minCodeSize + 1 then some d.out
        else
          match d.step (acc + 2 ^ n * (c % 2 ^ w)) with
          | none => none
          | some d' => d'.run 0 0 rest := by
  intro w
  induction w with
  | zero => intro n acc c rest h; omega
  | succ w ih =>
    intro n acc c rest _ hcs
    have hbit : (if (c % 2 == 1) = true then 2 ^ n else 0) = 2 ^ n * (c % 2) := by
      rcases Nat.mod_two_eq_zero_or_one c with h | h <;> simp [h]
    rw [natBits, List.cons_append, LZWDecoder.run, hbit]
    by_cases hw : w = 0
    · subst hw
      rw [if_pos (by omega)]
      rfl
    · rw [if_neg (by omega), ih (n + 1) _ (c / 2) rest (by omega) (by omega)]
      have : acc + 2 ^ n * (c % 2) + 2 ^ (n + 1) * (c / 2 % 2 ^ w)
          = acc + 2 ^ n * (c % 2 ^ (w + 1)) := by
        rw [pow_succ 2 w, Nat.mul_comm (2 ^ w) 2, Nat.mod_mul, pow_succ]
        ring
      rw [this]

/-- Reading a code below `2 ^ codeSize` from its bits. -/
theorem run_code (d : LZWDecoder) (c : Nat) (rest : List Bool) (hcs : 1 ≤ d.codeSize)
    (hc : c < 2 ^ d.codeSize) :
    d.run 0 0 (natBits d.codeSize c ++ rest) =
      if c = 2 ^ d.minCodeSize + 1 then some d.out
      else
        match d.step c with
        | none => none
        | some d' => d'.run 0 0 rest := by
  rw [run_natBits d d.codeSize 0 0 c rest hcs (by omega)]
  simp [Nat.mod_eq_of_lt hc]

theorem dictKey_eq {c b : Nat} (hc : c < 65536) (hb : b < 256) :
    c ||| (b <<< 16) ||| (1 <<< 24) = 2 ^ 24 + (2 ^ 16 * b + c) := by
  have h1 : c ||| (b <<< 16) = 2 ^ 16 * b + c := by
    rw [Nat.shiftLeft_eq, Nat.mul_comm, Nat.or_comm]
    exact (Nat.mul_add_lt_is_or (by norm_num; exact hc) b).symm
  have h2 : 2 ^ 16 * b + c < 2 ^ 24 := by norm_num; omega
  rw [h1, Nat.shiftLeft_eq, Nat.one_mul, Nat.or_comm]
  have := Nat.mul_add_lt_is_or h2 1
  rw [Nat.mul_one] at this
  exact this.symm

theorem dictKey_inj {c b c' b' : Nat} (hc : c < 65536) (hb : b < 256) (hc' : c' < 65536)
    (hb' : b' < 256)
    (h : c ||| (b <<< 16) ||| (1 <<< 24) = c' ||| (b' <<< 16) ||| (1 <<< 24)) :
    c = c' ∧ b = b' := by
  rw [dictKey_eq hc hb, dictKey_eq hc' hb'] at h
  norm_num at h
  omega

theorem lookup_ResetDictFill (n key : Nat) (hn : n ≤ key) :
    (ResetDictFill n []).lookup key = none := by
  cases h : (ResetDictFill n []).lookup key with
  | none => rfl
  | some v =>
    rcases mem_ResetDictFill n [] (mem_of_lookup_eq_some h) with h' | h'
    · simp at h'
    · omega

end Iff2Gif

namespace Iff2Gif

open CodeStream

/-! ## The decoder follows the encoder -/

theorem deframe_block : ∀ (b rest : List Nat), deframe b.length (b ++ rest) = b ++ deframe 0 rest := by
  intro b
  induction b with
  | nil =>
    intro rest
    cases rest <;> simp [deframe]
  | cons x xs ih =>
    intro rest
    show x :: deframe xs.length (xs ++ rest) = x :: (xs ++ deframe 0 rest)
    rw [ih]

theorem deframe_frameBlocks : ∀ (blocks : List (List Nat)), (∀ b ∈ blocks, 1 ≤ b.length) →
    deframe 0 (frameBlocks blocks ++ [0]) = blocks.flatten := by
  intro blocks
  induction blocks with
  | nil => intro _; simp [frameBlocks, deframe]
  | cons b bs ih =>
    intro h
    have hb := h b (List.mem_cons_self _ _)
    have : frameBlocks (b :: bs) ++ [0] = b.length :: (b ++ (frameBlocks bs ++ [0])) := by
      simp [frameBlocks]
    rw [this, deframe, if_neg (by omega), deframe_block,
      ih (fun x hx => h x (List.mem_cons_of_mem _ hx))]
    simp

theorem take_one_of_head? {l : List Nat} {q : Nat} (h : l.head? = some q) : l.take 1 = [q] := by
  cases l with
  | nil => simp at h
  | cons a t => simp at h; simp [h]

theorem clear_table_length (m : Nat) (out : List Nat) :
    (LZWDecoder.clear m out).table.length = 2 ^ m + 2 := by
  simp [LZWDecoder.clear]

theorem clear_table_lit (m : Nat) (out : List Nat) (i : Nat) (hi : i < 2 ^ m) :
    (LZWDecoder.clear m out).table.getD i [] = [i] := by
  simp only [LZWDecoder.clear]
  rw [List.getD_append _ _ _ _ (by simpa using hi), List.getD_eq_getElem _ _ (by simpa using hi)]
  simp

theorem step_clear (d : LZWDecoder) :
    d.step (2 ^ d.minCodeSize) = some (LZWDecoder.clear d.minCodeSize d.out) := by
  unfold LZWDecoder.step
  rw [if_pos rfl]

theorem step_none (d : LZWDecoder) (code : Nat) (hp : d.prev = none)
    (h1 : code ≠ 2 ^ d.minCodeSize) (hlt : code < d.table.length) :
    d.step code = some { d with prev := some code, out := d.out ++ d.table.getD code [] } := by
  unfold LZWDecoder.step
  rw [if_neg h1, hp]
  simp only [hlt, if_true]

theorem step_some (d : LZWDecoder) (code pc : Nat) (entry : List Nat) (hp : d.prev = some pc)
    (h1 : code ≠ 2 ^ d.minCodeSize)
    (hle : code ≤ d.table.length) (h4096 : d.table.length < 4096)
    (he : entry = if code < d.table.length then d.table.getD code []
      else d.table.getD pc [] ++ (d.table.getD pc []).take 1) :
    d.step code = some
      { minCodeSize := d.minCodeSize,
        codeSize := if d.table.length + 1 = 2 ^ d.codeSize ∧ d.codeSize < 12
          then d.codeSize + 1 else d.codeSize,
        table := d.table ++ [d.table.getD pc [] ++ entry.take 1],
        prev := some code,
        out := d.out ++ entry } := by
  unfold LZWDecoder.step
  rw [if_neg h1, hp]
  simp only [hle, if_true, h4096, List.length_append, List.length_singleton, ← he]

theorem Sim_construct {m : Nat} (h2 : 2 ≤ m) (h8 : m ≤ 8) (pre : List Nat) :
    Sim m (construct m pre) (LZWDecoder.clear m []) [] [] := by
  obtain ⟨hlo, hhi⟩ := two_pow_bounds h2 h8
  obtain ⟨codes, chunk, k, heq, -, -, -⟩ := WriteCode_clear
    { Codes := pre, Accum := 0, ClearCode := 1 <<< m,
      EOICode := (1 <<< m) + 1, NextCode := 0, Match := 0,
      CodeSize := m + 1, MinCodeSize := m, BitPos := 0,
      Chunk := [], Dict := [], Written := [] }
  have h1 : (1 : Nat) <<< m = 2 ^ m := by simp [Nat.shiftLeft_eq]
  simp only [h1] at heq
  unfold construct
  simp only [h1]
  rw [heq]
  refine ⟨rfl, rfl, by rw [clear_table_length], fun i hi => clear_table_lit m [] i hi,
    by rw [List.append_nil, clear_table_length], ?_, fun _ => ⟨rfl, clear_table_length m [], rfl⟩,
    fun pc hpc => by simp [LZWDecoder.clear] at hpc, Or.inl ⟨by simp, rfl, rfl⟩, ?_, ?_⟩
  · intro i hi hne1 hne2
    rw [List.append_nil] at hi ⊢
    rw [clear_table_length] at hi
    rw [clear_table_lit m [] i (by omega)]
    simp
  · intro c b v hc hb hl
    simp only at hl
    rw [lookup_ResetDictFill _ _ (by rw [dictKey_eq hc hb]; norm_num; omega)] at hl
    simp at hl
  · intro rest
    simp only [List.nil_append, writtenBits_singleton]
    have := run_code (LZWDecoder.clear m []) (2 ^ m) rest (by simp [LZWDecoder.clear])
      (by simp [LZWDecoder.clear, pow_succ])
    simp only [show (LZWDecoder.clear m []).codeSize = m + 1 from rfl] at this
    rw [this, if_neg (by show ¬ 2 ^ m = 2 ^ m + 1; omega)]
    have hs := step_clear (LZWDecoder.clear m [])
    simp only [show (LZWDecoder.clear m []).minCodeSize = m from rfl,
      show (LZWDecoder.clear m []).out = [] from rfl] at hs
    rw [hs]

end Iff2Gif

namespace Iff2Gif

open CodeStream

/-- The decoder reads the code of the encoder's current match: it emits the match string,
enters the pending string, and widens its codes exactly when the table reaches
`2 ^ CodeSize`. -/
theorem Sim_match {m : Nat} {s : CodeStream} {d : LZWDecoder} {inp : List Nat}
    {pend : List (List Nat)} (h2 : 2 ≤ m) (h8 : m ≤ 8) (hn : NumInv m s)
    (h : Sim m s d inp pend) (hm : 0 ≤ s.Match) :
    ∃ d' : LZWDecoder, d.step s.Match.toNat = some d' ∧ d'.minCodeSize = m ∧ d'.out = inp ∧
      d'.prev = some s.Match.toNat ∧ d'.table = d.table ++ pend ∧
      d'.codeSize = (if s.NextCode = 2 ^ s.CodeSize then s.CodeSize + 1 else s.CodeSize) ∧
      (∀ rest, (LZWDecoder.clear m []).run 0 0
          (writtenBits (s.Written ++ [(s.Match.toNat, s.CodeSize)]) ++ rest) =
        d'.run 0 0 rest) := by
  obtain ⟨hlo, hhi⟩ := two_pow_bounds h2 h8
  have hcc := hn.clearCode
  have hmne := hn.match_ne
  have hmlt := hn.match_lt
  have hnle := hn.nextCode_le
  have hnpow := hn.nextCode_pow
  have hcsge := hn.codeSize_ge
  have hdm := h.minCodeSize
  have hdcs := h.codeSize
  have hnext := h.next
  have hc1 : s.Match.toNat ≠ 2 ^ m := by omega
  have hc2 : s.Match.toNat ≠ 2 ^ m + 1 := by omega
  have hcT : s.Match.toNat < (d.table ++ pend).length := by omega
  have hmatched : d.out ++ (d.table ++ pend).getD s.Match.toNat [] = inp := by
    rcases h.matched with ⟨hneg, -, -⟩ | ⟨-, hh⟩
    · omega
    · exact hh
  have hfin : ∀ d' : LZWDecoder, d.step s.Match.toNat = some d' →
      ∀ rest, (LZWDecoder.clear m []).run 0 0
          (writtenBits (s.Written ++ [(s.Match.toNat, s.CodeSize)]) ++ rest) =
        d'.run 0 0 rest := by
    intro d' hstep rest
    rw [writtenBits_append, writtenBits_singleton, List.append_assoc, h.decoded, ← hdcs,
      run_code d _ rest (by omega) (by rw [hdcs]; omega), if_neg (by rw [hdm]; exact hc2), hstep]
  cases hprev : d.prev with
  | none =>
    obtain ⟨hpend, hlen, hcs⟩ := h.fresh hprev
    subst hpend
    rw [List.append_nil] at hcT hmatched hnext
    have hstep := step_none d s.Match.toNat hprev (by rw [hdm]; exact hc1) hcT
    refine ⟨_, hstep, hdm, hmatched, rfl, by rw [List.append_nil], ?_, hfin _ hstep⟩
    have hne : ¬ s.NextCode = 2 ^ s.CodeSize := by
      rw [← hdcs, hcs, ← hnext, hlen, pow_succ]; omega
    rw [if_neg hne]
    exact hdcs
  | some pc =>
    obtain ⟨hpc, hpc1, hpc2, q, hpend, hq⟩ := h.pending pc hprev
    subst hpend
    have hlenT : (d.table ++ [d.table.getD pc [] ++ [q]]).length = d.table.length + 1 := by simp
    rw [hlenT] at hcT hnext
    have hps : d.table.getD pc [] ≠ [] := by
      have := h.nonempty pc (by rw [hlenT]; omega) hpc1 hpc2
      rwa [List.getD_append _ _ _ _ hpc] at this
    have hentry : (if s.Match.toNat < d.table.length then d.table.getD s.Match.toNat []
        else d.table.getD pc [] ++ (d.table.getD pc []).take 1)
          = (d.table ++ [d.table.getD pc [] ++ [q]]).getD s.Match.toNat [] := by
      by_cases hlt : s.Match.toNat < d.table.length
      · rw [if_pos hlt, List.getD_append _ _ _ _ hlt]
      · have heq : s.Match.toNat = d.table.length := by omega
        have hTc : (d.table ++ [d.table.getD pc [] ++ [q]]).getD s.Match.toNat []
            = d.table.getD pc [] ++ [q] := by
          rw [List.getD_append_right _ _ _ _ (by omega), heq, Nat.sub_self]
          rfl
        rw [hTc] at hq
        rw [List.head?_append_of_ne_nil _ hps] at hq
        rw [if_neg hlt, hTc, take_one_of_head? hq]
    have hstep := step_some d s.Match.toNat pc _ hprev (by rw [hdm]; exact hc1)
      (by omega) (by omega) hentry.symm
    rw [take_one_of_head? hq] at hstep
    refine ⟨_, hstep, hdm, hmatched, rfl, rfl, ?_, hfin _ hstep⟩
    show (if d.table.length + 1 = 2 ^ d.codeSize ∧ d.codeSize < 12 then d.codeSize + 1
      else d.codeSize) = _
    rw [hdcs, hnext]
    by_cases hb : s.NextCode = 2 ^ s.CodeSize
    · have : s.CodeSize < 12 := by
        by_contra hcon
        have := pow_ge_of_gt_12 (Nat.le_of_not_lt hcon)
        omega
      rw [if_pos ⟨hb, this⟩, if_pos hb]
    · rw [if_neg (fun hh => hb hh.1), if_neg hb]

end Iff2Gif

namespace Iff2Gif

open CodeStream

theorem Sim_getD_lit {m : Nat} {s : CodeStream} {d : LZWDecoder} {inp : List Nat}
    {pend : List (List Nat)} (h : Sim m s d inp pend) {p : Nat} (hp : p < 2 ^ m) :
    (d.table ++ pend).getD p [] = [p] := by
  rw [List.getD_append _ _ _ _ (by have := h.table_len; omega)]
  exact h.table_lit p hp

theorem Sim_AddByte_start {m : Nat} {s : CodeStream} {d : LZWDecoder} {inp : List Nat}
    {pend : List (List Nat)} (h : Sim m s d inp pend) {p : Nat} (hp : p < 2 ^ m)
    (hm : s.Match < 0) : Sim m { s with Match := p } d (inp ++ [p]) pend := by
  have hprev : d.out = inp ∧ d.prev = none := by
    rcases h.matched with ⟨-, h1, h2⟩ | ⟨h1, -⟩
    · exact ⟨h1, h2⟩
    · omega
  exact
    { minCodeSize := h.minCodeSize
      codeSize := h.codeSize
      table_len := h.table_len
      table_lit := h.table_lit
      next := h.next
      nonempty := h.nonempty
      fresh := h.fresh
      pending := fun pc hpc => by rw [hprev.2] at hpc; cases hpc
      matched := Or.inr ⟨by simp, by
        show d.out ++ (d.table ++ pend).getD (p : Int).toNat [] = inp ++ [p]
        rw [Int.toNat_natCast, Sim_getD_lit h hp, hprev.1]⟩
      dict := h.dict
      decoded := h.decoded }

theorem Sim_AddByte_hit {m : Nat} {s : CodeStream} {d : LZWDecoder} {inp : List Nat}
    {pend : List (List Nat)} (h2 : 2 ≤ m) (h8 : m ≤ 8) (hn : NumInv m s)
    (h : Sim m s d inp pend) {p got : Nat} (hp : p < 2 ^ m) (hm : ¬ s.Match < 0)
    (hl : s.Dict.lookup (s.Match.toNat ||| (p <<< 16) ||| (1 <<< 24)) = some got) :
    Sim m { s with Match := got } d (inp ++ [p]) pend := by
  obtain ⟨hlo, hhi⟩ := two_pow_bounds h2 h8
  have hcc := hn.clearCode
  have hmne := hn.match_ne
  have hmlt := hn.match_lt
  have hnle := hn.nextCode_le
  obtain ⟨hd1, hd2, hd3⟩ := h.dict s.Match.toNat p got (by omega) (by omega) hl
  have hne : (d.table ++ pend).getD s.Match.toNat [] ≠ [] :=
    h.nonempty _ (by rw [h.next]; omega) (by omega) (by omega)
  have hmatched : d.out ++ (d.table ++ pend).getD s.Match.toNat [] = inp := by
    rcases h.matched with ⟨hneg, -, -⟩ | ⟨-, hh⟩
    · omega
    · exact hh
  exact
    { minCodeSize := h.minCodeSize
      codeSize := h.codeSize
      table_len := h.table_len
      table_lit := h.table_lit
      next := h.next
      nonempty := h.nonempty
      fresh := h.fresh
      pending := fun pc hpc => by
        obtain ⟨a1, a2, a3, q, a4, a5⟩ := h.pending pc hpc
        refine ⟨a1, a2, a3, q, a4, ?_⟩
        show ((d.table ++ pend).getD (got : Int).toNat []).head? = some q
        rw [Int.toNat_natCast, hd3, List.head?_append_of_ne_nil _ hne]
        exact a5
      matched := Or.inr ⟨by simp, by
        show d.out ++ (d.table ++ pend).getD (got : Int).toNat [] = inp ++ [p]
        rw [Int.toNat_natCast, hd3, ← List.append_assoc, hmatched]⟩
      dict := h.dict
      decoded := h.decoded }

end Iff2Gif

namespace Iff2Gif

open CodeStream

/-- The stream `t` after `AddByte` wrote the match and gave the string the next code. -/
theorem Sim_AddByte_miss {m : Nat} {s t : CodeStream} {d : LZWDecoder} {inp : List Nat}
    {pend : List (List Nat)} (h2 : 2 ≤ m) (h8 : m ≤ 8) (hn : NumInv m s)
    (h : Sim m s d inp pend) {p : Nat} (hp : p < 2 ^ m) (hm : ¬ s.Match < 0)
    (t1 : t.CodeSize = if s.NextCode + 1 = 2 ^ s.CodeSize + 1 then s.CodeSize + 1 else s.CodeSize)
    (t2 : t.NextCode = s.NextCode + 1) (t3 : t.Match = p)
    (t4 : t.Dict = (s.Match.toNat ||| (p <<< 16) ||| (1 <<< 24), s.NextCode) :: s.Dict)
    (t5 : t.Written = s.Written ++ [(s.Match.toNat, s.CodeSize)]) :
    ∃ (d' : LZWDecoder) (pend' : List (List Nat)), Sim m t d' (inp ++ [p]) pend' := by
  obtain ⟨hlo, hhi⟩ := two_pow_bounds h2 h8
  have hcc := hn.clearCode
  have hmne := hn.match_ne
  have hmlt := hn.match_lt
  have hnle := hn.nextCode_le
  have hnext := h.next
  have htl := h.table_len
  obtain ⟨d', hstep, e1, e2, e3, e4, e5, e6⟩ := Sim_match h2 h8 hn h (by omega)
  have hlen : d'.table.length = s.NextCode := by rw [e4]; exact hnext
  have hlen' : (d'.table ++ [d'.table.getD s.Match.toNat [] ++ [p]]).length
      = s.NextCode + 1 := by simp [hlen]
  have hlen0 : d.table.length ≤ d'.table.length := by rw [e4]; simp
  have hlit : ∀ i, i < 2 ^ m → d'.table.getD i [] = [i] := by
    intro i hi
    rw [e4]
    exact Sim_getD_lit h hi
  have hlit' : (d'.table ++ [d'.table.getD s.Match.toNat [] ++ [p]]).getD p [] = [p] := by
    rw [List.getD_append _ _ _ _ (by omega)]
    exact hlit p hp
  have hnew : (d'.table ++ [d'.table.getD s.Match.toNat [] ++ [p]]).getD s.NextCode []
      = d'.table.getD s.Match.toNat [] ++ [p] := by
    rw [List.getD_append_right _ _ _ _ (by omega), hlen, Nat.sub_self]
    rfl
  refine ⟨d', [d'.table.getD s.Match.toNat [] ++ [p]], ?_⟩
  exact
    { minCodeSize := e1
      codeSize := by
        rw [e5, t1]
        by_cases hb : s.NextCode = 2 ^ s.CodeSize
        · rw [if_pos hb, if_pos (by omega)]
        · rw [if_neg hb, if_neg (by omega)]
      table_len := by omega
      table_lit := hlit
      next := by rw [hlen', t2]
      nonempty := by
        intro i hi hi1 hi2
        rw [hlen'] at hi
        by_cases hlt : i < s.NextCode
        · rw [List.getD_append _ _ _ _ (by omega), e4]
          exact h.nonempty i (by omega) hi1 hi2
        · have : i = s.NextCode := by omega
          rw [this, hnew]
          simp
      fresh := by intro hnone; rw [e3] at hnone; cases hnone
      pending := by
        intro pc hpc
        rw [e3] at hpc
        cases hpc
        refine ⟨by omega, by omega, by omega, p, rfl, ?_⟩
        rw [t3, Int.toNat_natCast, hlit']
        rfl
      matched := Or.inr ⟨by rw [t3]; simp, by rw [t3, Int.toNat_natCast, hlit', e2]⟩
      dict := by
        intro c b v hc hb hl
        rw [t4, List.lookup_cons] at hl
        cases hbeq : (c ||| (b <<< 16) ||| (1 <<< 24)
            == s.Match.toNat ||| (p <<< 16) ||| (1 <<< 24)) with
        | true =>
          rw [hbeq] at hl
          have hv : s.NextCode = v := by simpa using hl
          obtain ⟨hcm, hbp⟩ := dictKey_inj hc hb (by omega) (by omega) (beq_iff_eq.1 hbeq)
          subst hv
          rw [hlen', hnew, hcm, hbp, List.getD_append _ _ _ _ (by omega)]
          exact ⟨by omega, by omega, rfl⟩
        | false =>
          rw [hbeq] at hl
          obtain ⟨a1, a2, a3⟩ := h.dict c b v hc hb hl
          rw [hlen', List.getD_append _ _ _ _ (by omega), List.getD_append _ _ _ _ (by omega), e4]
          exact ⟨a1, by omega, a3⟩
      decoded := by rw [t5]; exact e6 }

/-- The stream `t` after `AddByte` wrote the match, gave the string the last code, and
wrote the clear code. -/
theorem Sim_AddByte_clear {m : Nat} {s t : CodeStream} {d : LZWDecoder} {inp : List Nat}
    {pend : List (List Nat)} (h2 : 2 ≤ m) (h8 : m ≤ 8) (hn : NumInv m s)
    (h : Sim m s d inp pend) {p : Nat} (hp : p < 2 ^ m) (hm : ¬ s.Match < 0)
    (hlim : s.NextCode + 1 = 4096)
    (t1 : t.CodeSize = m + 1) (t2 : t.NextCode = 2 ^ m + 2) (t3 : t.Match = p)
    (t4 : t.Dict = ResetDictFill (2 ^ m) [])
    (t5 : t.Written = s.Written ++ [(s.Match.toNat, s.CodeSize)] ++ [(2 ^ m, s.CodeSize)]) :
    Sim m t (LZWDecoder.clear m inp) (inp ++ [p]) [] := by
  obtain ⟨hlo, hhi⟩ := two_pow_bounds h2 h8
  have hcsge := hn.codeSize_ge
  have hcpow := hn.clear_pow
  have hcc := hn.clearCode
  obtain ⟨d', hstep, e1, e2, e3, e4, e5, e6⟩ := Sim_match h2 h8 hn h (by omega)
  have hne : ¬ s.NextCode = 2 ^ s.CodeSize := by
    obtain ⟨k, hk⟩ : ∃ k, s.CodeSize = k + 1 := ⟨s.CodeSize - 1, by omega⟩
    rw [hk, pow_succ]
    omega
  rw [if_neg hne] at e5
  have hlit : ((LZWDecoder.clear m inp).table ++ []).getD p [] = [p] := by
    rw [List.append_nil]
    exact clear_table_lit m inp p hp
  exact
    { minCodeSize := rfl
      codeSize := by rw [t1]; rfl
      table_len := by rw [clear_table_length]
      table_lit := fun i hi => clear_table_lit m inp i hi
      next := by rw [List.append_nil, clear_table_length, t2]
      nonempty := by
        intro i hi hi1 hi2
        rw [List.append_nil] at hi ⊢
        rw [clear_table_length] at hi
        rw [clear_table_lit m inp i (by omega)]
        simp
      fresh := fun _ => ⟨rfl, clear_table_length m inp, rfl⟩
      pending := fun pc hpc => by simp [LZWDecoder.clear] at hpc
      matched := Or.inr ⟨by rw [t3]; simp, by
        rw [t3, Int.toNat_natCast, hlit]
        rfl⟩
      dict := by
        intro c b v hc hb hl
        rw [t4, lookup_ResetDictFill _ _ (by rw [dictKey_eq hc hb]; norm_num; omega)] at hl
        cases hl
      decoded := by
        intro rest
        rw [t5, writtenBits_append, writtenBits_singleton, List.append_assoc, e6, ← e5,
          run_code d' _ rest (by omega) (by rw [e5, ← hcc]; omega), if_neg (by rw [e1]; omega),
          ← e1, step_clear, e2] }

theorem Sim_AddByte {m : Nat} {s : CodeStream} {d : LZWDecoder} {inp : List Nat}
    {pend : List (List Nat)} (h2 : 2 ≤ m) (h8 : m ≤ 8) (hn : NumInv m s)
    (h : Sim m s d inp pend) {p : Nat} (hp : p < 2 ^ m) :
    ∃ (d' : LZWDecoder) (pend' : List (List Nat)), Sim m (s.AddByte p) d' (inp ++ [p]) pend' := by
  have hshift : (1 : Nat) <<< s.MinCodeSize = 2 ^ m := by
    rw [hn.minCodeSize]; simp [Nat.shiftLeft_eq]
  by_cases hm : s.Match < 0
  · rw [AddByte_start s p hm]
    exact ⟨d, pend, Sim_AddByte_start h hp hm⟩
  · cases hl : s.Dict.lookup (s.Match.toNat ||| (p <<< 16) ||| (1 <<< 24)) with
    | some got =>
      rw [AddByte_hit s p got hm hl]
      exact ⟨d, pend, Sim_AddByte_hit h2 h8 hn h hp hm hl⟩
    | none =>
      have hmne := hn.match_ne
      have hmne1 : s.Match.toNat ≠ s.ClearCode := by omega
      by_cases h4096 : s.NextCode + 1 = 4096
      · obtain ⟨codes, chunk, k, codes2, chunk2, k2, heq, -⟩ :=
          AddByte_miss_clear s p hm hl hmne1 h4096
        rw [heq]
        exact ⟨_, _, Sim_AddByte_clear h2 h8 hn h hp hm h4096
          (by show s.MinCodeSize + 1 = m + 1; rw [hn.minCodeSize])
          (by show s.EOICode + 1 = 2 ^ m + 2; rw [hn.eoiCode, hn.clearCode])
          rfl (by show ResetDictFill (1 <<< s.MinCodeSize) [] = _; rw [hshift])
          (by rw [← hn.clearCode])⟩
      · obtain ⟨codes, chunk, k, heq, -⟩ := AddByte_miss s p hm hl hmne1 h4096
        rw [heq]
        exact Sim_AddByte_miss h2 h8 hn h hp hm rfl rfl rfl rfl rfl

theorem Sim_foldl {m : Nat} (h2 : 2 ≤ m) (h8 : m ≤ 8) :
    ∀ (input : List Nat) (s : CodeStream) (d : LZWDecoder) (inp : List Nat)
      (pend : List (List Nat)), NumInv m s → Sim m s d inp pend → (∀ p ∈ input, p < 2 ^ m) →
      ∃ (d' : LZWDecoder) (pend' : List (List Nat)),
        Sim m (input.foldl AddByte s) d' (inp ++ input) pend' := by
  intro input
  induction input with
  | nil => intro s d inp pend _ h _; exact ⟨d, pend, by simpa using h⟩
  | cons p ps ih =>
    intro s d inp pend hn h hp
    have hp0 := hp p (List.mem_cons_self _ _)
    obtain ⟨d1, pend1, h1⟩ := Sim_AddByte h2 h8 hn h hp0
    obtain ⟨d', pend', h'⟩ := ih _ d1 _ pend1 (NumInv_AddByte h2 h8 hn hp0) h1
      (fun x hx => hp x (List.mem_cons_of_mem _ hx))
    exact ⟨d', pend', by simpa using h'⟩

end Iff2Gif

namespace Iff2Gif

open CodeStream

/-! ## The end of the stream -/

theorem BitInv_WriteCode (pre : List Nat) (s : CodeStream) (code : Nat) (h : BitInv pre s)
    (hne : code ≠ s.ClearCode) (hc : code < 2 ^ s.CodeSize) : BitInv pre (s.WriteCode code) := by
  obtain ⟨codes, chunk, k, heq, hp, hk, hle⟩ := WriteCode_of_ne s code hne
  rw [heq]
  exact BitInv_step pre s _ code codes chunk k h hc hp hk hle rfl rfl rfl rfl rfl

theorem WriteCode_fields (s : CodeStream) (code : Nat) (hne : code ≠ s.ClearCode) :
    (s.WriteCode code).ClearCode = s.ClearCode ∧ (s.WriteCode code).EOICode = s.EOICode ∧
      (s.WriteCode code).CodeSize = s.CodeSize := by
  obtain ⟨codes, chunk, k, heq, -⟩ := WriteCode_of_ne s code hne
  rw [heq]
  exact ⟨rfl, rfl, rfl⟩

/-- The final `Dump` and the block terminator, on the payload of the stream. -/
theorem Dump_payload (pre payload : List Nat) (s : CodeStream)
    (h : Packed pre payload s.Codes s.Chunk) :
    ∃ blocks : List (List Nat),
      s.Dump.Codes ++ [0] = pre ++ frameBlocks blocks ++ [0] ∧
      (∀ b ∈ blocks, 1 ≤ b.length) ∧ blocks.flatten = payload := by
  obtain ⟨blocks, hc, hb, hl, hp⟩ := h
  by_cases hch : s.Chunk.length > 0
  · refine ⟨blocks ++ [s.Chunk], ?_, ?_, ?_⟩
    · simp [Dump, hch, hc, frameBlocks]
    · intro b hb'
      rcases List.mem_append.1 hb' with hb' | hb'
      · rw [hb b hb']; omega
      · simp at hb'; subst hb'; omega
    · simpa using hp
  · have hnil : s.Chunk = [] := by
      cases hs : s.Chunk with
      | nil => rfl
      | cons a t => simp [hs] at hch
    refine ⟨blocks, ?_, ?_, ?_⟩
    · simp [Dump, hch, hc]
    · intro b hb'; rw [hb b hb']; omega
    · simpa [hnil] using hp

/-- Flushing the accumulator pads the bits of the codes with fewer than 8 zero bits. -/
theorem flush_bits (pre : List Nat) (t : CodeStream) (h : BitInv pre t) :
    ∃ (blocks : List (List Nat)) (j : Nat),
      (t.DumpAccum true).Dump.Codes ++ [0] = pre ++ frameBlocks blocks ++ [0] ∧
      (∀ b ∈ blocks, 1 ≤ b.length) ∧
      bytesBits blocks.flatten = writtenBits t.Written ++ List.replicate j false := by
  obtain ⟨payload, hpk, hb0, hb7, hA, hbits⟩ := h
  obtain ⟨codes, chunk, k, heq, hp, hk, hex⟩ :=
    DumpAccumLoop_spec 0 (le_refl _) t.BitPos.toNat t
  have hex := hex (le_refl _)
  have hD : t.DumpAccum true =
      { t with Codes := codes, Chunk := chunk, Accum := t.Accum / 256 ^ k,
               BitPos := t.BitPos - 8 * k } := by
    unfold DumpAccum
    simp only [if_true]
    exact heq
  have hpk' : Packed pre (payload ++ accumBytes k t.Accum) (t.DumpAccum true).Codes
      (t.DumpAccum true).Chunk := by
    rw [hD]; exact hp pre payload hpk
  obtain ⟨blocks, hc, hb, hfl⟩ := Dump_payload pre _ _ hpk'
  obtain ⟨j, h8k⟩ : ∃ j, 8 * k = t.BitPos.toNat + j := ⟨8 * k - t.BitPos.toNat, by omega⟩
  refine ⟨blocks, j, hc, hb, ?_⟩
  rw [hfl, bytesBits_append, bytesBits_accumBytes, h8k, natBits_of_lt hA, ← List.append_assoc,
    hbits]

/-- The decoder on the end-of-information code written with `cs` bits and zero padding,
when it expects `cs` bits or one more. -/
theorem run_eoi (d : LZWDecoder) (cs j : Nat) (hcs : 1 ≤ cs)
    (hd : d.codeSize = cs ∨ d.codeSize = cs + 1) (he : 2 ^ d.minCodeSize + 1 < 2 ^ cs) :
    d.run 0 0 (natBits cs (2 ^ d.minCodeSize + 1) ++ List.replicate j false) = some d.out := by
  rcases hd with hd | hd
  · rw [← hd, run_code d _ _ (by omega) (by rw [hd]; exact he), if_pos rfl]
  · cases j with
    | zero =>
      rw [List.replicate_zero, List.append_nil]
      exact run_short d _ 0 0 (by rw [natBits_length]; omega)
    | succ j =>
      have : natBits cs (2 ^ d.minCodeSize + 1) ++ List.replicate (j + 1) false
          = natBits d.codeSize (2 ^ d.minCodeSize + 1) ++ List.replicate j false := by
        rw [hd, natBits_of_lt he 1, List.replicate_succ, List.append_assoc]
        rfl
      rw [this, run_code d _ _ (by omega)
        (by rw [hd, pow_succ]; omega), if_pos rfl]

/-- The destructor ends a stream the decoder followed: the decoder, given the finished
bytes, returns the pixels the encoder took.  End-of-information is written with the
width of the code before it; the decoder may expect one bit more by then, and reads it
from the padding or meets the end of the data. -/
theorem destruct_decode {m : Nat} {s : CodeStream} {d : LZWDecoder} {inp : List Nat}
    {pend : List (List Nat)} (pre : List Nat) (h2 : 2 ≤ m) (h8 : m ≤ 8) (hn : NumInv m s)
    (hb : BitInv pre s) (h : Sim m s d inp pend) :
    ∃ blocks : List (List Nat), s.destruct.Codes = pre ++ frameBlocks blocks ++ [0] ∧
      (∀ b ∈ blocks, 1 ≤ b.length) ∧
      (LZWDecoder.clear m []).run 0 0 (bytesBits blocks.flatten) = some inp := by
  obtain ⟨hlo, hhi⟩ := two_pow_bounds h2 h8
  have hcc := hn.clearCode
  have heoi := hn.eoiCode
  have hmne := hn.match_ne
  have hmlt := hn.match_lt
  have hnpow := hn.nextCode_pow
  have hcpow := hn.clear_pow
  have hcsge := hn.codeSize_ge
  have hlt : 2 ^ m + 1 < 2 ^ s.CodeSize := by omega
  rw [destruct_Codes]
  by_cases hm : s.Match ≥ 0
  · simp only [hm, if_true]
    have hne1 : s.Match.toNat ≠ s.ClearCode := by omega
    obtain ⟨f1, f2, f3⟩ := WriteCode_fields s s.Match.toNat hne1
    have hb1 := BitInv_WriteCode pre s s.Match.toNat hb hne1 (by omega)
    have hw1 : (s.WriteCode s.Match.toNat).Written = s.Written ++ [(s.Match.toNat, s.CodeSize)] := by
      obtain ⟨codes, chunk, k, heq, -⟩ := WriteCode_of_ne s s.Match.toNat hne1
      rw [heq]
    have hne2 : (s.WriteCode s.Match.toNat).EOICode ≠ (s.WriteCode s.Match.toNat).ClearCode := by
      rw [f1, f2]; omega
    have hb2 := BitInv_WriteCode pre _ _ hb1 hne2 (by rw [f2, f3]; omega)
    have hw2 : ((s.WriteCode s.Match.toNat).WriteCode (s.WriteCode s.Match.toNat).EOICode).Written
        = s.Written ++ [(s.Match.toNat, s.CodeSize)] ++ [(2 ^ m + 1, s.CodeSize)] := by
      obtain ⟨codes, chunk, k, heq, -⟩ := WriteCode_of_ne _ _ hne2
      rw [heq]
      show (s.WriteCode s.Match.toNat).Written ++ [((s.WriteCode s.Match.toNat).EOICode,
        (s.WriteCode s.Match.toNat).CodeSize)] = _
      rw [hw1, f2, f3, heoi, hcc]
    obtain ⟨blocks, j, hc, hbl, hbits⟩ := flush_bits pre _ hb2
    refine ⟨blocks, hc, hbl, ?_⟩
    obtain ⟨d', -, e1, e2, -, -, e5, e6⟩ := Sim_match h2 h8 hn h hm
    rw [hbits, hw2, writtenBits_append, writtenBits_singleton, List.append_assoc, e6, ← e1,
      run_eoi d' s.CodeSize j (by omega) (by rw [e5]; split <;> simp) (by rw [e1]; exact hlt), e2]
  · simp only [hm, if_false]
    have hne2 : s.EOICode ≠ s.ClearCode := by omega
    have hb2 := BitInv_WriteCode pre s s.EOICode hb hne2 (by omega)
    have hw2 : (s.WriteCode s.EOICode).Written = s.Written ++ [(2 ^ m + 1, s.CodeSize)] := by
      obtain ⟨codes, chunk, k, heq, -⟩ := WriteCode_of_ne s s.EOICode hne2
      rw [heq]
      show s.Written ++ [(s.EOICode, s.CodeSize)] = _
      rw [heoi, hcc]
    obtain ⟨blocks, j, hc, hbl, hbits⟩ := flush_bits pre _ hb2
    refine ⟨blocks, hc, hbl, ?_⟩
    have hout : d.out = inp := by
      rcases h.matched with ⟨-, h1, -⟩ | ⟨h1, -⟩
      · exact h1
      · omega
    rw [hbits, hw2, writtenBits_append, writtenBits_singleton, List.append_assoc, h.decoded,
      ← h.minCodeSize, run_eoi d s.CodeSize j (by omega) (Or.inl h.codeSize)
        (by rw [h.minCodeSize]; exact hlt), hout]

end Iff2Gif

namespace Iff2Gif

open GIFWriter

/-! ## Writing frames -/

theorem FILE_write_ok (f : FILE) (bytes : List Nat) (h : bytes.length ≤ f.room) :
    f.write bytes = (true, { data := f.data ++ bytes, room := f.room - bytes.length }) := by
  unfold FILE.write
  rw [if_pos h]

theorem word16_length (v : Nat) : (word16 v).length = 2 := rfl

theorem GCE_bytes_length (g : GraphicControlExtension) : g.bytes.length = 8 := by
  simp [GraphicControlExtension.bytes, word16]

theorem IMD_bytes_length (d : ImageDescriptor) : d.bytes.length = 9 := by
  simp [ImageDescriptor.bytes, word16]

theorem GIFFrame_bytes_length (f : GIFFrame) :
    f.bytes.length =
      (if f.GCE.Flags ≠ 0 ∨ f.GCE.DelayTime ≠ 0 then 8 else 0) + 10 + f.LZW.length := by
  unfold GIFFrame.bytes
  split <;> simp [GCE_bytes_length, IMD_bytes_length] <;> omega

/-- `Write` on an open stream with room for the frame. -/
theorem Write_ok (f : GIFFrame) (out : FILE) (h : f.bytes.length ≤ out.room) :
    f.Write true out =
      (true, { data := out.data ++ f.bytes, room := out.room - f.bytes.length }) := by
  have hlen := GIFFrame_bytes_length f
  unfold GIFFrame.Write GIFFrame.bytes
  by_cases hg : f.GCE.Flags ≠ 0 ∨ f.GCE.DelayTime ≠ 0
  · rw [if_pos hg] at hlen
    simp only [if_true, if_pos hg]
    rw [FILE_write_ok out _ (by rw [GCE_bytes_length]; omega)]
    simp only [Bool.not_true, Bool.false_eq_true, if_false]
    rw [FILE_write_ok _ [0x2C] (by simp [GCE_bytes_length]; omega)]
    simp only [Bool.not_true, Bool.false_eq_true, if_false]
    rw [FILE_write_ok _ f.IMD.bytes (by simp [GCE_bytes_length, IMD_bytes_length]; omega)]
    simp only [Bool.not_true, Bool.false_eq_true, if_false]
    rw [FILE_write_ok _ f.LZW (by simp [GCE_bytes_length, IMD_bytes_length]; omega)]
    simp only [Bool.not_true, Bool.false_eq_true, if_false, List.append_assoc, List.length_append,
      GCE_bytes_length, IMD_bytes_length, List.length_singleton, Prod.mk.injEq, FILE.mk.injEq,
      true_and]
    omega
  · rw [if_neg hg] at hlen
    simp only [if_true, if_neg hg]
    simp only [Bool.not_true, Bool.false_eq_true, if_false]
    rw [FILE_write_ok _ [0x2C] (by simp; omega)]
    simp only [Bool.not_true, Bool.false_eq_true, if_false]
    rw [FILE_write_ok _ f.IMD.bytes (by simp [IMD_bytes_length]; omega)]
    simp only [Bool.not_true, Bool.false_eq_true, if_false]
    rw [FILE_write_ok _ f.LZW (by simp [IMD_bytes_length]; omega)]
    simp only [Bool.not_true, Bool.false_eq_true, if_false, List.append_assoc, List.length_append,
      IMD_bytes_length, List.length_singleton, Prod.mk.injEq, FILE.mk.injEq, List.nil_append,
      List.length_nil, true_and]
    omega

/-- `Write` without an open stream. -/
theorem Write_closed (f : GIFFrame) (out : FILE) : f.Write false out = (true, out) := by
  unfold GIFFrame.Write
  simp

end Iff2Gif

namespace Iff2Gif

open GIFWriter GIFFrameQueue

/-! ## The frame queue -/

theorem Enqueue_room (QUEUE_SIZE : Nat) (q : GIFFrameQueue) (out : FILE) (g : GIFFrame)
    (h : q.QueueCount < QUEUE_SIZE) :
    q.Enqueue QUEUE_SIZE out g = (true, { q with Queue := q.Queue ++ [g] }, out) := by
  unfold Enqueue
  rw [if_neg (by omega)]

theorem Enqueue_full (QUEUE_SIZE : Nat) (q : GIFFrameQueue) (out : FILE) (g f0 : GIFFrame)
    (rest : List GIFFrame) (hq : q.Queue = f0 :: rest) (h : q.QueueCount = QUEUE_SIZE) :
    q.Enqueue QUEUE_SIZE out g =
      ((f0.Write q.File out).1, { q with Queue := rest ++ [g] }, (f0.Write q.File out).2) := by
  unfold Enqueue Shift
  rw [if_pos h]
  simp only [hq]

theorem FlushLoop_ok : ∀ (fs : List GIFFrame) (out : FILE),
    (fs.flatMap GIFFrame.bytes).length ≤ out.room →
    FlushLoop true fs out =
      (true, { data := out.data ++ fs.flatMap GIFFrame.bytes,
               room := out.room - (fs.flatMap GIFFrame.bytes).length }) := by
  intro fs
  induction fs with
  | nil => intro out _; simp [FlushLoop]
  | cons f fs ih =>
    intro out h
    simp only [List.flatMap_cons, List.length_append] at h
    rw [FlushLoop, Write_ok f out (by omega)]
    simp only [Bool.not_true, Bool.false_eq_true, if_false]
    rw [ih _ (by simp only []; omega)]
    simp only [List.flatMap_cons, List.length_append, List.append_assoc, Prod.mk.injEq,
      FILE.mk.injEq, true_and]
    omega

theorem FlushLoop_closed : ∀ (fs : List GIFFrame) (out : FILE),
    FlushLoop false fs out = (true, out) := by
  intro fs
  induction fs with
  | nil => intro out; rfl
  | cons f fs ih =>
    intro out
    rw [FlushLoop, Write_closed]
    simp only [Bool.not_true, Bool.false_eq_true, if_false]
    exact ih out

/-- A run of `Enqueue` calls on an open stream with room: the frames beyond the capacity
of the queue have gone to the stream, oldest first, and the others are queued. -/
theorem EnqueueAll_ok (QUEUE_SIZE : Nat) (hQ : 1 ≤ QUEUE_SIZE) :
    ∀ (gs : List GIFFrame) (q : GIFFrameQueue) (out : FILE), q.QueueCount ≤ QUEUE_SIZE →
      q.File = true → ((q.Queue ++ gs).flatMap GIFFrame.bytes).length ≤ out.room →
      (q.EnqueueAll QUEUE_SIZE out gs).1.Queue =
          (q.Queue ++ gs).drop (q.Queue.length + gs.length - QUEUE_SIZE) ∧
      (q.EnqueueAll QUEUE_SIZE out gs).2.data =
          out.data ++
            ((q.Queue ++ gs).take (q.Queue.length + gs.length - QUEUE_SIZE)).flatMap
              GIFFrame.bytes := by
  intro gs
  induction gs with
  | nil =>
    intro q out hle _ _
    have hle' : q.Queue.length ≤ QUEUE_SIZE := hle
    simp [EnqueueAll, Nat.sub_eq_zero_of_le hle']
  | cons g gs ih =>
    intro q out hle hfile hroom
    have hle' : q.Queue.length ≤ QUEUE_SIZE := hle
    rw [EnqueueAll]
    by_cases hlt : q.QueueCount < QUEUE_SIZE
    · have hlt' : q.Queue.length < QUEUE_SIZE := hlt
      rw [Enqueue_room QUEUE_SIZE q out g hlt]
      obtain ⟨h1, h2⟩ := ih { q with Queue := q.Queue ++ [g] } out
        (by show (q.Queue ++ [g]).length ≤ QUEUE_SIZE; simp; omega) hfile
        (by simpa using hroom)
      simp only [List.append_assoc, List.singleton_append, List.length_append,
        List.length_singleton] at h1 h2
      simp only [List.length_cons]
      rw [h1, h2]
      have : q.Queue.length + 1 + gs.length = q.Queue.length + (gs.length + 1) := by omega
      rw [this]
      exact ⟨rfl, rfl⟩
    · have heq : q.QueueCount = QUEUE_SIZE := by omega
      have heq' : q.Queue.length = QUEUE_SIZE := heq
      cases hq : q.Queue with
      | nil => rw [hq] at heq'; simp at heq'; omega
      | cons f0 rest =>
        rw [hq] at heq' hroom
        simp only [List.length_cons] at heq'
        simp only [List.cons_append, List.flatMap_cons, List.length_append] at hroom
        have hw : f0.Write q.File out =
            (true, { data := out.data ++ f0.bytes, room := out.room - f0.bytes.length }) := by
          rw [hfile]; exact Write_ok f0 out (by omega)
        rw [Enqueue_full QUEUE_SIZE q out g f0 rest hq heq, hw]
        obtain ⟨h1, h2⟩ := ih { q with Queue := rest ++ [g] }
          { data := out.data ++ f0.bytes, room := out.room - f0.bytes.length }
          (by show (rest ++ [g]).length ≤ QUEUE_SIZE; simp; omega) hfile
          (by simp only [List.append_assoc, List.singleton_append, List.length_append]; omega)
        simp only [List.append_assoc, List.singleton_append, List.length_append,
          List.length_singleton] at h1 h2
        simp only [List.length_cons, List.cons_append]
        rw [h1, h2]
        have e1 : rest.length + 1 + gs.length - QUEUE_SIZE = gs.length := by omega
        have e2 : rest.length + 1 + (gs.length + 1) - QUEUE_SIZE = gs.length + 1 := by omega
        rw [e1, e2]
        simp

end Iff2Gif

namespace Iff2Gif

open GIFWriter GIFFrameQueue

/-! ## After a failed write -/

theorem Enqueue_closed (QUEUE_SIZE : Nat) (q : GIFFrameQueue) (out : FILE) (g : GIFFrame)
    (hq : q.File = false) :
    (q.Enqueue QUEUE_SIZE out g).1 = true ∧ (q.Enqueue QUEUE_SIZE out g).2.2 = out ∧
      (q.Enqueue QUEUE_SIZE out g).2.1.File = false := by
  unfold Enqueue
  by_cases h : q.QueueCount = QUEUE_SIZE
  · rw [if_pos h]
    unfold Shift
    cases hQ : q.Queue with
    | nil => exact ⟨rfl, rfl, hq⟩
    | cons f rest =>
      simp only [hq, Write_closed, and_self]
  · rw [if_neg h]
    exact ⟨rfl, rfl, hq⟩

theorem Flush_closed (q : GIFFrameQueue) (out : FILE) (hq : q.File = false) :
    (q.Flush out).1 = true ∧ (q.Flush out).2.2 = out ∧ (q.Flush out).2.1.File = false ∧
      (q.Flush out).2.1.Queue = [] := by
  unfold Flush
  rw [hq, FlushLoop_closed]
  exact ⟨rfl, rfl, rfl, rfl⟩

/-- `MakeFramePatched` leaves the stream and both `File` pointers alone. -/
theorem MakeFramePatched_io (w : GIFWriter) (bitmap : PlanarBitmap) (chunky : Nat → Nat) :
    (w.MakeFramePatched bitmap chunky).Output = w.Output ∧
    (w.MakeFramePatched bitmap chunky).File = w.File ∧
    (w.MakeFramePatched bitmap chunky).WriteQueue.File = w.WriteQueue.File ∧
    (w.MakeFramePatched bitmap chunky).FrameCount = w.FrameCount ∧
    (w.MakeFramePatched bitmap chunky).GlobalPalBits = w.GlobalPalBits := by
  unfold MakeFramePatched MakeFramePatch
  simp only
  split
  · rename_i old _
    rcases SelectDisposal_cases
      ({ w with WriteQueue := w.WriteQueue.SetDropFrames bitmap.Interleave } : GIFWriter)
      bitmap (MakeFrameNew bitmap).IMD chunky with ⟨h, -⟩ | ⟨-, prev, -, -, h⟩
    · rw [h]
      split <;> exact ⟨rfl, rfl, rfl, rfl, rfl⟩
    · rw [h]
      split <;> exact ⟨rfl, rfl, rfl, rfl, rfl⟩
  · exact ⟨rfl, rfl, rfl, rfl, rfl⟩

/-- `MakeFrame` without an open stream: nothing is written, `BadWrite` is not reached. -/
theorem MakeFrame_closed (QUEUE_SIZE : Nat) (w : GIFWriter) (bitmap : PlanarBitmap)
    (chunky : Nat → Nat) (hw : w.File = false) (hq : w.WriteQueue.File = false) :
    (w.MakeFrame QUEUE_SIZE bitmap chunky).Output = w.Output ∧
    (w.MakeFrame QUEUE_SIZE bitmap chunky).File = false ∧
    (w.MakeFrame QUEUE_SIZE bitmap chunky).WriteQueue.File = false ∧
    (w.MakeFrame QUEUE_SIZE bitmap chunky).FrameCount = w.FrameCount := by
  obtain ⟨p1, p2, p3, p4, -⟩ := MakeFramePatched_io w bitmap chunky
  obtain ⟨e1, e2, e3⟩ := Enqueue_closed QUEUE_SIZE (w.MakeFramePatched bitmap chunky).WriteQueue
    (w.MakeFramePatched bitmap chunky).Output (w.MakeFrameFrame bitmap chunky) (by rw [p3, hq])
  unfold MakeFrame
  simp only [e1, Bool.not_true, Bool.false_eq_true, if_false]
  exact ⟨by rw [e2, p1], by rw [p2, hw], e3, p4⟩

end Iff2Gif

namespace Iff2Gif

open GIFWriter GIFFrameQueue

/-! ## The header -/

theorem paletteBytes_length (pal : Nat → ColorRegister) :
    ∀ n, (paletteBytes pal n).length = 3 * n := by
  intro n
  induction n with
  | zero => rfl
  | succ n ih =>
    unfold paletteBytes at ih ⊢
    rw [List.range_succ, List.flatMap_append, List.length_append, ih]
    simp
    omega

theorem WriteHeaderLSD_length (w : GIFWriter) : w.WriteHeaderLSD.length = 7 := by
  simp [WriteHeaderLSD, word16]

theorem WriteHeaderLSD_flags (w : GIFWriter) :
    w.WriteHeaderLSD.getD 4 0 = if w.GlobalPalBits > 0 then 0xF0 ||| (w.GlobalPalBits - 1) else 0 := by
  simp [WriteHeaderLSD, word16]

theorem headerBytes_length (w : GIFWriter) (loop : Bool) :
    (w.headerBytes loop).length =
      13 + (if 0 < w.GlobalPalBits then 3 * 2 ^ w.GlobalPalBits else 0) +
        (if loop then 19 else 0) := by
  unfold headerBytes
  simp only [List.length_append, WriteHeaderLSD_length]
  have h1 : (if 0 < w.GlobalPalBits then paletteBytes w.GlobalPal (2 ^ w.GlobalPalBits)
      else []).length = if 0 < w.GlobalPalBits then 3 * 2 ^ w.GlobalPalBits else 0 := by
    split
    · exact paletteBytes_length _ _
    · rfl
  have h2 : (if loop then loopingExtension else []).length = if loop then 19 else 0 := by
    cases loop <;> rfl
  rw [h1, h2]
  rfl

theorem flags_palette_bit (p : Nat) (h1 : 1 ≤ p) (h8 : p ≤ 8) :
    (0xF0 ||| (p - 1)) &&& 0x80 ≠ 0 := by
  interval_cases p <;> decide

/-- `WriteHeader` when the file opens and takes the header. -/
theorem WriteHeader_ok (w : GIFWriter) (loop : Bool) (hopen : w.CanOpen = true)
    (hp8 : w.GlobalPalBits ≤ 8) (hroom : (w.headerBytes loop).length ≤ w.Output.room) :
    w.WriteHeader loop =
      { w with File := true, WriteQueue := w.WriteQueue.SetFile true,
               Output := { data := w.headerBytes loop,
                           room := w.Output.room - (w.headerBytes loop).length } } := by
  have hlen := headerBytes_length w loop
  rw [hlen] at hroom
  have hshift : (1 : Nat) <<< w.GlobalPalBits = 2 ^ w.GlobalPalBits := by simp [Nat.shiftLeft_eq]
  unfold WriteHeader
  simp only [hopen, Bool.not_true, Bool.false_eq_true, if_false]
  rw [FILE_write_ok _ [71, 73, 70, 56, 57, 97] (by simp; omega)]
  simp only [Bool.not_true, Bool.false_eq_true, if_false]
  rw [FILE_write_ok _ w.WriteHeaderLSD (by simp [WriteHeaderLSD_length]; omega)]
  simp only [Bool.not_true, Bool.false_eq_true, if_false, WriteHeaderLSD_flags, hshift]
  by_cases hp : 0 < w.GlobalPalBits
  · have hbit := flags_palette_bit w.GlobalPalBits hp hp8
    rw [if_pos hp] at hroom
    simp only [gt_iff_lt, hp, if_true, hbit, ne_eq, not_false_eq_true]
    rw [FILE_write_ok _ (paletteBytes w.GlobalPal (2 ^ w.GlobalPalBits))
      (by simp [WriteHeaderLSD_length, paletteBytes_length]; omega)]
    simp only [Bool.not_true, Bool.false_eq_true, if_false]
    cases loop with
    | true =>
      simp only [if_true] at hroom ⊢
      rw [FILE_write_ok _ loopingExtension
        (by simp [WriteHeaderLSD_length, paletteBytes_length, loopingExtension]; omega)]
      simp only [Bool.not_true, Bool.false_eq_true, if_false, headerBytes, hp, if_true]
      simp [WriteHeaderLSD_length, paletteBytes_length, loopingExtension]
      omega
    | false =>
      simp only [Bool.false_eq_true, if_false, Bool.not_true, headerBytes, hp, if_true]
      simp [WriteHeaderLSD_length, paletteBytes_length]
      omega
  · rw [if_neg hp] at hroom
    simp only [gt_iff_lt, hp, if_false, ne_eq, Nat.zero_and, not_true_eq_false]
    simp only [Bool.not_true, Bool.false_eq_true, if_false]
    cases loop with
    | true =>
      simp only [if_true] at hroom ⊢
      rw [FILE_write_ok _ loopingExtension
        (by simp [WriteHeaderLSD_length, loopingExtension]; omega)]
      simp only [Bool.not_true, Bool.false_eq_true, if_false, headerBytes, hp, if_true]
      simp [WriteHeaderLSD_length, loopingExtension]
      omega
    | false =>
      simp only [Bool.false_eq_true, if_false, Bool.not_true, headerBytes, hp, if_true]
      simp [WriteHeaderLSD_length]
      omega

end Iff2Gif

namespace Iff2Gif

open GIFWriter GIFFrameQueue

/-! ## One frame from the constructor to the destructor -/

theorem ExtendPalette_le (dest src : Nat → ColorRegister) (numsrc : Int) :
    (ExtendPalette dest src numsrc).1 ≤ 8 := by
  unfold ExtendPalette
  by_cases h : numsrc ≤ 0
  · rw [if_pos h]; exact Nat.zero_le _
  · rw [if_neg h]
    exact (ExtendPaletteBits_spec numsrc 8 1 (by norm_num) (by norm_num)).2.1

/-- Without a substitution colour `LZWCompress` does not read `prev`. -/
theorem LZWCompress_prev (vec : List Nat) (imd : ImageDescriptor) (prev prev' chunky : Nat → Nat)
    (pitch mincodesize : Nat) (trans : Int) (ht : trans < 0) :
    LZWCompress vec imd prev chunky pitch mincodesize trans =
      LZWCompress vec imd prev' chunky pitch mincodesize trans := by
  unfold LZWCompress LZWCompressCodes
  simp only [ht, if_true]

/-- The frame `MakeFrame` builds when there is no previous-frame buffer and no frame is
queued: the whole canvas, compressed without substitution. -/
theorem MakeFrameFrame_first (w : GIFWriter) (bitmap : PlanarBitmap) (chunky : Nat → Nat)
    (hp : w.PrevFrame = none) (hq : w.WriteQueue.Queue = []) :
    w.MakeFramePatched bitmap chunky =
      { w with WriteQueue := w.WriteQueue.SetDropFrames bitmap.Interleave } ∧
    w.MakeFrameFrame bitmap chunky =
      { MakeFrameNew bitmap with
        LZW := LZWCompress [] ⟨0, 0, bitmap.Width, bitmap.Height, 0⟩ (fun _ => 0) chunky
          bitmap.Width (bitmap.NumPlanes % 256) (-1) } := by
  have hpatched : w.MakeFramePatched bitmap chunky =
      { w with WriteQueue := w.WriteQueue.SetDropFrames bitmap.Interleave } := by
    unfold MakeFramePatched MakeFramePatch
    simp [MostRecent, SetDropFrames, hq]
  have hrect : w.MakeFrameRect bitmap chunky = MakeFrameNew bitmap := by
    unfold MakeFrameRect MakeFrameArea
    rw [hpatched]
    simp only [hp]
  have hchoice : w.MakeFrameChoice bitmap chunky = (-1, false, MakeFrameNew bitmap) := by
    unfold MakeFrameChoice MakeFrameTrans
    rw [hpatched, hrect]
    simp only [hp]
  refine ⟨hpatched, ?_⟩
  unfold MakeFrameFrame
  rw [hchoice, hpatched]
  simp only [hp, Option.getD_none]
  unfold MakeFrameCompress
  simp only [(MakeFrameNew_IMD bitmap).1, (MakeFrameNew_IMD bitmap).2]
  rw [if_neg (by decide)]

end Iff2Gif

namespace Iff2Gif

open GIFWriter GIFFrameQueue

/-- `MakeFrame` on the first frame of a stream without a transparent colour: the frame is
queued and nothing is written. -/
theorem MakeFrame_first (QUEUE_SIZE : Nat) (hQ : 1 ≤ QUEUE_SIZE) (w : GIFWriter)
    (bitmap : PlanarBitmap) (chunky : Nat → Nat) (hp : w.PrevFrame = none)
    (hq : w.WriteQueue.Queue = []) :
    w.MakeFrame QUEUE_SIZE bitmap chunky =
      { w with
        WriteQueue :=
          { File := w.WriteQueue.File,
            Queue := [{ MakeFrameNew bitmap with
              LZW := LZWCompress [] ⟨0, 0, bitmap.Width, bitmap.Height, 0⟩ (fun _ => 0) chunky
                bitmap.Width (bitmap.NumPlanes % 256) (-1) }],
            FinalFramesToDrop := bitmap.Interleave },
        PrevFrame := some chunky } := by
  obtain ⟨h1, h2⟩ := MakeFrameFrame_first w bitmap chunky hp hq
  unfold MakeFrame
  simp only
  rw [h1, h2]
  rw [Enqueue_room QUEUE_SIZE _ _ _ (by
    show (w.WriteQueue.SetDropFrames bitmap.Interleave).Queue.length < QUEUE_SIZE
    simp [SetDropFrames, hq]; omega)]
  simp [SetDropFrames, hq]

/-- `AddFrame` on a writer as constructed, for a frame without a transparent colour. -/
theorem AddFrame_first (QUEUE_SIZE : Nat) (hQ : 1 ≤ QUEUE_SIZE) (out : FILE)
    (bitmap : PlanarBitmap) (chunky : Nat → Nat) (hnt : bitmap.TransparentColor < 0) :
    AddFrame QUEUE_SIZE { Output := out, CanOpen := true } bitmap chunky =
      { Output := out, CanOpen := true,
        WriteQueue :=
          { File := false,
            Queue := [{ MakeFrameNew bitmap with
              LZW := LZWCompress [] ⟨0, 0, bitmap.Width, bitmap.Height, 0⟩ (fun _ => 0) chunky
                bitmap.Width (bitmap.NumPlanes % 256) (-1) }],
            FinalFramesToDrop := bitmap.Interleave },
        FrameCount := 1,
        FrameRate := if bitmap.Rate > 0 then bitmap.Rate else 50,
        PrevFrame := some chunky,
        BkgColor := 0,
        PageWidth := bitmap.Width,
        PageHeight := bitmap.Height,
        GlobalPalBits := (ExtendPalette (fun _ => ⟨0, 0, 0⟩) bitmap.Palette bitmap.PaletteSize).1,
        GlobalPal := (ExtendPalette (fun _ => ⟨0, 0, 0⟩) bitmap.Palette bitmap.PaletteSize).2 } := by
  unfold AddFrame DetectBackgroundColor
  have hnt' : ¬ bitmap.TransparentColor ≥ 0 := by omega
  simp only [if_true, hnt', if_false]
  by_cases hr : bitmap.Rate > 0
  · simp only [hr, if_true]
    rw [MakeFrame_first QUEUE_SIZE hQ _ bitmap chunky rfl rfl]
  · simp only [hr, if_false]
    rw [MakeFrame_first QUEUE_SIZE hQ _ bitmap chunky rfl rfl]

end Iff2Gif

namespace Iff2Gif

open GIFWriter GIFFrameQueue

/-- The destructor of a writer that took one frame and still holds it: the header
without the looping extension, the frame, the trailer. -/
theorem destruct_single (w : GIFWriter) (f : GIFFrame) (h1 : w.FrameCount = 1)
    (hopen : w.CanOpen = true) (hp8 : w.GlobalPalBits ≤ 8) (hq : w.WriteQueue.Queue = [f])
    (hd : w.WriteQueue.FinalFramesToDrop = 0)
    (hroom : (w.headerBytes false).length + f.bytes.length + 1 ≤ w.Output.room) :
    w.destruct.Output.data = w.headerBytes false ++ f.bytes ++ [0x3B] := by
  unfold destruct
  simp only [h1, if_true]
  rw [WriteHeader_ok w false hopen hp8 (by omega)]
  simp only [if_true]
  have hfl : ∀ out : FILE, f.bytes.length ≤ out.room →
      (w.WriteQueue.SetFile true).Flush out =
        (true, { (w.WriteQueue.SetFile true) with Queue := [] },
          { data := out.data ++ f.bytes, room := out.room - f.bytes.length }) := by
    intro out hr
    unfold Flush
    have ht : (w.WriteQueue.SetFile true).Queue.take
        ((w.WriteQueue.SetFile true).QueueCount - (w.WriteQueue.SetFile true).FinalFramesToDrop)
          = [f] := by
      simp [SetFile, QueueCount, hq, hd]
    rw [ht]
    have := FlushLoop_ok [f] out (by simpa using hr)
    simp only [List.flatMap_cons, List.flatMap_nil, List.append_nil] at this
    simp only [show (w.WriteQueue.SetFile true).File = true from rfl, this]
  rw [hfl _ (by simp only []; omega)]
  simp only [Bool.not_true, Bool.false_eq_true, if_false]
  rw [FILE_write_ok _ [0x3B] (by simp only [List.length_singleton]; omega)]
  simp only [Bool.not_true, Bool.false_eq_true, if_false]
  simp [Flush, FlushLoop, QueueCount]

end Iff2Gif

namespace Iff2Gif

open GIFWriter GIFFrameQueue

/-! ## `SelectTransparentColor` -/

theorem testBit_255 (b : Nat) (hb : b < 8) : Nat.testBit 255 b = true := by
  interval_cases b <;> rfl

theorem eq_255_of_testBit {x : Nat} (hx : x < 256) (h : ∀ b, b < 8 → x.testBit b = true) :
    x = 255 := by
  apply Nat.eq_of_testBit_eq
  intro i
  by_cases hi : i < 8
  · rw [h i hi, testBit_255 i hi]
  · have h8 : (2 : Nat) ^ 8 ≤ 2 ^ i := Nat.pow_le_pow_right (by norm_num) (by omega)
    rw [Nat.testBit_lt_two_pow (by omega : x < 2 ^ i),
      Nat.testBit_lt_two_pow (by omega : 255 < 2 ^ i)]

/-- The marking loops: bit `c % 8` of `used[c / 8]` is set exactly for the colours `c` of
the pixels of `l` that changed. -/
theorem Mark_foldl (prev now : Nat → Nat) :
    ∀ (l S : List Nat) (used : Nat → Nat), (∀ k, used k < 256) →
      (∀ k b, (used k).testBit b = true ↔
        ∃ i ∈ S, prev i ≠ now i ∧ now i / 8 = k ∧ now i % 8 = b) →
      (∀ k, l.foldl (fun used i =>
          if prev i ≠ now i then
            Function.update used (now i >>> 3) (used (now i >>> 3) ||| (1 <<< (now i &&& 7)))
          else used) used k < 256) ∧
      (∀ k b, (l.foldl (fun used i =>
          if prev i ≠ now i then
            Function.update used (now i >>> 3) (used (now i >>> 3) ||| (1 <<< (now i &&& 7)))
          else used) used k).testBit b = true ↔
        ∃ i ∈ S ++ l, prev i ≠ now i ∧ now i / 8 = k ∧ now i % 8 = b) := by
  intro l
  induction l with
  | nil => intro S used h1 h2; simpa using ⟨h1, h2⟩
  | cons a l ih =>
    intro S used h1 h2
    rw [List.foldl_cons]
    have hS : S ++ a :: l = (S ++ [a]) ++ l := by simp
    rw [hS]
    apply ih (S ++ [a])
    · intro k
      by_cases hd : prev a ≠ now a
      · rw [if_pos hd]
        by_cases hk : k = now a >>> 3
        · subst hk
          rw [Function.update_same, Nat.shiftLeft_eq, Nat.one_mul]
          have h7 : now a &&& 7 = now a % 8 := by
            simpa using Nat.and_pow_two_sub_one_eq_mod (now a) 3
          rw [h7]
          have : (2 : Nat) ^ (now a % 8) < 2 ^ 8 :=
            Nat.pow_lt_pow_right (by norm_num) (Nat.mod_lt _ (by norm_num))
          exact Nat.or_lt_two_pow (h1 _) this
        · rw [Function.update_noteq hk]
          exact h1 k
      · rw [if_neg hd]
        exact h1 k
    · intro k b
      by_cases hd : prev a ≠ now a
      · rw [if_pos hd]
        have h3 : now a >>> 3 = now a / 8 := by
          simpa using Nat.shiftRight_eq_div_pow (now a) 3
        have h7 : now a &&& 7 = now a % 8 := by
          simpa using Nat.and_pow_two_sub_one_eq_mod (now a) 3
        rw [h3, h7, Nat.shiftLeft_eq, Nat.one_mul]
        by_cases hk : k = now a / 8
        · subst hk
          rw [Function.update_same, Nat.testBit_or, Nat.testBit_two_pow, Bool.or_eq_true,
            decide_eq_true_eq, h2]
          constructor
          · rintro (⟨i, hi, hh⟩ | hb)
            · exact ⟨i, List.mem_append_left _ hi, hh⟩
            · exact ⟨a, by simp, hd, rfl, hb⟩
          · rintro ⟨i, hi, hh⟩
            rcases List.mem_append.1 hi with hi | hi
            · exact Or.inl ⟨i, hi, hh⟩
            · simp at hi; subst hi; exact Or.inr hh.2.2
        · rw [Function.update_noteq hk, h2]
          constructor
          · rintro ⟨i, hi, hh⟩
            exact ⟨i, List.mem_append_left _ hi, hh⟩
          · rintro ⟨i, hi, hh⟩
            rcases List.mem_append.1 hi with hi | hi
            · exact ⟨i, hi, hh⟩
            · simp at hi; subst hi; exact absurd hh.2.1.symm hk
      · rw [if_neg hd, h2]
        constructor
        · rintro ⟨i, hi, hh⟩
          exact ⟨i, List.mem_append_left _ hi, hh⟩
        · rintro ⟨i, hi, hh⟩
          rcases List.mem_append.1 hi with hi | hi
          · exact ⟨i, hi, hh⟩
          · simp at hi; subst hi; exact absurd hh.1 hd

/-- The bit loop finds the lowest clear bit. -/
theorem Bit_spec : ∀ (fuel bits j : Nat), (∃ b, b < fuel ∧ bits.testBit b = false) →
    ∃ b0, b0 < fuel ∧ SelectTransparentColorBit fuel bits j = j + b0 ∧
      bits.testBit b0 = false ∧ ∀ b', b' < b0 → bits.testBit b' = true := by
  intro fuel
  induction fuel with
  | zero => rintro bits j ⟨b, hb, -⟩; omega
  | succ fuel ih =>
    rintro bits j ⟨b, hb, hbit⟩
    rw [SelectTransparentColorBit, Nat.and_one_is_mod]
    have h0 : bits.testBit 0 = decide (bits % 2 = 1) := Nat.testBit_zero bits
    by_cases hodd : bits % 2 ≠ 0
    · rw [if_pos hodd]
      have h0t : bits.testBit 0 = true := by rw [h0]; simp; omega
      have hbne : b ≠ 0 := by rintro rfl; rw [h0t] at hbit; cases hbit
      obtain ⟨b0, hb0, he, hf, hall⟩ := ih (bits >>> 1) (j + 1)
        ⟨b - 1, by omega, by rw [Nat.testBit_shiftRight]; rwa [show 1 + (b - 1) = b by omega]⟩
      refine ⟨b0 + 1, by omega, by rw [he]; omega, ?_, ?_⟩
      · rw [Nat.testBit_shiftRight] at hf
        rwa [Nat.add_comm] at hf
      · intro b' hb'
        by_cases hz : b' = 0
        · subst hz; exact h0t
        · have := hall (b' - 1) (by omega)
          rw [Nat.testBit_shiftRight] at this
          rwa [show 1 + (b' - 1) = b' by omega] at this
    · rw [if_neg hodd]
      refine ⟨0, by omega, rfl, ?_, fun b' hb' => by omega⟩
      rw [h0]; simp; omega

end Iff2Gif

namespace Iff2Gif

open GIFWriter GIFFrameQueue

/-- The search loop: it stops at the first entry of `used` that is not 255 and takes its
lowest clear bit, or runs through all entries. -/
theorem Find_spec (used : Nat → Nat) (P : Nat) (hused : ∀ k, used k < 256) :
    ∀ (n i : Nat),
      (∃ k j, i ≤ k ∧ k < i + n ∧ (∀ k', i ≤ k' → k' < k → used k' = 255) ∧ j < 8 ∧
        (used k).testBit j = false ∧ (∀ j', j' < j → (used k).testBit j' = true) ∧
        SelectTransparentColorFind used P n i =
          if 8 * k + j < 2 ^ P then ((8 * k + j : Nat) : Int) else -1) ∨
      ((∀ k, i ≤ k → k < i + n → used k = 255) ∧ SelectTransparentColorFind used P n i = -1) := by
  intro n
  induction n with
  | zero =>
    intro i
    right
    exact ⟨fun k h1 h2 => by omega, rfl⟩
  | succ n ih =>
    intro i
    rw [SelectTransparentColorFind]
    by_cases h255 : used i ≠ 255
    · rw [if_pos h255]
      left
      have hex : ∃ b, b < 8 ∧ (used i).testBit b = false := by
        by_contra hno
        apply h255
        apply eq_255_of_testBit (hused i)
        intro b hb
        by_contra hf
        exact hno ⟨b, hb, by simpa using hf⟩
      obtain ⟨j, hj, he, hf, hall⟩ := Bit_spec 8 (used i) 0 hex
      refine ⟨i, j, le_refl _, by omega, fun k' h1 h2 => by omega, hj, hf, hall, ?_⟩
      simp only [he, Nat.zero_add, Nat.shiftLeft_eq, Nat.one_mul]
      rw [show i * 2 ^ 3 + j = 8 * i + j by omega]
    · rw [if_neg h255]
      have h255' : used i = 255 := by simpa using h255
      rcases ih (i + 1) with ⟨k, j, h1, h2, h3, h4, h5, h6, h7⟩ | ⟨h1, h2⟩
      · left
        refine ⟨k, j, by omega, by omega, ?_, h4, h5, h6, h7⟩
        intro k' hk1 hk2
        by_cases hki : k' = i
        · subst hki; exact h255'
        · exact h3 k' (by omega) hk2
      · right
        refine ⟨?_, h2⟩
        intro k hk1 hk2
        by_cases hki : k = i
        · subst hki; exact h255'
        · exact h1 k (by omega) (by omega)

/-- After the marking loops of `SelectTransparentColor`, bit `c % 8` of `used[c / 8]` is
set exactly when a pixel of the rectangle that changed has the colour `c`. -/
theorem Mark_spec (prev now : Nat → Nat) (imd : ImageDescriptor) (pitch : Nat) :
    (∀ k, SelectTransparentColorMark prev now imd pitch k < 256) ∧
    (∀ c, (SelectTransparentColorMark prev now imd pitch (c / 8)).testBit (c % 8) = true ↔
      ∃ y x, y < imd.Height ∧ x < imd.Width ∧
        prev (imd.Left + imd.Top * pitch + y * pitch + x) ≠
          now (imd.Left + imd.Top * pitch + y * pitch + x) ∧
        now (imd.Left + imd.Top * pitch + y * pitch + x) = c) := by
  obtain ⟨h1, h2⟩ := Mark_foldl prev now
    ((List.range imd.Height).flatMap fun y =>
      (List.range imd.Width).map fun x => imd.Left + imd.Top * pitch + y * pitch + x)
    [] (fun _ => 0) (fun _ => by norm_num) (fun k b => by simp)
  refine ⟨h1, ?_⟩
  intro c
  unfold SelectTransparentColorMark
  rw [h2]
  simp only [List.nil_append, List.mem_flatMap, List.mem_map, List.mem_range]
  constructor
  · rintro ⟨i, ⟨y, hy, x, hx, rfl⟩, hd, hk, hb⟩
    refine ⟨y, x, hy, hx, hd, ?_⟩
    rw [← Nat.div_add_mod (now _) 8, hk, hb, Nat.div_add_mod]
  · rintro ⟨y, x, hy, hx, hd, hc⟩
    exact ⟨_, ⟨y, hy, x, hx, rfl⟩, hd, by rw [hc], by rw [hc]⟩

end Iff2Gif

namespace Iff2Gif

open GIFWriter GIFFrameQueue

/-! ## `MakeFrame` after the update of the preceding frame -/

/-- `SelectDisposal` reads `PrevFrame` and nothing else of the writer. -/
theorem SelectDisposal_queue (w : GIFWriter) (q : GIFFrameQueue) (planar : PlanarBitmap)
    (imd : ImageDescriptor) (chunky : Nat → Nat) :
    (({ w with WriteQueue := q } : GIFWriter).SelectDisposal planar imd chunky).1 =
      (w.SelectDisposal planar imd chunky).1 ∧
    (({ w with WriteQueue := q } : GIFWriter).SelectDisposal planar imd chunky).2.PrevFrame =
      (w.SelectDisposal planar imd chunky).2.PrevFrame := by
  unfold SelectDisposal
  cases hp : w.PrevFrame with
  | none => simp [hp]
  | some prev =>
    by_cases ht : planar.TransparentColor < 0
    · simp [hp, ht]
    · by_cases hs : SelectDisposalScan prev chunky imd planar.Width
          (planar.TransparentColor % 256).toNat = true
      · simp [hp, ht, hs]
      · simp [hp, ht, hs]

/-- The previous-frame buffer `MakeFrame` works with is the one `SelectDisposal` leaves,
when a frame is queued. -/
theorem MakeFramePatched_PrevFrame (w : GIFWriter) (bitmap : PlanarBitmap) (chunky : Nat → Nat)
    (old : GIFFrame) (hq : w.WriteQueue.MostRecent = some old) :
    (w.MakeFramePatched bitmap chunky).PrevFrame =
      (w.SelectDisposal bitmap (MakeFrameNew bitmap).IMD chunky).2.PrevFrame := by
  obtain ⟨-, h2⟩ := SelectDisposal_queue w (w.WriteQueue.SetDropFrames bitmap.Interleave) bitmap
    (MakeFrameNew bitmap).IMD chunky
  rw [← h2]
  unfold MakeFramePatched MakeFramePatch
  have hq' : (w.WriteQueue.SetDropFrames bitmap.Interleave).MostRecent = some old := hq
  simp only [hq']
  split <;> rfl

theorem MakeFrameRect_IMD (w : GIFWriter) (bitmap : PlanarBitmap) (chunky : Nat → Nat) :
    (w.MakeFrameRect bitmap chunky).IMD =
      (match (w.MakeFramePatched bitmap chunky).PrevFrame with
       | some prevFrame => MinimumArea prevFrame chunky ⟨0, 0, bitmap.Width, bitmap.Height, 0⟩
       | none => ⟨0, 0, bitmap.Width, bitmap.Height, 0⟩) ∧
    (w.MakeFrameRect bitmap chunky).GCE = (MakeFrameNew bitmap).GCE := by
  unfold MakeFrameRect MakeFrameArea
  cases (w.MakeFramePatched bitmap chunky).PrevFrame with
  | none => exact ⟨(MakeFrameNew_IMD bitmap).1, rfl⟩
  | some p => simp [(MakeFrameNew_IMD bitmap).1]

theorem MakeFrameNew_GCE (bitmap : PlanarBitmap) :
    (0 ≤ bitmap.TransparentColor → (MakeFrameNew bitmap).GCE.Flags = 1 ∧
      (MakeFrameNew bitmap).GCE.TransparentColor = (bitmap.TransparentColor % 256).toNat) ∧
    (bitmap.TransparentColor < 0 → (MakeFrameNew bitmap).GCE.Flags = 0) := by
  unfold MakeFrameNew
  constructor
  · intro h
    rw [if_pos h]; exact ⟨rfl, rfl⟩
  · intro h
    rw [if_neg (by omega)]

/-- The rectangle `MinimumArea` leaves lies inside the frame it was entered with. -/
theorem MinimumArea_inside (W H : Nat) (hW : 1 ≤ W) (hH : 1 ≤ H) (prev cur : Nat → Nat) :
    (MinimumArea prev cur ⟨0, 0, W, H, 0⟩).Left + (MinimumArea prev cur ⟨0, 0, W, H, 0⟩).Width ≤ W ∧
    (MinimumArea prev cur ⟨0, 0, W, H, 0⟩).Top + (MinimumArea prev cur ⟨0, 0, W, H, 0⟩).Height ≤ H := by
  by_cases hd : ∃ i, i < W * H ∧ prev i ≠ cur i
  · obtain ⟨top, bot, left, right, heq, h1, h2, h3, h4, -⟩ :=
      MinimumArea_spec W H hW prev cur 0 0 0 hd
    rw [heq]
    simp only
    omega
  · have hall : ∀ i, i < W * H → prev i = cur i := by
      intro i hi
      by_contra hne
      exact hd ⟨i, hi, hne⟩
    rw [MinimumArea_unchanged prev cur ⟨0, 0, W, H, 0⟩ hall]
    simp only
    omega

/-- A pixel of a rectangle inside the frame is a pixel of the frame. -/
theorem rect_index (W H l t w h y x : Nat) (hl : l + w ≤ W) (ht : t + h ≤ H) (hy : y < h)
    (hx : x < w) :
    l + t * W + y * W + x = (t + y) * W + (l + x) ∧ t + y < H ∧ l + x < W ∧
      l + t * W + y * W + x < W * H := by
  have e : l + t * W + y * W + x = (t + y) * W + (l + x) := by ring
  refine ⟨e, by omega, by omega, ?_⟩
  rw [e]
  calc (t + y) * W + (l + x) < (t + y) * W + W := by omega
    _ = (t + y + 1) * W := by ring
    _ ≤ H * W := Nat.mul_le_mul_right _ (by omega)
    _ = W * H := Nat.mul_comm _ _

end Iff2Gif

namespace Iff2Gif

open GIFWriter GIFFrameQueue

theorem frame_index (W H x y : Nat) (hx : x < W) (hy : y < H) :
    y * W + x < W * H ∧ (y * W + x) / W = y ∧ (y * W + x) % W = x := by
  have hidx : y * W + x < W * H := by
    have : (y + 1) * W ≤ H * W := Nat.mul_le_mul_right W (by omega)
    rw [Nat.succ_mul] at this
    rw [Nat.mul_comm W H]; omega
  refine ⟨hidx, ?_, ?_⟩
  · rw [Nat.add_comm, Nat.add_mul_div_right _ _ (by omega), Nat.div_eq_of_lt hx, Nat.zero_add]
  · rw [Nat.add_comm, Nat.add_mul_mod_self_right, Nat.mod_eq_of_lt hx]

/-- `MinimumArea` against a buffer that holds `t` everywhere in the frame: the bounding
box of the pixels of `cur` other than `t`. -/
theorem MinimumArea_blank (W H t : Nat) (blank cur : Nat → Nat)
    (hb : ∀ i, i < W * H → blank i = t) :
    ((∀ i, i < W * H → cur i = t) → MinimumArea blank cur ⟨0, 0, W, H, 0⟩ = ⟨0, 0, 1, 1, 0⟩) ∧
    ((∃ i, i < W * H ∧ cur i ≠ t) →
      ∃ top bot left right : Nat,
        MinimumArea blank cur ⟨0, 0, W, H, 0⟩ = ⟨left, top, right - left + 1, bot - top + 1, 0⟩ ∧
        top ≤ bot ∧ bot < H ∧ left ≤ right ∧ right < W ∧
        (∀ x y, x < W → y < H → cur (y * W + x) ≠ t →
          top ≤ y ∧ y ≤ bot ∧ left ≤ x ∧ x ≤ right) ∧
        (∃ x, x < W ∧ cur (top * W + x) ≠ t) ∧
        (∃ x, x < W ∧ cur (bot * W + x) ≠ t) ∧
        (∃ y, top ≤ y ∧ y ≤ bot ∧ cur (y * W + left) ≠ t) ∧
        (∃ y, top ≤ y ∧ y ≤ bot ∧ cur (y * W + right) ≠ t)) := by
  constructor
  · intro hall
    rw [MinimumArea_unchanged blank cur ⟨0, 0, W, H, 0⟩
      (fun i hi => by rw [hb i hi, hall i hi])]
  · rintro ⟨i, hi, hne⟩
    have hW : 1 ≤ W := by
      by_contra h
      have : W = 0 := by omega
      subst this
      simp at hi
    obtain ⟨top, bot, left, right, heq, h1, h2, h3, h4, hall, ⟨x1, hx1, ht⟩, ⟨x2, hx2, hbo⟩,
      ⟨y1, hy1, hy1', hl⟩, ⟨y2, hy2, hy2', hr⟩⟩ :=
      MinimumArea_spec W H hW blank cur 0 0 0 ⟨i, hi, by rw [hb i hi]; exact fun h => hne h.symm⟩
    refine ⟨top, bot, left, right, heq, h1, h2, h3, h4, ?_, ⟨x1, hx1, ?_⟩, ⟨x2, hx2, ?_⟩,
      ⟨y1, hy1, hy1', ?_⟩, ⟨y2, hy2, hy2', ?_⟩⟩
    · intro x y hx hy hc
      obtain ⟨hidx, hdiv, hmod⟩ := frame_index W H x y hx hy
      obtain ⟨a1, a2, a3, a4⟩ := hall (y * W + x) hidx
        (by rw [hb _ hidx]; exact fun h => hc h.symm)
      rw [hdiv] at a1 a2
      rw [hmod] at a3 a4
      exact ⟨a1, a2, a3, a4⟩
    · rw [hb _ (frame_index W H x1 top hx1 (by omega)).1] at ht
      exact fun h => ht h.symm
    · rw [hb _ (frame_index W H x2 bot hx2 (by omega)).1] at hbo
      exact fun h => hbo h.symm
    · rw [hb _ (frame_index W H left y1 (by omega) (by omega)).1] at hl
      exact fun h => hl h.symm
    · rw [hb _ (frame_index W H right y2 (by omega) (by omega)).1] at hr
      exact fun h => hr h.symm

/-- What `SelectDisposal` returns and leaves in `PrevFrame`, by the value returned. -/
theorem SelectDisposal_result (w : GIFWriter) (planar : PlanarBitmap) (imd : ImageDescriptor)
    (chunky : Nat → Nat) :
    ((w.SelectDisposal planar imd chunky).1 = 1 ∨ (w.SelectDisposal planar imd chunky).1 = 2) ∧
    ((w.SelectDisposal planar imd chunky).1 = 1 → w.SelectDisposal planar imd chunky = (1, w)) ∧
    ((w.SelectDisposal planar imd chunky).1 = 1 → 0 ≤ planar.TransparentColor →
      ∀ prev, w.PrevFrame = some prev →
        SelectDisposalScan prev chunky imd planar.Width
          (planar.TransparentColor % 256).toNat = false) ∧
    ((w.SelectDisposal planar imd chunky).1 = 2 →
      0 ≤ planar.TransparentColor ∧ ∃ prev, w.PrevFrame = some prev ∧
        SelectDisposalScan prev chunky imd planar.Width
          (planar.TransparentColor % 256).toNat = true ∧
        (w.SelectDisposal planar imd chunky).2.PrevFrame =
          some (memset prev planar.TransparentColor.toNat (planar.Width * planar.Height))) := by
  rcases SelectDisposal_cases w planar imd chunky with ⟨h, hn⟩ | ⟨h0, prev, hp, hs, h⟩
  · rw [h]
    refine ⟨Or.inl rfl, fun _ => rfl, ?_, fun h2 => by simp at h2⟩
    intro _ h0 prev hp
    by_contra hs
    exact hn ⟨h0, prev, hp, by simpa using hs⟩
  · rw [h]
    exact ⟨Or.inr rfl, fun h1 => by simp at h1, fun h1 => by simp at h1,
      fun _ => ⟨h0, prev, hp, hs, rfl⟩⟩

theorem memset_blank (buffer : Nat → Nat) (t : Int) (ht : 0 ≤ t) (n i : Nat) (hi : i < n) :
    memset buffer t.toNat n i = (t % 256).toNat := by
  unfold memset
  rw [if_pos hi]
  omega

end Iff2Gif

namespace Iff2Gif

open GIFWriter GIFFrameQueue

/-- A colour `SelectTransparentColor` returns is a byte that no changed pixel of the
rectangle has. -/
theorem SelectTransparentColor_unused (w : GIFWriter) (prev now : Nat → Nat)
    (imd : ImageDescriptor) (pitch : Nat) (h : 0 ≤ w.SelectTransparentColor prev now imd pitch) :
    ∃ c : Nat, w.SelectTransparentColor prev now imd pitch = (c : Int) ∧ c < 256 ∧
      ∀ y x, y < imd.Height → x < imd.Width →
        prev (imd.Left + imd.Top * pitch + y * pitch + x) ≠
          now (imd.Left + imd.Top * pitch + y * pitch + x) →
        now (imd.Left + imd.Top * pitch + y * pitch + x) ≠ c := by
  obtain ⟨hused, hmark⟩ := Mark_spec prev now imd pitch
  unfold SelectTransparentColor at h ⊢
  rcases Find_spec (SelectTransparentColorMark prev now imd pitch) w.GlobalPalBits hused
    (256 / 8) 0 with ⟨k, j, -, hk, -, hj, hf, -, he⟩ | ⟨-, he⟩
  · by_cases hP : 8 * k + j < 2 ^ w.GlobalPalBits
    · rw [if_pos hP] at he
      refine ⟨8 * k + j, he, by omega, ?_⟩
      intro y x hy hx hd hc
      have : (SelectTransparentColorMark prev now imd pitch ((8 * k + j) / 8)).testBit
          ((8 * k + j) % 8) = true := (hmark _).2 ⟨y, x, hy, hx, hd, hc⟩
      rw [show (8 * k + j) / 8 = k by omega, show (8 * k + j) % 8 = j by omega, hf] at this
      cases this
    · rw [if_neg hP] at he
      rw [he] at h
      omega
  · rw [he] at h
    omega

/-- The substitution colour `MakeFrame` has chosen when it is not negative: the
transparent colour of the bitmap, or else what `SelectTransparentColor` found. -/
theorem MakeFrameChoice_cases (w : GIFWriter) (bitmap : PlanarBitmap) (chunky : Nat → Nat)
    (h : 0 ≤ (w.MakeFrameChoice bitmap chunky).1) :
    ∃ prevFrame, (w.MakeFramePatched bitmap chunky).PrevFrame = some prevFrame ∧
      w.FrameCount ≠ 0 ∧
      ((0 ≤ bitmap.TransparentColor ∧
          (w.MakeFrameChoice bitmap chunky).1 = ((bitmap.TransparentColor % 256).toNat : Int)) ∨
        (bitmap.TransparentColor < 0 ∧
          (w.MakeFrameChoice bitmap chunky).1 =
            (w.MakeFramePatched bitmap chunky).SelectTransparentColor prevFrame chunky
              (w.MakeFrameRect bitmap chunky).IMD bitmap.Width)) := by
  obtain ⟨-, -, -, hfc, -⟩ := MakeFramePatched_io w bitmap chunky
  obtain ⟨-, hgce⟩ := MakeFrameRect_IMD w bitmap chunky
  obtain ⟨g1, g2⟩ := MakeFrameNew_GCE bitmap
  unfold MakeFrameChoice MakeFrameTrans at h ⊢
  cases hP : (w.MakeFramePatched bitmap chunky).PrevFrame with
  | none =>
    rw [hP] at h
    simp at h
  | some prevFrame =>
    rw [hP] at h
    simp only at h ⊢
    rw [hfc, hgce] at h ⊢
    by_cases hc : w.FrameCount = 0 ∨ (MakeFrameNew bitmap).GCE.Flags &&& 0x1C0 = 0x80
    · rw [if_pos hc] at h
      simp at h
    · rw [if_neg hc] at h ⊢
      have hfc0 : w.FrameCount ≠ 0 := fun h0 => hc (Or.inl h0)
      refine ⟨prevFrame, rfl, hfc0, ?_⟩
      by_cases ht : 0 ≤ bitmap.TransparentColor
      · obtain ⟨f1, f2⟩ := g1 ht
        left
        rw [f1, f2]
        exact ⟨ht, by simp⟩
      · have f1 := g2 (by omega)
        right
        rw [f1]
        refine ⟨by omega, ?_⟩
        simp only [Nat.zero_and, ne_eq, not_true_eq_false, if_false]
        split <;> rfl

end Iff2Gif

namespace Iff2Gif

open GIFWriter GIFFrameQueue

/-- After `SelectDisposal` has returned 2 for a frame that is not the first of the
stream, line 238 of `MakeFrame` does not set `trans = -1`: the flags of `newframe` are 0
or 1, so `(newframe.GCE.Flags & 0x1C0) == 0x80` is false, and the substitution colour is
the transparent colour of the bitmap. -/
theorem MakeFrameChoice_restore (w : GIFWriter) (bitmap : PlanarBitmap) (chunky : Nat → Nat)
    (old : GIFFrame) (hq : w.WriteQueue.MostRecent = some old) (hfc : w.FrameCount ≠ 0)
    (hdisp : (w.SelectDisposal bitmap (MakeFrameNew bitmap).IMD chunky).1 = 2) :
    (w.MakeFrameChoice bitmap chunky).1 = ((bitmap.TransparentColor % 256).toNat : Int) ∧
    (w.MakeFrameChoice bitmap chunky).2.1 = false := by
  obtain ⟨-, -, -, h2⟩ := SelectDisposal_result w bitmap (MakeFrameNew bitmap).IMD chunky
  obtain ⟨h0, prev, hp, -, hpf⟩ := h2 hdisp
  have hpatched := MakeFramePatched_PrevFrame w bitmap chunky old hq
  rw [hpf] at hpatched
  obtain ⟨-, -, -, hcount, -⟩ := MakeFramePatched_io w bitmap chunky
  obtain ⟨-, hgce⟩ := MakeFrameRect_IMD w bitmap chunky
  obtain ⟨f1, f2⟩ := (MakeFrameNew_GCE bitmap).1 h0
  unfold MakeFrameChoice MakeFrameTrans
  rw [hpatched]
  simp only
  rw [hcount, hgce, f1, f2]
  rw [if_neg (by simp [hfc]), if_pos (by simp)]
  exact ⟨rfl, rfl⟩

theorem WriteHeader_Queue (w : GIFWriter) (loop : Bool) :
    (w.WriteHeader loop).WriteQueue.Queue = w.WriteQueue.Queue ∧
    (w.WriteHeader loop).FrameCount = w.FrameCount ∧
    (w.WriteHeader loop).PrevFrame = w.PrevFrame := by
  unfold WriteHeader
  simp only
  repeat' split
  all_goals exact ⟨rfl, rfl, rfl⟩

/-- After `AddFrame` a frame is queued, also once the header is written: `MakeFrame` finds
a preceding frame to update from the second frame of a stream on. -/
theorem AddFrame_queued (QUEUE_SIZE : Nat) (w : GIFWriter) (bitmap : PlanarBitmap)
    (chunky : Nat → Nat) :
    ∃ f, (w.AddFrame QUEUE_SIZE bitmap chunky).WriteQueue.MostRecent = some f ∧
      (w.AddFrame QUEUE_SIZE bitmap chunky).FrameCount ≠ 0 ∧
      ∀ loop, ((w.AddFrame QUEUE_SIZE bitmap chunky).WriteHeader loop).WriteQueue.MostRecent =
        some f := by
  have h : ∃ f, (w.AddFrame QUEUE_SIZE bitmap chunky).WriteQueue.MostRecent = some f := by
    unfold AddFrame
    simp only
    exact ⟨_, MakeFrame_MostRecent QUEUE_SIZE _ bitmap chunky⟩
  obtain ⟨f, hf⟩ := h
  refine ⟨f, hf, ?_, ?_⟩
  · unfold AddFrame
    simp
  · intro loop
    unfold MostRecent at hf ⊢
    rw [(WriteHeader_Queue _ loop).1]
    exact hf

end Iff2Gif

namespace Iff2Gif

open GIFWriter GIFFrameQueue CodeStream

/-! ## The two compressions after a background restore -/

/-- Against a buffer that holds `t` everywhere in the frame, the substitution of `t` for
the unchanged pixels of a rectangle inside the frame changes no byte. -/
theorem LZWCompressInput_blank (W H t : Nat) (ht : t < 256) (imd : ImageDescriptor)
    (prev chunky : Nat → Nat) (hl : imd.Left + imd.Width ≤ W) (htop : imd.Top + imd.Height ≤ H)
    (hb : ∀ i, i < W * H → prev i = t) :
    LZWCompressInput imd prev chunky W (t : Int) = LZWCompressInput imd prev chunky W (-1) := by
  unfold LZWCompressInput
  apply List.flatMap_congr
  intro y hy
  apply List.map_congr_left
  intro x hx
  obtain ⟨-, -, -, hidx⟩ := rect_index W H imd.Left imd.Top imd.Width imd.Height y x hl htop
    (List.mem_range.1 hy) (List.mem_range.1 hx)
  have hmod : ((t : Int) % 256).toNat = t := by omega
  simp only [show ¬ ((t : Int) < 0) by omega, if_false, show ((-1 : Int) < 0) by decide, if_true,
    hmod]
  by_cases hd : prev (imd.Left + imd.Top * W + y * W + x) ≠
      chunky (imd.Left + imd.Top * W + y * W + x)
  · rw [if_pos hd]
  · rw [if_neg hd]
    have heq : prev (imd.Left + imd.Top * W + y * W + x) =
        chunky (imd.Left + imd.Top * W + y * W + x) := by simpa using hd
    rw [← heq, hb _ hidx]

/-- The state of `MakeFrame` after `SelectDisposal` has returned 2: the buffer holds the
transparent colour everywhere in the frame, and the rectangle lies inside the frame. -/
theorem MakeFrame_restore_state (w : GIFWriter) (bitmap : PlanarBitmap) (chunky : Nat → Nat)
    (old : GIFFrame) (hq : w.WriteQueue.MostRecent = some old)
    (hdisp : (w.SelectDisposal bitmap (MakeFrameNew bitmap).IMD chunky).1 = 2) :
    0 ≤ bitmap.TransparentColor ∧
    ∃ blank, (w.MakeFramePatched bitmap chunky).PrevFrame = some blank ∧
      (∀ i, i < bitmap.Width * bitmap.Height → blank i = (bitmap.TransparentColor % 256).toNat) ∧
      (w.MakeFrameRect bitmap chunky).IMD.Left + (w.MakeFrameRect bitmap chunky).IMD.Width
        ≤ bitmap.Width ∧
      (w.MakeFrameRect bitmap chunky).IMD.Top + (w.MakeFrameRect bitmap chunky).IMD.Height
        ≤ bitmap.Height := by
  obtain ⟨-, -, -, h2⟩ := SelectDisposal_result w bitmap (MakeFrameNew bitmap).IMD chunky
  obtain ⟨h0, prev, -, hs, hpf⟩ := h2 hdisp
  -- a pixel turned transparent, so the frame has a pixel
  rw [SelectDisposalScan_iff, (MakeFrameNew_IMD bitmap).1] at hs
  obtain ⟨y, x, hy, hx, -⟩ := hs
  have hW : 1 ≤ bitmap.Width := by
    have : x < bitmap.Width := hx
    omega
  have hH : 1 ≤ bitmap.Height := by
    have : y < bitmap.Height := hy
    omega
  have hpatched := MakeFramePatched_PrevFrame w bitmap chunky old hq
  rw [hpf] at hpatched
  obtain ⟨hrect, -⟩ := MakeFrameRect_IMD w bitmap chunky
  rw [hpatched] at hrect
  simp only at hrect
  obtain ⟨hin1, hin2⟩ := MinimumArea_inside bitmap.Width bitmap.Height hW hH
    (memset prev bitmap.TransparentColor.toNat (bitmap.Width * bitmap.Height)) chunky
  rw [← hrect] at hin1 hin2
  exact ⟨h0, _, hpatched, fun i hi => memset_blank prev _ h0 _ i hi, hin1, hin2⟩

/-- After `SelectDisposal` has returned 2, `LZWCompress` gives the same bytes with the
transparent colour as substitution colour and without substitution. -/
theorem MakeFrameTry_restore (w : GIFWriter) (bitmap : PlanarBitmap) (chunky : Nat → Nat)
    (old : GIFFrame) (hq : w.WriteQueue.MostRecent = some old)
    (hdisp : (w.SelectDisposal bitmap (MakeFrameNew bitmap).IMD chunky).1 = 2) :
    w.MakeFrameTry bitmap chunky ((bitmap.TransparentColor % 256).toNat : Int) =
      w.MakeFrameTry bitmap chunky (-1) := by
  obtain ⟨h0, blank, hP, hb, hin1, hin2⟩ := MakeFrame_restore_state w bitmap chunky old hq hdisp
  unfold MakeFrameTry LZWCompress
  rw [LZWCompressCodes_eq, LZWCompressCodes_eq, hP]
  simp only [Option.getD_some]
  rw [LZWCompressInput_blank bitmap.Width bitmap.Height _ (by omega) _ blank chunky hin1 hin2 hb]

/-- What `MakeFrame` has chosen at line 256 after `SelectDisposal` has returned 2: the
transparent colour of the bitmap, not a synthetic one, and `newframe` as it was; or no
colour at all when no frame was counted yet. -/
theorem MakeFrameChoice_restore_frame (w : GIFWriter) (bitmap : PlanarBitmap)
    (chunky : Nat → Nat) (old : GIFFrame) (hq : w.WriteQueue.MostRecent = some old)
    (hdisp : (w.SelectDisposal bitmap (MakeFrameNew bitmap).IMD chunky).1 = 2) :
    (w.FrameCount ≠ 0 → w.MakeFrameChoice bitmap chunky =
      (((bitmap.TransparentColor % 256).toNat : Int), false, w.MakeFrameRect bitmap chunky)) ∧
    (w.FrameCount = 0 → w.MakeFrameChoice bitmap chunky =
      (-1, false, w.MakeFrameRect bitmap chunky)) := by
  obtain ⟨h0, blank, hP, -⟩ := MakeFrame_restore_state w bitmap chunky old hq hdisp
  obtain ⟨-, -, -, hcount, -⟩ := MakeFramePatched_io w bitmap chunky
  obtain ⟨-, hgce⟩ := MakeFrameRect_IMD w bitmap chunky
  obtain ⟨f1, f2⟩ := (MakeFrameNew_GCE bitmap).1 h0
  unfold MakeFrameChoice MakeFrameTrans
  rw [hP]
  simp only
  rw [hcount, hgce, f1, f2]
  constructor
  · intro hfc
    rw [if_neg (by simp [hfc]), if_pos (by simp)]
  · intro hfc
    rw [if_pos (Or.inl hfc)]

end Iff2Gif

namespace Iff2Gif

open CodeStream

/-- C1: LZW round trip.  For a minimum code size `m` with `2 ≤ m ≤ 8` and a rectangle whose
pixels are all below `2 ^ m`, the GIF decoder (code-size byte, sub-blocks, codes of
variable width lowest bit first, clear and end-of-information) succeeds, on the bytes
`LZWCompress` appends to `vec` when called without substitution (`trans = -1`), with
exactly the pixels of the rectangle in row-major order. -/
theorem LZWCompress_round_trip (m : Nat) (h2 : 2 ≤ m) (h8 : m ≤ 8) (vec : List Nat)
    (imd : ImageDescriptor) (prev chunky : Nat → Nat) (pitch : Nat)
    (hpix : ∀ y < imd.Height, ∀ x < imd.Width,
      chunky (imd.Left + imd.Top * pitch + y * pitch + x) < 2 ^ m) :
    GIFDecode ((LZWCompress vec imd prev chunky pitch m (-1)).drop vec.length) =
      some ((List.range imd.Height).flatMap fun y =>
        (List.range imd.Width).map fun x =>
          chunky (imd.Left + imd.Top * pitch + y * pitch + x)) := by
  have hm : (if m < 2 then 2 else m) = m := by rw [if_neg (by omega)]
  have hinput : LZWCompressInput imd prev chunky pitch (-1) =
      (List.range imd.Height).flatMap fun y =>
        (List.range imd.Width).map fun x =>
          chunky (imd.Left + imd.Top * pitch + y * pitch + x) := by
    simp [LZWCompressInput]
  have hlt : ∀ p ∈ LZWCompressInput imd prev chunky pitch (-1), p < 2 ^ m := by
    intro p hp
    rw [hinput] at hp
    obtain ⟨y, hy, hp⟩ := List.mem_flatMap.1 hp
    obtain ⟨x, hx, hp⟩ := List.mem_map.1 hp
    rw [← hp]
    exact hpix y (List.mem_range.1 hy) x (List.mem_range.1 hx)
  have hcodes := LZWCompressCodes_eq vec imd prev chunky pitch m (-1)
  rw [hm] at hcodes
  obtain ⟨d, pend, hsim⟩ := Sim_foldl h2 h8 _ _ _ [] [] (NumInv_construct h2 h8 (vec ++ [m]))
    (Sim_construct h2 h8 (vec ++ [m])) hlt
  have hnum := NumInv_foldl h2 h8 _ _ (NumInv_construct h2 h8 (vec ++ [m])) hlt
  have hbit : BitInv (vec ++ [m])
      ((LZWCompressInput imd prev chunky pitch (-1)).foldl AddByte
        (construct m (vec ++ [m]))) := by
    have : ∀ (input : List Nat) (s : CodeStream), NumInv m s → BitInv (vec ++ [m]) s →
        (∀ p ∈ input, p < 2 ^ m) → BitInv (vec ++ [m]) (input.foldl AddByte s) := by
      intro input
      induction input with
      | nil => intro s _ h _; exact h
      | cons p ps ih =>
        intro s hn h hp
        have hp0 := hp p (List.mem_cons_self _ _)
        exact ih _ (NumInv_AddByte h2 h8 hn hp0) (BitInv_AddByte _ hn h p)
          (fun x hx => hp x (List.mem_cons_of_mem _ hx))
    exact this _ _ (NumInv_construct h2 h8 _) (BitInv_construct m _) hlt
  obtain ⟨blocks, hc, hb, hrun⟩ := destruct_decode (vec ++ [m]) h2 h8 hnum hbit hsim
  unfold LZWCompress
  rw [hcodes, hc, List.append_assoc, List.append_assoc, List.drop_left]
  show (LZWDecoder.clear m []).run 0 0 (bytesBits (deframe 0 (frameBlocks blocks ++ [0]))) = _
  rw [deframe_frameBlocks blocks hb, hrun, List.nil_append, hinput]

/-- C1, at a concrete input: the 2x2 image `0 1 / 1 0` with minimum code size 2; its pixels
are below `2 ^ 2`, and decoding what `LZWCompress` produces returns them. -/
theorem LZWCompress_round_trip_witness :
    (∀ y < 2, ∀ x < 2, [0, 1, 1, 0].getD (0 + 0 * 2 + y * 2 + x) 0 < 2 ^ 2) ∧
    GIFDecode ((LZWCompress [] ⟨0, 0, 2, 2, 0⟩ (fun _ => 0)
        (fun i => [0, 1, 1, 0].getD i 0) 2 2 (-1)).drop 0) = some [0, 1, 1, 0] :=
  ⟨by decide, LZWCompress_round_trip 2 (by decide) (by decide) [] ⟨0, 0, 2, 2, 0⟩ (fun _ => 0)
    (fun i => [0, 1, 1, 0].getD i 0) 2 (by decide)⟩

end Iff2Gif

namespace Iff2Gif

open CodeStream

/-- C2 (LZW output framing). For every input of `LZWCompress` (a minimum code size of at
most 8, as the 8 bit planes of a bitmap allow, and bytes below 256 handed to `AddByte`,
the range in which the fields of `CodeStream` hold what the `UWORD`, `UBYTE` and `BYTE`
fields of the source hold), the bytes `LZWCompress` appends to `vec` are one byte equal to
`max mincodesize 2`, then the framing of a list of sub-blocks (each block behind its length
byte) in which every block has between 1 and 255 payload bytes and every block but
possibly the last has exactly 255, then a single `0` byte, and nothing more. -/
theorem LZWCompress_framing (vec : List Nat) (imd : ImageDescriptor) (prev chunky : Nat → Nat)
    (pitch mincodesize : Nat) (trans : Int) (_hm : mincodesize ≤ 8)
    (_hbytes : ∀ b ∈ LZWCompressInput imd prev chunky pitch trans, b < 256) :
    ∃ blocks : List (List Nat),
      LZWCompress vec imd prev chunky pitch mincodesize trans =
        vec ++ [max mincodesize 2] ++ frameBlocks blocks ++ [0] ∧
      (∀ b ∈ blocks, 1 ≤ b.length ∧ b.length ≤ 255) ∧
      (∀ b ∈ blocks.dropLast, b.length = 255) := by
  have hm : (if mincodesize < 2 then 2 else mincodesize) = max mincodesize 2 := by
    split <;> omega
  have hrun := foldl_AddByte_framed (vec ++ [max mincodesize 2])
    (LZWCompressInput imd prev chunky pitch trans) _
    (construct_framed (max mincodesize 2) (vec ++ [max mincodesize 2]))
  rw [← hm, ← LZWCompressCodes_eq, hm] at hrun
  exact destruct_framed _ _ hrun

/-- C2, at a concrete input: the 2x2 image `0 1 / 1 0` with minimum code size 2, without
substitution; `LZWCompress` gives the code-size byte 2, the one sub-block `68 2 5` and the
terminator. -/
theorem LZWCompress_framing_witness :
    (2 ≤ 8 ∧ ∀ b ∈ LZWCompressInput ⟨0, 0, 2, 2, 0⟩ (fun _ => 0)
      (fun i => [0, 1, 1, 0].getD i 0) 2 (-1), b < 256) ∧
    (∃ blocks : List (List Nat),
      LZWCompress [] ⟨0, 0, 2, 2, 0⟩ (fun _ => 0) (fun i => [0, 1, 1, 0].getD i 0) 2 2 (-1) =
        [] ++ [max 2 2] ++ frameBlocks blocks ++ [0] ∧
      (∀ b ∈ blocks, 1 ≤ b.length ∧ b.length ≤ 255) ∧
      (∀ b ∈ blocks.dropLast, b.length = 255)) ∧
    LZWCompress [] ⟨0, 0, 2, 2, 0⟩ (fun _ => 0) (fun i => [0, 1, 1, 0].getD i 0) 2 2 (-1) =
      [2, 3, 68, 2, 5, 0] :=
  ⟨by decide,
    LZWCompress_framing [] ⟨0, 0, 2, 2, 0⟩ (fun _ => 0) (fun i => [0, 1, 1, 0].getD i 0) 2 2 (-1)
      (by decide) (by decide),
    by decide⟩

end Iff2Gif

namespace Iff2Gif

open CodeStream

/-- C3 (code-width invariant). In a run of `LZWCompress` with minimum code size
`2 ≤ m ≤ 8` in which every byte handed to `AddByte` is below `2 ^ m`: the run is
`AddByte` folded over those bytes from the constructed stream; after every number `n` of
bytes `CodeSize` lies between `m + 1` and `12`, and so it does once the destructor has run;
and every code handed to `WriteCode` up to the end of the destructor (`Written` lists each
with the `CodeSize` it was packed with) was packed with a `CodeSize` between `m + 1` and `12`
and is strictly less than `2 ^ CodeSize`. -/
theorem LZWCompress_code_width (m : Nat) (h2 : 2 ≤ m) (h8 : m ≤ 8) (vec : List Nat)
    (imd : ImageDescriptor) (prev chunky : Nat → Nat) (pitch : Nat) (trans : Int)
    (hin : ∀ b ∈ LZWCompressInput imd prev chunky pitch trans, b < 2 ^ m) :
    LZWCompressCodes vec imd prev chunky pitch m trans =
        (LZWCompressInput imd prev chunky pitch trans).foldl AddByte (construct m (vec ++ [m])) ∧
    (∀ n : Nat,
      m + 1 ≤ (((LZWCompressInput imd prev chunky pitch trans).take n).foldl AddByte
          (construct m (vec ++ [m]))).CodeSize ∧
      (((LZWCompressInput imd prev chunky pitch trans).take n).foldl AddByte
          (construct m (vec ++ [m]))).CodeSize ≤ 12) ∧
    (m + 1 ≤ (LZWCompressCodes vec imd prev chunky pitch m trans).destruct.CodeSize ∧
      (LZWCompressCodes vec imd prev chunky pitch m trans).destruct.CodeSize ≤ 12) ∧
    (∀ cw ∈ (LZWCompressCodes vec imd prev chunky pitch m trans).destruct.Written,
      m + 1 ≤ cw.2 ∧ cw.2 ≤ 12 ∧ cw.1 < 2 ^ cw.2) := by
  have hm : (if m < 2 then 2 else m) = m := by split <;> omega
  have heq := LZWCompressCodes_eq vec imd prev chunky pitch m trans
  rw [hm] at heq
  have hinv := NumInv_foldl h2 h8 (LZWCompressInput imd prev chunky pitch trans) _
    (NumInv_construct h2 h8 (vec ++ [m])) hin
  rw [← heq] at hinv
  obtain ⟨hw, hc⟩ := destruct_Written hinv
  refine ⟨heq, ?_, ?_, ?_⟩
  · intro n
    have := NumInv_foldl h2 h8 ((LZWCompressInput imd prev chunky pitch trans).take n) _
      (NumInv_construct h2 h8 (vec ++ [m])) (fun p hp => hin p (List.mem_of_mem_take hp))
    exact ⟨this.codeSize_ge, this.codeSize_le⟩
  · rw [hc]; exact ⟨hinv.codeSize_ge, hinv.codeSize_le⟩
  · intro cw hcw
    rw [hw] at hcw
    have hcp := hinv.clear_pow
    have hml := hinv.match_lt
    have hnp := hinv.nextCode_pow
    have he := hinv.eoiCode
    have hcc := hinv.clearCode
    obtain ⟨hlo, -⟩ := two_pow_bounds h2 h8
    rcases List.mem_append.1 hcw with hcw | hcw
    · rcases List.mem_append.1 hcw with hcw | hcw
      · exact hinv.written cw hcw
      · by_cases hmatch : (LZWCompressCodes vec imd prev chunky pitch m trans).Match ≥ 0
        · simp only [hmatch, if_true, List.mem_singleton] at hcw
          subst hcw
          refine ⟨hinv.codeSize_ge, hinv.codeSize_le, ?_⟩
          show (LZWCompressCodes vec imd prev chunky pitch m trans).Match.toNat <
            2 ^ (LZWCompressCodes vec imd prev chunky pitch m trans).CodeSize
          omega
        · simp [hmatch] at hcw
    · simp only [List.mem_singleton] at hcw
      subst hcw
      refine ⟨hinv.codeSize_ge, hinv.codeSize_le, ?_⟩
      show (LZWCompressCodes vec imd prev chunky pitch m trans).EOICode <
        2 ^ (LZWCompressCodes vec imd prev chunky pitch m trans).CodeSize
      omega

/-- C3, at a concrete input: the 2x2 image `0 1 / 1 0` with minimum code size 2; its bytes
are below `2 ^ 2`, and every code written was packed with a code size between 3 and 12 and
is below `2 ^ CodeSize`. -/
theorem LZWCompress_code_width_witness :
    (∀ b ∈ LZWCompressInput ⟨0, 0, 2, 2, 0⟩ (fun _ => 0) (fun i => [0, 1, 1, 0].getD i 0) 2 (-1),
      b < 2 ^ 2) ∧
    (∀ cw ∈ (LZWCompressCodes [] ⟨0, 0, 2, 2, 0⟩ (fun _ => 0)
        (fun i => [0, 1, 1, 0].getD i 0) 2 2 (-1)).destruct.Written,
      2 + 1 ≤ cw.2 ∧ cw.2 ≤ 12 ∧ cw.1 < 2 ^ cw.2) :=
  ⟨by decide, (LZWCompress_code_width 2 (by decide) (by decide) [] ⟨0, 0, 2, 2, 0⟩ (fun _ => 0)
    (fun i => [0, 1, 1, 0].getD i 0) 2 (-1) (by decide)).2.2.2⟩

end Iff2Gif

namespace Iff2Gif

open CodeStream

/-- Two consecutive multiples of `n` among the positions: if `i < j` are both multiples of
`n` and no multiple of `n` lies strictly between them, then `j = i + n`. -/
theorem consecutive_multiples {n i j : Nat} (hn : 0 < n) (hi : i % n = 0) (hj : j % n = 0)
    (hij : i < j) (hno : ∀ k, i < k → k < j → k % n ≠ 0) : j = i + n := by
  have hdi : n ∣ i := Nat.dvd_of_mod_eq_zero hi
  have hdj : n ∣ j := Nat.dvd_of_mod_eq_zero hj
  have hd : n ∣ j - i := Nat.dvd_sub' hdj hdi
  have hle : n ≤ j - i := Nat.le_of_dvd (by omega) hd
  by_contra hne
  have h1 : i + n < j := by omega
  exact hno (i + n) (by omega) h1 (by rw [Nat.add_mod_right]; exact hi)

/-- C4 (clear-code timing). In a run of `LZWCompress` with minimum code size `2 ≤ m ≤ 8`
whose bytes are all below `2 ^ m`, take the call of `AddByte` on the `n`-th byte `p`, from
the state `s` reached after the first `n` bytes. The call appends some codes `ext` to the
codes written so far, and the clear code `2 ^ m` is among them if and only if the call
assigned a dictionary entry (a match was pending and the string was not in the dictionary)
and the entry got code 4095 (`s.NextCode = 4095`); the codes written are then exactly the
match and, right behind it, the clear code. No dictionary entry of any state of the run
holds a code of 4096 or more. In the codes of the finished stream, between two consecutive
clear codes there are exactly `4094 - 2 ^ m` other codes. -/
theorem AddByte_clear_timing (m : Nat) (h2 : 2 ≤ m) (h8 : m ≤ 8) (vec : List Nat)
    (imd : ImageDescriptor) (prev chunky : Nat → Nat) (pitch : Nat) (trans : Int)
    (hin : ∀ b ∈ LZWCompressInput imd prev chunky pitch trans, b < 2 ^ m) :
    (∀ (n p : Nat), (LZWCompressInput imd prev chunky pitch trans)[n]? = some p →
      ∃ ext : List (Nat × Nat),
        ((((LZWCompressInput imd prev chunky pitch trans).take n).foldl AddByte
            (construct m (vec ++ [m]))).AddByte p).Written =
          (((LZWCompressInput imd prev chunky pitch trans).take n).foldl AddByte
            (construct m (vec ++ [m]))).Written ++ ext ∧
        (2 ^ m ∈ ext.map Prod.fst ↔
          (¬ (((LZWCompressInput imd prev chunky pitch trans).take n).foldl AddByte
                (construct m (vec ++ [m]))).Match < 0 ∧
            (((LZWCompressInput imd prev chunky pitch trans).take n).foldl AddByte
                (construct m (vec ++ [m]))).Dict.lookup
              ((((LZWCompressInput imd prev chunky pitch trans).take n).foldl AddByte
                (construct m (vec ++ [m]))).Match.toNat ||| (p <<< 16) ||| (1 <<< 24)) = none ∧
            (((LZWCompressInput imd prev chunky pitch trans).take n).foldl AddByte
                (construct m (vec ++ [m]))).NextCode = 4095)) ∧
        (2 ^ m ∈ ext.map Prod.fst →
          ext.map Prod.fst =
            [(((LZWCompressInput imd prev chunky pitch trans).take n).foldl AddByte
                (construct m (vec ++ [m]))).Match.toNat, 2 ^ m])) ∧
    (∀ (n : Nat), ∀ kv ∈ (((LZWCompressInput imd prev chunky pitch trans).take n).foldl AddByte
        (construct m (vec ++ [m]))).Dict, kv.2 < 4096) ∧
    (∀ i j : Nat, i < j →
      ((LZWCompressCodes vec imd prev chunky pitch m trans).destruct.Written.map Prod.fst)[i]?
        = some (2 ^ m) →
      ((LZWCompressCodes vec imd prev chunky pitch m trans).destruct.Written.map Prod.fst)[j]?
        = some (2 ^ m) →
      (∀ k, i < k → k < j →
        ((LZWCompressCodes vec imd prev chunky pitch m trans).destruct.Written.map Prod.fst)[k]?
          ≠ some (2 ^ m)) →
      j - i - 1 = 4094 - 2 ^ m) := by
  obtain ⟨hlo, hhi⟩ := two_pow_bounds h2 h8
  have hpre : ∀ n, NumInv m (((LZWCompressInput imd prev chunky pitch trans).take n).foldl AddByte
      (construct m (vec ++ [m]))) := fun n =>
    NumInv_foldl h2 h8 _ _ (NumInv_construct h2 h8 (vec ++ [m]))
      (fun p hp => hin p (List.mem_of_mem_take hp))
  refine ⟨?_, ?_, ?_⟩
  · intro n p hp
    have hpm : p < 2 ^ m := hin p (List.getElem?_mem hp)
    have hinv := hpre n
    generalize ((LZWCompressInput imd prev chunky pitch trans).take n).foldl AddByte
      (construct m (vec ++ [m])) = s at hinv ⊢
    have hcc := hinv.clearCode
    have hmne := hinv.match_ne
    have hmge := hinv.match_ge
    have hnle := hinv.nextCode_le
    by_cases hm : s.Match < 0
    · refine ⟨[], by rw [AddByte_start s p hm]; simp, ?_, by simp⟩
      simp [hm]
    · cases hl : s.Dict.lookup (s.Match.toNat ||| (p <<< 16) ||| (1 <<< 24)) with
      | some got =>
        refine ⟨[], by rw [AddByte_hit s p got hm hl]; simp, ?_, by simp⟩
        simp
      | none =>
        have hmne1 : s.Match.toNat ≠ s.ClearCode := by omega
        by_cases h4096 : s.NextCode + 1 = 4096
        · obtain ⟨codes, chunk, k, codes2, chunk2, k2, heq, -⟩ :=
            AddByte_miss_clear s p hm hl hmne1 h4096
          refine ⟨[(s.Match.toNat, s.CodeSize), (s.ClearCode, s.CodeSize)],
            by rw [heq]; simp, ?_, ?_⟩
          · simp [hm, hcc]; omega
          · intro _; simp [hcc]
        · obtain ⟨codes, chunk, k, heq, -⟩ := AddByte_miss s p hm hl hmne1 h4096
          refine ⟨[(s.Match.toNat, s.CodeSize)], by rw [heq], ?_, ?_⟩
          · simp only [List.map_cons, List.map_nil, List.mem_singleton]
            constructor
            · intro h; exact absurd (hcc ▸ h.symm) hmne1
            · rintro ⟨-, -, h⟩; omega
          · simp only [List.map_cons, List.map_nil, List.mem_singleton]
            intro h; exact absurd (hcc ▸ h.symm) hmne1
  · intro n kv hkv
    have hinv := hpre n
    have := hinv.dict kv.1 kv.2 hkv
    have := hinv.nextCode_le
    omega
  · have hmeq : (if m < 2 then 2 else m) = m := by split <;> omega
    have heq := LZWCompressCodes_eq vec imd prev chunky pitch m trans
    rw [hmeq] at heq
    have hinv := NumInv_foldl h2 h8 (LZWCompressInput imd prev chunky pitch trans) _
      (NumInv_construct h2 h8 (vec ++ [m])) hin
    rw [← heq] at hinv
    generalize LZWCompressCodes vec imd prev chunky pitch m trans = s at hinv ⊢
    obtain ⟨hw, -⟩ := destruct_Written hinv
    have hcc := hinv.clearCode
    have hmne := hinv.match_ne
    have heoi := hinv.eoiCode
    -- a clear code of the finished stream is one of the codes written before the destructor
    have hold : ∀ i, (s.destruct.Written.map Prod.fst)[i]? = some (2 ^ m) →
        i < s.Written.length ∧ s.Written[i]?.map Prod.fst = some s.ClearCode := by
      intro i hi
      rw [hw, List.getElem?_map, getElem?_snoc_fst] at hi
      rcases hi with ⟨-, hi⟩ | ⟨-, hi⟩
      · by_cases hmatch : s.Match ≥ 0
        · simp only [hmatch, if_true] at hi
          rw [getElem?_snoc_fst] at hi
          rcases hi with ⟨h1, hi⟩ | ⟨-, hi⟩
          · exact ⟨h1, hcc ▸ hi⟩
          · simp only at hi; omega
        · simp only [hmatch, if_false, List.append_nil] at hi
          have hlt : i < s.Written.length := by
            by_contra hge
            rw [List.getElem?_eq_none (by omega)] at hi
            simp at hi
          exact ⟨hlt, hcc ▸ hi⟩
      · simp only at hi; omega
    have hnew : ∀ i, i < s.Written.length → s.Written[i]?.map Prod.fst = some s.ClearCode →
        (s.destruct.Written.map Prod.fst)[i]? = some (2 ^ m) := by
      intro i hi h
      rw [hw, List.getElem?_map, List.append_assoc, List.getElem?_append_left hi, h, hcc]
    intro i j hij hi hj hno
    obtain ⟨hil, hic⟩ := hold i hi
    obtain ⟨hjl, hjc⟩ := hold j hj
    have hpos : 0 < 4095 - s.ClearCode := by omega
    have := consecutive_multiples hpos ((hinv.clears i hil).1 hic) ((hinv.clears j hjl).1 hjc) hij
      (fun k hik hkj hk0 =>
        hno k hik hkj (hnew k (by omega) ((hinv.clears k (by omega)).2 hk0)))
    omega

/-- C4, at a concrete input: the 2x2 image `0 1 / 1 0` with minimum code size 2; its bytes
are below `2 ^ 2` and no state of the run holds a dictionary code of 4096 or more. -/
theorem AddByte_clear_timing_witness :
    (∀ b ∈ LZWCompressInput ⟨0, 0, 2, 2, 0⟩ (fun _ => 0) (fun i => [0, 1, 1, 0].getD i 0) 2 (-1),
      b < 2 ^ 2) ∧
    ∀ (n : Nat), ∀ kv ∈ (((LZWCompressInput ⟨0, 0, 2, 2, 0⟩ (fun _ => 0)
        (fun i => [0, 1, 1, 0].getD i 0) 2 (-1)).take n).foldl AddByte
        (construct 2 ([] ++ [2]))).Dict, kv.2 < 4096 :=
  ⟨by decide, (AddByte_clear_timing 2 (by decide) (by decide) [] ⟨0, 0, 2, 2, 0⟩ (fun _ => 0)
    (fun i => [0, 1, 1, 0].getD i 0) 2 (-1) (by decide)).2.1⟩

end Iff2Gif

namespace Iff2Gif

open GIFWriter

/-- C5 (minimal dirty rectangle). For a frame of `W` by `H` pixels, `W ≥ 1`, whose buffers
`prev` and `cur` differ in at least one of the `W * H` pixels (so `H ≥ 1` too),
`MinimumArea`, entered with the full-frame descriptor, leaves a rectangle inside the frame
such that every differing pixel `(x, y)` lies in it, its top row `Top` and its bottom row
`Top + Height - 1` each hold a differing pixel, and so do its left column `Left` and its
right column `Left + Width - 1`, each within the rows of the rectangle; the flags are left
alone. -/
theorem MinimumArea_minimal (W H : Nat) (hW : 1 ≤ W) (prev cur : Nat → Nat)
    (fl : Nat) (hd : ∃ i, i < W * H ∧ prev i ≠ cur i) :
    1 ≤ (MinimumArea prev cur ⟨0, 0, W, H, fl⟩).Width ∧
    1 ≤ (MinimumArea prev cur ⟨0, 0, W, H, fl⟩).Height ∧
    (MinimumArea prev cur ⟨0, 0, W, H, fl⟩).Left +
      (MinimumArea prev cur ⟨0, 0, W, H, fl⟩).Width ≤ W ∧
    (MinimumArea prev cur ⟨0, 0, W, H, fl⟩).Top +
      (MinimumArea prev cur ⟨0, 0, W, H, fl⟩).Height ≤ H ∧
    (MinimumArea prev cur ⟨0, 0, W, H, fl⟩).Flags = fl ∧
    (∀ x y, x < W → y < H → prev (y * W + x) ≠ cur (y * W + x) →
      (MinimumArea prev cur ⟨0, 0, W, H, fl⟩).Left ≤ x ∧
      x ≤ (MinimumArea prev cur ⟨0, 0, W, H, fl⟩).Left +
        (MinimumArea prev cur ⟨0, 0, W, H, fl⟩).Width - 1 ∧
      (MinimumArea prev cur ⟨0, 0, W, H, fl⟩).Top ≤ y ∧
      y ≤ (MinimumArea prev cur ⟨0, 0, W, H, fl⟩).Top +
        (MinimumArea prev cur ⟨0, 0, W, H, fl⟩).Height - 1) ∧
    (∃ x, x < W ∧
      prev ((MinimumArea prev cur ⟨0, 0, W, H, fl⟩).Top * W + x) ≠
        cur ((MinimumArea prev cur ⟨0, 0, W, H, fl⟩).Top * W + x)) ∧
    (∃ x, x < W ∧
      prev (((MinimumArea prev cur ⟨0, 0, W, H, fl⟩).Top +
          (MinimumArea prev cur ⟨0, 0, W, H, fl⟩).Height - 1) * W + x) ≠
        cur (((MinimumArea prev cur ⟨0, 0, W, H, fl⟩).Top +
          (MinimumArea prev cur ⟨0, 0, W, H, fl⟩).Height - 1) * W + x)) ∧
    (∃ y, (MinimumArea prev cur ⟨0, 0, W, H, fl⟩).Top ≤ y ∧
      y ≤ (MinimumArea prev cur ⟨0, 0, W, H, fl⟩).Top +
        (MinimumArea prev cur ⟨0, 0, W, H, fl⟩).Height - 1 ∧
      prev (y * W + (MinimumArea prev cur ⟨0, 0, W, H, fl⟩).Left) ≠
        cur (y * W + (MinimumArea prev cur ⟨0, 0, W, H, fl⟩).Left)) ∧
    (∃ y, (MinimumArea prev cur ⟨0, 0, W, H, fl⟩).Top ≤ y ∧
      y ≤ (MinimumArea prev cur ⟨0, 0, W, H, fl⟩).Top +
        (MinimumArea prev cur ⟨0, 0, W, H, fl⟩).Height - 1 ∧
      prev (y * W + ((MinimumArea prev cur ⟨0, 0, W, H, fl⟩).Left +
          (MinimumArea prev cur ⟨0, 0, W, H, fl⟩).Width - 1)) ≠
        cur (y * W + ((MinimumArea prev cur ⟨0, 0, W, H, fl⟩).Left +
          (MinimumArea prev cur ⟨0, 0, W, H, fl⟩).Width - 1))) := by
  obtain ⟨top, bot, left, right, heq, h1, h2, h3, h4, hall, htop, hbot, hleft, hright⟩ :=
    MinimumArea_spec W H hW prev cur 0 0 fl hd
  rw [heq]
  simp only
  have e1 : left + (right - left + 1) - 1 = right := by omega
  have e2 : top + (bot - top + 1) - 1 = bot := by omega
  rw [e1, e2]
  refine ⟨by omega, by omega, by omega, by omega, trivial, ?_, htop, hbot, hleft, hright⟩
  intro x y hx hy hD
  have hH : 1 ≤ H := by omega
  have hidx : y * W + x < W * H := by
    have : (y + 1) * W ≤ H * W := Nat.mul_le_mul_right W (by omega)
    rw [Nat.succ_mul] at this
    rw [Nat.mul_comm W H]; omega
  obtain ⟨a1, a2, a3, a4⟩ := hall (y * W + x) hidx hD
  have hdiv : (y * W + x) / W = y := by
    rw [Nat.add_comm, Nat.add_mul_div_right _ _ (by omega), Nat.div_eq_of_lt hx, Nat.zero_add]
  have hmod : (y * W + x) % W = x := by
    rw [Nat.add_comm, Nat.add_mul_mod_self_right, Nat.mod_eq_of_lt hx]
  rw [hdiv] at a1 a2
  rw [hmod] at a3 a4
  exact ⟨a3, a4, a1, a2⟩

/-- C5, at a concrete input: in a 3x3 frame only the pixels `(1, 1)` and `(2, 1)` change;
the rectangle starts at column 1. -/
theorem MinimumArea_minimal_witness :
    (∃ i, i < 3 * 3 ∧ (fun _ : Nat => 0) i ≠ (fun i => if i = 4 ∨ i = 5 then 1 else 0) i) ∧
    1 ≤ (MinimumArea (fun _ => 0) (fun i => if i = 4 ∨ i = 5 then 1 else 0) ⟨0, 0, 3, 3, 0⟩).Width :=
  ⟨⟨4, by decide, by decide⟩,
   (MinimumArea_minimal 3 3 (by decide) (fun _ => 0)
    (fun i => if i = 4 ∨ i = 5 then 1 else 0) 0 ⟨4, by decide, by decide⟩).1⟩

end Iff2Gif

namespace Iff2Gif

open GIFWriter

/-- C6 (unchanged frame). When a previous-frame buffer exists and the new frame's buffer
equals it at every one of the `Width * Height` positions, the frame `MakeFrame` builds and
queues has the rectangle `Left = 0, Top = 0, Width = 1, Height = 1`, and its payload is the
compression of a single byte: the code stream of the frame's code size after one
`AddByte`, finished by the destructor. -/
theorem MakeFrame_unchanged (QUEUE_SIZE : Nat) (w : GIFWriter) (bitmap : PlanarBitmap)
    (chunky prev : Nat → Nat) (hprev : w.PrevFrame = some prev)
    (hsame : ∀ i, i < bitmap.Width * bitmap.Height → chunky i = prev i) :
    (w.MakeFrame QUEUE_SIZE bitmap chunky).WriteQueue.MostRecent =
      some (w.MakeFrameFrame bitmap chunky) ∧
    (w.MakeFrameFrame bitmap chunky).IMD = ⟨0, 0, 1, 1, 0⟩ ∧
    ∃ b, (w.MakeFrameFrame bitmap chunky).LZW =
      ((CodeStream.construct (if bitmap.NumPlanes % 256 < 2 then 2 else bitmap.NumPlanes % 256)
          [if bitmap.NumPlanes % 256 < 2 then 2 else bitmap.NumPlanes % 256]).AddByte
        b).destruct.Codes := by
  -- the preceding frame is not disposed, so the buffer is still `prev`
  have hpf : (w.MakeFramePatched bitmap chunky).PrevFrame = some prev := by
    obtain ⟨q, T, G, pf, heq, hpf⟩ := MakeFramePatch_fields
      ({ w with WriteQueue := w.WriteQueue.SetDropFrames bitmap.Interleave } : GIFWriter)
      bitmap (MakeFrameNew bitmap) chunky
    unfold MakeFramePatched
    rw [heq]
    rcases hpf with h | ⟨-, prev', hp', hs, -⟩
    · rw [h]; exact hprev
    · exfalso
      have hp'' : w.PrevFrame = some prev' := hp'
      rw [hprev] at hp''
      simp only [Option.some.injEq] at hp''
      subst hp''
      rw [SelectDisposalScan_iff, (MakeFrameNew_IMD bitmap).1] at hs
      obtain ⟨y, x, hy, hx, h1, h2⟩ := hs
      simp only [Nat.zero_mul, Nat.zero_add] at hy hx h1 h2
      have hidx : y * bitmap.Width + x < bitmap.Width * bitmap.Height := by
        have : (y + 1) * bitmap.Width ≤ bitmap.Height * bitmap.Width :=
          Nat.mul_le_mul_right _ (by omega)
        rw [Nat.succ_mul] at this
        rw [Nat.mul_comm bitmap.Width bitmap.Height]; omega
      have := hsame _ hidx
      omega
  have hrect : (w.MakeFrameRect bitmap chunky).IMD = ⟨0, 0, 1, 1, 0⟩ := by
    unfold MakeFrameRect MakeFrameArea
    rw [hpf]
    simp only
    rw [(MakeFrameNew_IMD bitmap).1, MinimumArea_unchanged]
    intro i hi
    exact (hsame i hi).symm
  obtain ⟨himd, hlzw⟩ := MakeFrameTrans_frame (w.MakeFramePatched bitmap chunky) bitmap
    (w.MakeFrameRect bitmap chunky) chunky
  have hnil : (w.MakeFrameChoice bitmap chunky).2.2.LZW = [] := by
    unfold MakeFrameChoice
    rw [hlzw]
    unfold MakeFrameRect
    rw [(MakeFrameArea_LZW _ _ _).1, (MakeFrameNew_IMD bitmap).2]
  have himd' : (w.MakeFrameChoice bitmap chunky).2.2.IMD = ⟨0, 0, 1, 1, 0⟩ := by
    unfold MakeFrameChoice
    rw [himd, hrect]
  obtain ⟨c1, c2, c3⟩ := MakeFrameCompress_cases
    ((w.MakeFramePatched bitmap chunky).PrevFrame.getD fun _ => 0) bitmap chunky
    (w.MakeFrameChoice bitmap chunky).2.2 (w.MakeFrameChoice bitmap chunky).1
    (w.MakeFrameChoice bitmap chunky).2.1 hnil _ _ rfl rfl
  rw [himd'] at c1 c2 c3
  obtain ⟨bS, hbS⟩ := LZWCompress_single 0 0 0
    ((w.MakeFramePatched bitmap chunky).PrevFrame.getD fun _ => 0) chunky bitmap.Width
    (bitmap.NumPlanes % 256) (w.MakeFrameChoice bitmap chunky).1
  obtain ⟨bU, hbU⟩ := LZWCompress_single 0 0 0
    ((w.MakeFramePatched bitmap chunky).PrevFrame.getD fun _ => 0) chunky bitmap.Width
    (bitmap.NumPlanes % 256) (-1)
  refine ⟨MakeFrame_MostRecent QUEUE_SIZE w bitmap chunky, ?_, ?_⟩
  · unfold MakeFrameFrame
    by_cases ht : (w.MakeFrameChoice bitmap chunky).1 < 0
    · rw [c1 ht]
    · by_cases hlt : (LZWCompress [] ⟨0, 0, 1, 1, 0⟩
          ((w.MakeFramePatched bitmap chunky).PrevFrame.getD fun _ => 0) chunky bitmap.Width
          (bitmap.NumPlanes % 256) (w.MakeFrameChoice bitmap chunky).1).length <
          (LZWCompress [] ⟨0, 0, 1, 1, 0⟩
          ((w.MakeFramePatched bitmap chunky).PrevFrame.getD fun _ => 0) chunky bitmap.Width
          (bitmap.NumPlanes % 256) (-1)).length
      · rw [c2 (by omega) hlt]
      · rw [c3 (by omega) (by omega)]
  · unfold MakeFrameFrame
    by_cases ht : (w.MakeFrameChoice bitmap chunky).1 < 0
    · rw [c1 ht]; exact ⟨bS, hbS⟩
    · by_cases hlt : (LZWCompress [] ⟨0, 0, 1, 1, 0⟩
          ((w.MakeFramePatched bitmap chunky).PrevFrame.getD fun _ => 0) chunky bitmap.Width
          (bitmap.NumPlanes % 256) (w.MakeFrameChoice bitmap chunky).1).length <
          (LZWCompress [] ⟨0, 0, 1, 1, 0⟩
          ((w.MakeFramePatched bitmap chunky).PrevFrame.getD fun _ => 0) chunky bitmap.Width
          (bitmap.NumPlanes % 256) (-1)).length
      · rw [c2 (by omega) hlt]; exact ⟨bS, hbS⟩
      · rw [c3 (by omega) (by omega)]; exact ⟨bU, hbU⟩

/-- C6, at a concrete input: the frame `1 1` over the preceding frame `1 1` is encoded as
the rectangle of one pixel at the origin. -/
theorem MakeFrame_unchanged_witness :
    (Example.writer1.PrevFrame = some (fun _ => 1) ∧
      ∀ i, i < Example.bitmap2x1.Width * Example.bitmap2x1.Height →
        Example.chunky11 i = (fun _ => 1) i) ∧
    (Example.writer1.MakeFrameFrame Example.bitmap2x1 Example.chunky11).IMD = ⟨0, 0, 1, 1, 0⟩ :=
  ⟨⟨rfl, fun _ _ => rfl⟩,
   (MakeFrame_unchanged 2 Example.writer1 Example.bitmap2x1 Example.chunky11 (fun _ => 1) rfl
      (fun _ _ => rfl)).2.1⟩

end Iff2Gif

namespace Iff2Gif

open GIFWriter

/-- C7 (disposal selection). `MakeFrame` calls `SelectDisposal` with the full-frame
descriptor of `MakeFrameNew`. For a frame of at least one pixel whose transparent colour,
if declared, is a byte: `SelectDisposal` returns 2 if and only if the frame declares a
transparent colour `t`, a previous-frame buffer exists, and some pixel `(x, y)` inside the
changed rectangle (what `MinimumArea` finds for the previous frame and the new one) has a
previous value other than `t` and the new value `t`; and it returns 1 whenever it does not
return 2. -/
theorem SelectDisposal_iff (w : GIFWriter) (bitmap : PlanarBitmap) (chunky : Nat → Nat)
    (hW : 1 ≤ bitmap.Width) (hH : 1 ≤ bitmap.Height) (ht : bitmap.TransparentColor < 256) :
    ((w.SelectDisposal bitmap (MakeFrameNew bitmap).IMD chunky).1 = 2 ↔
      (0 ≤ bitmap.TransparentColor ∧ ∃ prev, w.PrevFrame = some prev ∧
        ∃ x y,
          (MinimumArea prev chunky (MakeFrameNew bitmap).IMD).Left ≤ x ∧
          x < (MinimumArea prev chunky (MakeFrameNew bitmap).IMD).Left +
            (MinimumArea prev chunky (MakeFrameNew bitmap).IMD).Width ∧
          (MinimumArea prev chunky (MakeFrameNew bitmap).IMD).Top ≤ y ∧
          y < (MinimumArea prev chunky (MakeFrameNew bitmap).IMD).Top +
            (MinimumArea prev chunky (MakeFrameNew bitmap).IMD).Height ∧
          (prev (y * bitmap.Width + x) : Int) ≠ bitmap.TransparentColor ∧
          (chunky (y * bitmap.Width + x) : Int) = bitmap.TransparentColor)) ∧
    ((w.SelectDisposal bitmap (MakeFrameNew bitmap).IMD chunky).1 ≠ 2 →
      (w.SelectDisposal bitmap (MakeFrameNew bitmap).IMD chunky).1 = 1) := by
  have himd : (MakeFrameNew bitmap).IMD = ⟨0, 0, bitmap.Width, bitmap.Height, 0⟩ := by
    unfold MakeFrameNew; split <;> rfl
  rw [himd]
  have hscan : ∀ prev, 0 ≤ bitmap.TransparentColor →
      (SelectDisposalScan prev chunky ⟨0, 0, bitmap.Width, bitmap.Height, 0⟩ bitmap.Width
          (bitmap.TransparentColor % 256).toNat = true ↔
        ∃ y x, y < bitmap.Height ∧ x < bitmap.Width ∧
          (prev (y * bitmap.Width + x) : Int) ≠ bitmap.TransparentColor ∧
          (chunky (y * bitmap.Width + x) : Int) = bitmap.TransparentColor) := by
    intro prev h0
    rw [SelectDisposalScan_iff]
    have hmod : ((bitmap.TransparentColor % 256).toNat : Int) = bitmap.TransparentColor := by
      omega
    constructor
    · rintro ⟨y, x, hy, hx, h1, h2⟩
      simp only [Nat.zero_mul, Nat.zero_add] at h1 h2
      exact ⟨y, x, hy, hx, by omega, by omega⟩
    · rintro ⟨y, x, hy, hx, h1, h2⟩
      refine ⟨y, x, hy, hx, ?_, ?_⟩ <;> simp only [Nat.zero_mul, Nat.zero_add] <;> omega
  -- the pixels of the changed rectangle that turn transparent are those of the frame
  have hrect : ∀ prev,
      (∃ x y,
          (MinimumArea prev chunky ⟨0, 0, bitmap.Width, bitmap.Height, 0⟩).Left ≤ x ∧
          x < (MinimumArea prev chunky ⟨0, 0, bitmap.Width, bitmap.Height, 0⟩).Left +
            (MinimumArea prev chunky ⟨0, 0, bitmap.Width, bitmap.Height, 0⟩).Width ∧
          (MinimumArea prev chunky ⟨0, 0, bitmap.Width, bitmap.Height, 0⟩).Top ≤ y ∧
          y < (MinimumArea prev chunky ⟨0, 0, bitmap.Width, bitmap.Height, 0⟩).Top +
            (MinimumArea prev chunky ⟨0, 0, bitmap.Width, bitmap.Height, 0⟩).Height ∧
          (prev (y * bitmap.Width + x) : Int) ≠ bitmap.TransparentColor ∧
          (chunky (y * bitmap.Width + x) : Int) = bitmap.TransparentColor) ↔
        ∃ y x, y < bitmap.Height ∧ x < bitmap.Width ∧
          (prev (y * bitmap.Width + x) : Int) ≠ bitmap.TransparentColor ∧
          (chunky (y * bitmap.Width + x) : Int) = bitmap.TransparentColor := by
    intro prev
    by_cases hd : ∃ i, i < bitmap.Width * bitmap.Height ∧ prev i ≠ chunky i
    · obtain ⟨top, bot, left, right, heq, h1, h2, h3, h4, hall, -⟩ :=
        MinimumArea_spec bitmap.Width bitmap.Height hW prev chunky 0 0 0 hd
      rw [heq]
      simp only
      constructor
      · rintro ⟨x, y, hx1, hx2, hy1, hy2, hp, hc⟩
        exact ⟨y, x, by omega, by omega, hp, hc⟩
      · rintro ⟨y, x, hy, hx, hp, hc⟩
        have hidx : y * bitmap.Width + x < bitmap.Width * bitmap.Height := by
          have : (y + 1) * bitmap.Width ≤ bitmap.Height * bitmap.Width :=
            Nat.mul_le_mul_right _ (by omega)
          rw [Nat.succ_mul] at this
          rw [Nat.mul_comm bitmap.Width bitmap.Height]; omega
        have hne : prev (y * bitmap.Width + x) ≠ chunky (y * bitmap.Width + x) := by
          intro he; rw [he] at hp; exact hp hc
        obtain ⟨a1, a2, a3, a4⟩ := hall _ hidx hne
        have hdiv : (y * bitmap.Width + x) / bitmap.Width = y := by
          rw [Nat.add_comm, Nat.add_mul_div_right _ _ (by omega), Nat.div_eq_of_lt hx,
            Nat.zero_add]
        have hmod : (y * bitmap.Width + x) % bitmap.Width = x := by
          rw [Nat.add_comm, Nat.add_mul_mod_self_right, Nat.mod_eq_of_lt hx]
        rw [hdiv] at a1 a2
        rw [hmod] at a3 a4
        exact ⟨x, y, a3, by omega, a1, by omega, hp, hc⟩
    · have hsame : ∀ i, i < bitmap.Width * bitmap.Height → prev i = chunky i := by
        intro i hi
        by_contra hne
        exact hd ⟨i, hi, hne⟩
      rw [MinimumArea_unchanged prev chunky ⟨0, 0, bitmap.Width, bitmap.Height, 0⟩ hsame]
      simp only
      constructor
      · rintro ⟨x, y, hx1, hx2, hy1, hy2, hp, hc⟩
        exact ⟨y, x, by omega, by omega, hp, hc⟩
      · rintro ⟨y, x, hy, hx, hp, hc⟩
        exfalso
        have hidx : y * bitmap.Width + x < bitmap.Width * bitmap.Height := by
          have : (y + 1) * bitmap.Width ≤ bitmap.Height * bitmap.Width :=
            Nat.mul_le_mul_right _ (by omega)
          rw [Nat.succ_mul] at this
          rw [Nat.mul_comm bitmap.Width bitmap.Height]; omega
        have := hsame _ hidx
        rw [this] at hp
        exact hp hc
  rcases SelectDisposal_cases w bitmap ⟨0, 0, bitmap.Width, bitmap.Height, 0⟩ chunky with
    ⟨heq, hno⟩ | ⟨h0, prev, hprev, hs, heq⟩
  · rw [heq]
    refine ⟨⟨fun h => by simp at h, ?_⟩, fun _ => rfl⟩
    rintro ⟨h0, prev, hprev, hx⟩
    exfalso
    exact hno ⟨h0, prev, hprev, (hscan prev h0).2 ((hrect prev).1 hx)⟩
  · rw [heq]
    refine ⟨⟨fun _ => ⟨h0, prev, hprev, (hrect prev).2 ((hscan prev h0).1 hs)⟩, fun _ => rfl⟩,
      fun h => absurd rfl h⟩

/-- C7, at a concrete input: a 2x1 frame with transparent colour 0 whose second pixel turns
from 1 to 0; `SelectDisposal` returns 2 there, and so a changed pixel that turns transparent
exists. -/
theorem SelectDisposal_iff_witness :
    (1 ≤ Example.bitmap2x1.Width ∧ 1 ≤ Example.bitmap2x1.Height ∧
      Example.bitmap2x1.TransparentColor < 256) ∧
    (Example.writer1.SelectDisposal Example.bitmap2x1 (MakeFrameNew Example.bitmap2x1).IMD
      Example.chunky10).1 = 2 ∧
    (0 ≤ Example.bitmap2x1.TransparentColor ∧ ∃ prev, Example.writer1.PrevFrame = some prev ∧
        ∃ x y,
          (MinimumArea prev Example.chunky10 (MakeFrameNew Example.bitmap2x1).IMD).Left ≤ x ∧
          x < (MinimumArea prev Example.chunky10 (MakeFrameNew Example.bitmap2x1).IMD).Left +
            (MinimumArea prev Example.chunky10 (MakeFrameNew Example.bitmap2x1).IMD).Width ∧
          (MinimumArea prev Example.chunky10 (MakeFrameNew Example.bitmap2x1).IMD).Top ≤ y ∧
          y < (MinimumArea prev Example.chunky10 (MakeFrameNew Example.bitmap2x1).IMD).Top +
            (MinimumArea prev Example.chunky10 (MakeFrameNew Example.bitmap2x1).IMD).Height ∧
          (prev (y * Example.bitmap2x1.Width + x) : Int) ≠ Example.bitmap2x1.TransparentColor ∧
          (Example.chunky10 (y * Example.bitmap2x1.Width + x) : Int) =
            Example.bitmap2x1.TransparentColor) :=
  ⟨by decide, by decide,
   (SelectDisposal_iff Example.writer1 Example.bitmap2x1 Example.chunky10 (by decide)
      (by decide) (by decide)).1.1 (by decide)⟩

end Iff2Gif

namespace Iff2Gif

open GIFWriter

/-- C8 (dual compression choice). In `MakeFrame`, when a substitution colour is in use
(`trans ≥ 0` at line 256), let `S` be the payload compressed with it and `U` the payload
compressed without. If `|S| < |U|` the frame keeps `S` and the control extension it had; if
`|U| ≤ |S|` it keeps `U`, and then, when the colour was synthetic (`temptrans`), its
transparency flag bit is cleared and its transparent index is 0, and otherwise its control
extension is as before. Either way the payload kept has length `min |S| |U|`, and the
rectangle is the one compressed. -/
theorem MakeFrame_dual_compression (w : GIFWriter) (bitmap : PlanarBitmap) (chunky : Nat → Nat)
    (htrans : 0 ≤ (w.MakeFrameChoice bitmap chunky).1) :
    ((w.MakeFrameTry bitmap chunky (w.MakeFrameChoice bitmap chunky).1).length <
        (w.MakeFrameTry bitmap chunky (-1)).length →
      (w.MakeFrameFrame bitmap chunky).LZW =
        w.MakeFrameTry bitmap chunky (w.MakeFrameChoice bitmap chunky).1 ∧
      (w.MakeFrameFrame bitmap chunky).GCE = (w.MakeFrameChoice bitmap chunky).2.2.GCE) ∧
    ((w.MakeFrameTry bitmap chunky (-1)).length ≤
        (w.MakeFrameTry bitmap chunky (w.MakeFrameChoice bitmap chunky).1).length →
      (w.MakeFrameFrame bitmap chunky).LZW = w.MakeFrameTry bitmap chunky (-1) ∧
      ((w.MakeFrameChoice bitmap chunky).2.1 = true →
        (w.MakeFrameFrame bitmap chunky).GCE.Flags &&& 1 = 0 ∧
        (w.MakeFrameFrame bitmap chunky).GCE.TransparentColor = 0) ∧
      ((w.MakeFrameChoice bitmap chunky).2.1 = false →
        (w.MakeFrameFrame bitmap chunky).GCE = (w.MakeFrameChoice bitmap chunky).2.2.GCE)) ∧
    (w.MakeFrameFrame bitmap chunky).LZW.length =
      min (w.MakeFrameTry bitmap chunky (w.MakeFrameChoice bitmap chunky).1).length
        (w.MakeFrameTry bitmap chunky (-1)).length ∧
    (w.MakeFrameFrame bitmap chunky).IMD = (w.MakeFrameRect bitmap chunky).IMD := by
  obtain ⟨himd, hlzw⟩ := MakeFrameTrans_frame (w.MakeFramePatched bitmap chunky) bitmap
    (w.MakeFrameRect bitmap chunky) chunky
  have hnil : (w.MakeFrameChoice bitmap chunky).2.2.LZW = [] := by
    unfold MakeFrameChoice
    rw [hlzw]
    unfold MakeFrameRect
    rw [(MakeFrameArea_LZW _ _ _).1, (MakeFrameNew_IMD bitmap).2]
  have himd' : (w.MakeFrameChoice bitmap chunky).2.2.IMD = (w.MakeFrameRect bitmap chunky).IMD :=
    himd
  obtain ⟨-, c2, c3⟩ := MakeFrameCompress_cases
    ((w.MakeFramePatched bitmap chunky).PrevFrame.getD fun _ => 0) bitmap chunky
    (w.MakeFrameChoice bitmap chunky).2.2 (w.MakeFrameChoice bitmap chunky).1
    (w.MakeFrameChoice bitmap chunky).2.1 hnil
    (w.MakeFrameTry bitmap chunky (w.MakeFrameChoice bitmap chunky).1)
    (w.MakeFrameTry bitmap chunky (-1))
    (by unfold MakeFrameTry; rw [himd']) (by unfold MakeFrameTry; rw [himd'])
  have hS := c2 htrans
  have hU := c3 htrans
  refine ⟨?_, ?_, ?_, ?_⟩
  · intro hlt
    unfold MakeFrameFrame
    rw [hS hlt]
    exact ⟨rfl, rfl⟩
  · intro hle
    unfold MakeFrameFrame
    rw [hU hle]
    refine ⟨rfl, ?_, ?_⟩
    · intro ht
      simp only [ht, if_true]
      refine ⟨?_, trivial⟩
      rw [Nat.and_assoc]
      simp
    · intro ht
      simp only [ht, Bool.false_eq_true, if_false]
  · unfold MakeFrameFrame
    by_cases hlt : (w.MakeFrameTry bitmap chunky (w.MakeFrameChoice bitmap chunky).1).length <
        (w.MakeFrameTry bitmap chunky (-1)).length
    · rw [hS hlt]
      simp only
      omega
    · rw [hU (by omega)]
      simp only
      omega
  · unfold MakeFrameFrame
    by_cases hlt : (w.MakeFrameTry bitmap chunky (w.MakeFrameChoice bitmap chunky).1).length <
        (w.MakeFrameTry bitmap chunky (-1)).length
    · rw [hS hlt]; exact himd'
    · rw [hU (by omega)]; exact himd'

/-- C8, at a concrete input: the frame `1 0` over the preceding frame `1 1`, with the
declared transparent colour 0 as substitution colour; the payload kept is as short as the
shorter of the two. -/
theorem MakeFrame_dual_compression_witness :
    0 ≤ (Example.writer1.MakeFrameChoice Example.bitmap2x1 Example.chunky10).1 ∧
    (Example.writer1.MakeFrameFrame Example.bitmap2x1 Example.chunky10).LZW.length =
      min (Example.writer1.MakeFrameTry Example.bitmap2x1 Example.chunky10
          (Example.writer1.MakeFrameChoice Example.bitmap2x1 Example.chunky10).1).length
        (Example.writer1.MakeFrameTry Example.bitmap2x1 Example.chunky10 (-1)).length :=
  ⟨by decide,
   (MakeFrame_dual_compression Example.writer1 Example.bitmap2x1 Example.chunky10
      (by decide)).2.2.1⟩

end Iff2Gif

namespace Iff2Gif

open GIFWriter

/-- C9 (drift-free delay patch), as amended. Let the writer run at the tick rate `R > 0`,
with `T` ticks counted so far and `GIFTime = 100 * T / R`, and let a frame be queued. When
`MakeFrame` processes a frame with a tick delay `d ≠ 0` and nothing overflows 32 bits
(`100 * (T + d)` fits a `ULONG` and the difference of the two times an `int`), the patch of
the queued frame sets its delay to `100 * (T + d) / R - 100 * T / R` modulo 65536, the 16
bits of the delay field, which is the difference itself when that is below 65536;
afterwards `TotalTicks = T + d` and `GIFTime = 100 * (T + d) / R`, which is the old
`GIFTime` plus the whole difference, so the differences computed so far keep summing to
`100 * TotalTicks / R`. -/
theorem MakeFrame_delay (QUEUE_SIZE : Nat) (w : GIFWriter) (bitmap : PlanarBitmap)
    (chunky : Nat → Nat) (old : GIFFrame) (R T d : Nat)
    (hR : 0 < R) (hR31 : R < 2 ^ 31) (hrate : w.FrameRate = R) (hT : w.TotalTicks = T)
    (hG : w.GIFTime = 100 * T / R) (hold : w.WriteQueue.MostRecent = some old)
    (hd : bitmap.Delay = d) (hd0 : d ≠ 0) (hov : 100 * (T + d) < 2 ^ 32)
    (hint : 100 * (T + d) / R - 100 * T / R < 2 ^ 31) :
    (∃ patched : GIFFrame,
      (w.MakeFramePatched bitmap chunky).WriteQueue.MostRecent = some patched ∧
      patched.GCE.DelayTime = (((100 * (T + d) / R - 100 * T / R) % 65536 : Nat) : Int) ∧
      (100 * (T + d) / R - 100 * T / R < 65536 →
        patched.GCE.DelayTime = ((100 * (T + d) / R - 100 * T / R : Nat) : Int)) ∧
      patched.IMD = old.IMD ∧ patched.LZW = old.LZW) ∧
    (w.MakeFrame QUEUE_SIZE bitmap chunky).TotalTicks = T + d ∧
    (w.MakeFrame QUEUE_SIZE bitmap chunky).GIFTime = 100 * (T + d) / R ∧
    (w.MakeFrame QUEUE_SIZE bitmap chunky).GIFTime =
      w.GIFTime + (100 * (T + d) / R - 100 * T / R) := by
  have hmono : 100 * T / R ≤ 100 * (T + d) / R := Nat.div_le_div_right (by omega)
  have hnow : 100 * (T + d) / R < 2 ^ 32 := lt_of_le_of_lt (Nat.div_le_self _ _) hov
  have hdne : ¬ ((d : Int) = 0) := by exact_mod_cast hd0
  have htick : (((T : Int) + (d : Int)) % 2 ^ 32).toNat = T + d := by omega
  have hmul : (T + d) * 100 % 2 ^ 32 = 100 * (T + d) := by
    rw [Nat.mul_comm]; exact Nat.mod_eq_of_lt hov
  have hrateNat : ((R : Int) % 2 ^ 32).toNat = R := by omega
  have hdelay : (((100 * (T + d) / R : Nat) : Int) - ((100 * T / R : Nat) : Int) + 2 ^ 31) % 2 ^ 32
      - 2 ^ 31 = ((100 * (T + d) / R - 100 * T / R : Nat) : Int) := by omega
  have hgif : ((((100 * T / R : Nat) : Int) +
      ((100 * (T + d) / R - 100 * T / R : Nat) : Int)) % 2 ^ 32).toNat = 100 * (T + d) / R := by
    omega
  have hpatch : ∃ patched : GIFFrame,
      (w.MakeFramePatched bitmap chunky).WriteQueue.MostRecent = some patched ∧
      patched.GCE.DelayTime = ((100 * (T + d) / R - 100 * T / R : Nat) : Int) % 65536 ∧
      patched.IMD = old.IMD ∧ patched.LZW = old.LZW ∧
      (w.MakeFramePatched bitmap chunky).TotalTicks = T + d ∧
      (w.MakeFramePatched bitmap chunky).GIFTime = 100 * (T + d) / R := by
    have hold' : ({ w with WriteQueue := w.WriteQueue.SetDropFrames bitmap.Interleave } :
        GIFWriter).WriteQueue.MostRecent = some old := hold
    unfold MakeFramePatched MakeFramePatch
    rw [hold']
    simp only
    rcases SelectDisposal_cases
        ({ w with WriteQueue := w.WriteQueue.SetDropFrames bitmap.Interleave } : GIFWriter)
        bitmap (MakeFrameNew bitmap).IMD chunky with ⟨heq, -⟩ | ⟨-, prev, -, -, heq⟩
    all_goals
      rw [heq]
      simp only [ne_eq, hT, hG, hrate, hd, hdne, not_false_eq_true, if_true, htick, hmul,
        hrateNat, hdelay, hgif]
      exact ⟨_, getLast?_setMostRecent _ _, rfl, rfl, rfl, trivial, trivial⟩
  obtain ⟨patched, h1, h2, h3, h4, h5, h6⟩ := hpatch
  obtain ⟨c1, c2⟩ := MakeFrame_clocks QUEUE_SIZE w bitmap chunky
  refine ⟨⟨patched, h1, ?_, ?_, h3, h4⟩, by rw [c1, h5], by rw [c2, h6], ?_⟩
  · rw [h2]; omega
  · intro hlt
    rw [h2]; omega
  · rw [c2, h6, hG]; omega

/-- C9, at a concrete input: at 50 ticks a second with nothing counted yet, a frame with a
delay of 3 ticks sets the delay of the queued frame to 6 hundredths and the clocks to 3
and 6. -/
theorem MakeFrame_delay_witness :
    ((0 < 50 ∧ 50 < 2 ^ 31 ∧ Example.writer1.FrameRate = (50 : Nat) ∧
      Example.writer1.TotalTicks = 0 ∧ Example.writer1.GIFTime = 100 * 0 / 50 ∧
      Example.writer1.WriteQueue.MostRecent = some {} ∧
      Example.bitmap2x1.Delay = (3 : Nat)) ∧ 3 ≠ 0 ∧ 100 * (0 + 3) < 2 ^ 32 ∧
      100 * (0 + 3) / 50 - 100 * 0 / 50 < 2 ^ 31) ∧
    (∃ patched : GIFFrame,
      (Example.writer1.MakeFramePatched Example.bitmap2x1 Example.chunky10).WriteQueue.MostRecent
        = some patched ∧
      patched.GCE.DelayTime = (((100 * (0 + 3) / 50 - 100 * 0 / 50) % 65536 : Nat) : Int)) ∧
    (Example.writer1.MakeFrame 2 Example.bitmap2x1 Example.chunky10).TotalTicks = 0 + 3 ∧
    (Example.writer1.MakeFrame 2 Example.bitmap2x1 Example.chunky10).GIFTime =
      100 * (0 + 3) / 50 :=
  ⟨by decide,
   (MakeFrame_delay 2 Example.writer1 Example.bitmap2x1 Example.chunky10 {} 50 0 3
      (by decide) (by decide) (by decide) (by decide) (by decide) (by decide) (by decide)
      (by decide) (by decide) (by decide)).1.elim fun p hp => ⟨p, hp.1, hp.2.1⟩,
   (MakeFrame_delay 2 Example.writer1 Example.bitmap2x1 Example.chunky10 {} 50 0 3
      (by decide) (by decide) (by decide) (by decide) (by decide) (by decide) (by decide)
      (by decide) (by decide) (by decide)).2.1,
   (MakeFrame_delay 2 Example.writer1 Example.bitmap2x1 Example.chunky10 {} 50 0 3
      (by decide) (by decide) (by decide) (by decide) (by decide) (by decide) (by decide)
      (by decide) (by decide) (by decide)).2.2.1⟩

/-- C9 as first stated fails: a stream at 50 ticks a second has taken the frame `1 1`
and no tick is counted yet, when the frame `1 1` arrives again with a delay of 40000
ticks.  Nothing overflows 32 bits, the difference of the two times is 80000, and the
delay the queued frame is left with is 14464, which is 80000 modulo 65536. -/
theorem MakeFrame_delay_counterexample :
    ((0 : Int) < Example.writerB.FrameRate ∧ Example.writerB.FrameRate = 50 ∧
      Example.writerB.TotalTicks = 0 ∧ Example.writerB.GIFTime = 100 * 0 / 50 ∧
      Example.writerB.WriteQueue.MostRecent = some Example.frameA ∧
      Example.bitmapLong.Delay = 40000 ∧ 100 * (0 + 40000) < 2 ^ 32 ∧
      100 * (0 + 40000) / 50 - 100 * 0 / 50 = 80000) ∧
    ((Example.writerB.MakeFramePatched Example.bitmapLong Example.chunky11).WriteQueue.MostRecent.map
      fun f => f.GCE.DelayTime) = some 14464 ∧
    ¬ ∃ patched : GIFFrame,
      (Example.writerB.MakeFramePatched Example.bitmapLong Example.chunky11).WriteQueue.MostRecent
        = some patched ∧
      patched.GCE.DelayTime = ((100 * (0 + 40000) / 50 - 100 * 0 / 50 : Nat) : Int) := by
  have hm : ((Example.writerB.MakeFramePatched Example.bitmapLong
      Example.chunky11).WriteQueue.MostRecent.map fun f => f.GCE.DelayTime) = some 14464 := by
    decide
  refine ⟨by decide, hm, ?_⟩
  rintro ⟨patched, h1, h2⟩
  rw [h1] at hm
  simp only [Option.map_some', Option.some.injEq] at hm
  rw [hm] at h2
  revert h2
  decide

end Iff2Gif

namespace Iff2Gif

open GIFWriter

/-- C10 (palette rounding). For a source palette of `n` entries, `1 ≤ n ≤ 256`,
`ExtendPalette` returns the least `p` with `1 ≤ p ≤ 8` and `n ≤ 2 ^ p`; afterwards
`dest[i]` is `src[i]` for `i < n` and the gray `(v, v, v)` with `v = (i * 255) >> p` for
`n ≤ i < 2 ^ p`. -/
theorem ExtendPalette_rounding (dest src : Nat → ColorRegister) (n : Nat) (h1 : 1 ≤ n)
    (h256 : n ≤ 256) :
    1 ≤ (ExtendPalette dest src n).1 ∧ (ExtendPalette dest src n).1 ≤ 8 ∧
    n ≤ 2 ^ (ExtendPalette dest src n).1 ∧
    (∀ q, 1 ≤ q → n ≤ 2 ^ q → (ExtendPalette dest src n).1 ≤ q) ∧
    (∀ i, i < n → (ExtendPalette dest src n).2 i = src i) ∧
    (∀ i, n ≤ i → i < 2 ^ (ExtendPalette dest src n).1 →
      (ExtendPalette dest src n).2 i =
        ⟨(i * 255) >>> (ExtendPalette dest src n).1, (i * 255) >>> (ExtendPalette dest src n).1,
         (i * 255) >>> (ExtendPalette dest src n).1⟩) := by
  have hpos : ¬ ((n : Int) ≤ 0) := by omega
  obtain ⟨b1, b2, b3, b4⟩ := ExtendPaletteBits_spec (n : Int) 8 1 (by norm_num) (by norm_num)
  have hfst : (ExtendPalette dest src n).1 = ExtendPaletteBits (n : Int) 8 1 := by
    simp only [ExtendPalette, hpos, if_false]
  have hsnd : (ExtendPalette dest src n).2 =
      ExtendPaletteGray (ExtendPaletteBits (n : Int) 8 1) (2 ^ ExtendPaletteBits (n : Int) 8 1)
        (2 ^ ExtendPaletteBits (n : Int) 8 1)
        (ExtendPaletteCopy src n (2 ^ ExtendPaletteBits (n : Int) 8 1)
          (2 ^ ExtendPaletteBits (n : Int) 8 1) 0 dest).1
        (ExtendPaletteCopy src n (2 ^ ExtendPaletteBits (n : Int) 8 1)
          (2 ^ ExtendPaletteBits (n : Int) 8 1) 0 dest).2 := by
    simp only [ExtendPalette, hpos, if_false, Nat.shiftLeft_eq, one_mul]
  rw [hfst, hsnd]
  generalize ExtendPaletteBits (n : Int) 8 1 = p at b1 b2 b3 b4 ⊢
  have hn : n ≤ 2 ^ p := by
    rcases b3 with h | h
    · exact_mod_cast h
    · subst h; omega
  obtain ⟨c1, -, c3, -⟩ := ExtendPaletteCopy_spec src (n : Int) (2 ^ p) (2 ^ p) 0 dest
    (by omega) (by omega) (by omega)
  have hmin : min (n : Int) ((2 ^ p : Nat) : Int) = n := by
    apply min_eq_left; exact_mod_cast hn
  rw [hmin] at c1 c3
  have c1' : (ExtendPaletteCopy src (n : Int) (2 ^ p) (2 ^ p) 0 dest).1 = n := by
    exact_mod_cast c1
  rw [c1']
  obtain ⟨g1, g2, -⟩ := ExtendPaletteGray_spec p (2 ^ p) (2 ^ p) n
    (ExtendPaletteCopy src (n : Int) (2 ^ p) (2 ^ p) 0 dest).2 (by omega)
  refine ⟨b1, b2, hn, ?_, ?_, ?_⟩
  · intro q hq1 hq2
    by_contra hlt
    have := b4 q hq1 (by omega)
    have : (2 ^ q : Nat) < n := by exact_mod_cast this
    omega
  · intro i hi
    rw [g1 i hi]
    exact c3 i (by omega) (by exact_mod_cast hi)
  · intro i hi1 hi2
    exact g2 i hi1 hi2

/-- C10, at a concrete input: a source palette of 5 entries is rounded up to `2 ^ 3`. -/
theorem ExtendPalette_rounding_witness :
    (1 ≤ 5 ∧ 5 ≤ 256) ∧
    (ExtendPalette (fun _ => ⟨0, 0, 0⟩) (fun i => ⟨i, i, i⟩) (5 : Nat)).1 = 3 :=
  ⟨by decide, by
    have h := ExtendPalette_rounding (fun _ => ⟨0, 0, 0⟩) (fun i => ⟨i, i, i⟩) 5 (by decide)
      (by decide)
    have h3 := h.2.2.2.1 3 (by decide) (by decide)
    have h5 := h.2.2.1
    have h1 := h.1
    generalize (ExtendPalette (fun _ => ⟨0, 0, 0⟩) (fun i => ⟨i, i, i⟩) (5 : Nat)).1 = p at *
    interval_cases p <;> simp_all⟩

end Iff2Gif

namespace Iff2Gif

open GIFWriter GIFFrameQueue

/-- C11: header layout.  With a global palette depth `p`, `1 ≤ p ≤ 8` (what `ExtendPalette`
returns for a palette that is not empty), a file that opens and a stream with room for
the header, `WriteHeader(loop)` writes exactly the 6 bytes `GIF89a`, the 7 bytes of the
logical screen descriptor (width and height low byte first, the flags `0xF0 | (p - 1)`,
the background index, 0), the `2 ^ p` RGB triples of the global palette, and then the 19
bytes of the looping extension if and only if `loop` is set.  The table-size field
`b = p - 1` has `2 ^ (b + 1)` equal to the number of entries, and a source palette of 4
colours gives `p = 2`: 4 entries and `b = 1`. -/
theorem WriteHeader_layout (w : GIFWriter) (loop : Bool) (hopen : w.CanOpen = true)
    (hp1 : 1 ≤ w.GlobalPalBits) (hp8 : w.GlobalPalBits ≤ 8)
    (hroom : 6 + 7 + 3 * 2 ^ w.GlobalPalBits + (if loop then 19 else 0) ≤ w.Output.room) :
    (w.WriteHeader loop).Output.data =
      [71, 73, 70, 56, 57, 97] ++
        (word16 w.PageWidth ++ word16 w.PageHeight ++
          [0xF0 ||| (w.GlobalPalBits - 1), w.BkgColor, 0]) ++
        ((List.range (2 ^ w.GlobalPalBits)).flatMap fun i =>
          [(w.GlobalPal i).red, (w.GlobalPal i).green, (w.GlobalPal i).blue]) ++
        (if loop then
          [0x21, 0xFF, 0x0B, 78, 69, 84, 83, 67, 65, 80, 69, 50, 46, 48, 3, 1, 0, 0, 0]
         else []) ∧
    ((List.range (2 ^ w.GlobalPalBits)).flatMap fun i =>
      [(w.GlobalPal i).red, (w.GlobalPal i).green, (w.GlobalPal i).blue]).length =
        3 * 2 ^ w.GlobalPalBits ∧
    2 ^ (w.GlobalPalBits - 1 + 1) = 2 ^ w.GlobalPalBits ∧
    (∀ (dest src : Nat → ColorRegister) (n : Nat), 1 ≤ n →
      1 ≤ (ExtendPalette dest src n).1 ∧ (ExtendPalette dest src n).1 ≤ 8) ∧
    (∀ dest src : Nat → ColorRegister, (ExtendPalette dest src 4).1 = 2) := by
  have hlen := headerBytes_length w loop
  rw [if_pos (by omega)] at hlen
  rw [WriteHeader_ok w loop hopen hp8 (by omega)]
  refine ⟨?_, paletteBytes_length w.GlobalPal _, by rw [Nat.sub_add_cancel hp1], ?_, ?_⟩
  · show w.headerBytes loop = _
    unfold headerBytes WriteHeaderLSD
    rw [if_pos (by omega), if_pos (by omega)]
    rfl
  · intro dest src n hn
    have hpos : ¬ ((n : Int) ≤ 0) := by omega
    obtain ⟨b1, b2, -, -⟩ := ExtendPaletteBits_spec (n : Int) 8 1 (by norm_num) (by norm_num)
    have hfst : (ExtendPalette dest src n).1 = ExtendPaletteBits (n : Int) 8 1 := by
      simp only [ExtendPalette, hpos, if_false]
    rw [hfst]
    exact ⟨b1, b2⟩
  · intro dest src
    rfl

/-- C11, at a concrete input: a 1x1 canvas with a palette of two entries, black and white,
and no loop. -/
theorem WriteHeader_layout_witness :
    (Example.writerHeader.CanOpen = true ∧ 1 ≤ Example.writerHeader.GlobalPalBits ∧
      Example.writerHeader.GlobalPalBits ≤ 8) ∧
    (Example.writerHeader.WriteHeader false).Output.data =
      [71, 73, 70, 56, 57, 97, 1, 0, 1, 0, 0xF0, 0, 0, 0, 0, 0, 255, 255, 255] :=
  ⟨by decide, (WriteHeader_layout Example.writerHeader false rfl (by decide) (by decide)
    (by decide)).1⟩

end Iff2Gif

namespace Iff2Gif

open GIFWriter GIFFrameQueue

/-- C12: a single still image.  A writer as constructed, whose file opens and whose
stream has room, takes one frame without a transparent colour and with no trailing frame
to drop, and is destructed.  The stream then holds exactly the header without the looping
extension (`GIF89a`, the logical screen descriptor, the global palette when the frame has
one), `0x2C`, the 9 bytes of the image descriptor of the whole canvas, the LZW payload of
the whole frame and the trailer `0x3B`: no graphic control extension and one image
block.  `prev` is the previous-frame argument of `LZWCompress`, which is not read. -/
theorem single_still_image (QUEUE_SIZE : Nat) (hQ : 1 ≤ QUEUE_SIZE) (out : FILE)
    (bitmap : PlanarBitmap) (chunky prev : Nat → Nat) (hnt : bitmap.TransparentColor < 0)
    (hdrop : bitmap.Interleave = 0)
    (hroom : 6 + 7 + 768 + 1 + 9 +
      (LZWCompress [] ⟨0, 0, bitmap.Width, bitmap.Height, 0⟩ prev chunky bitmap.Width
        (bitmap.NumPlanes % 256) (-1)).length + 1 ≤ out.room) :
    (AddFrame QUEUE_SIZE { Output := out, CanOpen := true } bitmap chunky).destruct.Output.data =
      [71, 73, 70, 56, 57, 97] ++
        (word16 bitmap.Width ++ word16 bitmap.Height ++
          [if 0 < (ExtendPalette (fun _ => ⟨0, 0, 0⟩) bitmap.Palette bitmap.PaletteSize).1 then
              0xF0 ||| ((ExtendPalette (fun _ => ⟨0, 0, 0⟩) bitmap.Palette bitmap.PaletteSize).1 - 1)
            else 0, 0, 0]) ++
        (if 0 < (ExtendPalette (fun _ => ⟨0, 0, 0⟩) bitmap.Palette bitmap.PaletteSize).1 then
          paletteBytes (ExtendPalette (fun _ => ⟨0, 0, 0⟩) bitmap.Palette bitmap.PaletteSize).2
            (2 ^ (ExtendPalette (fun _ => ⟨0, 0, 0⟩) bitmap.Palette bitmap.PaletteSize).1)
         else []) ++
        [0x2C] ++ ImageDescriptor.bytes ⟨0, 0, bitmap.Width, bitmap.Height, 0⟩ ++
        LZWCompress [] ⟨0, 0, bitmap.Width, bitmap.Height, 0⟩ prev chunky bitmap.Width
          (bitmap.NumPlanes % 256) (-1) ++
        [0x3B] := by
  have hprev := LZWCompress_prev [] ⟨0, 0, bitmap.Width, bitmap.Height, 0⟩ prev (fun _ => 0)
    chunky bitmap.Width (bitmap.NumPlanes % 256) (-1) (by decide)
  rw [hprev] at hroom ⊢
  have hnew : MakeFrameNew bitmap =
      { GCE := {}, IMD := ⟨0, 0, bitmap.Width, bitmap.Height, 0⟩, LZW := [] } := by
    unfold MakeFrameNew
    rw [if_neg (by omega)]
  have hp8 := ExtendPalette_le (fun _ => ⟨0, 0, 0⟩) bitmap.Palette bitmap.PaletteSize
  rw [AddFrame_first QUEUE_SIZE hQ out bitmap chunky hnt, hnew]
  generalize hL : LZWCompress [] ⟨0, 0, bitmap.Width, bitmap.Height, 0⟩ (fun _ => 0) chunky
    bitmap.Width (bitmap.NumPlanes % 256) (-1) = L at hroom ⊢
  generalize hpal : ExtendPalette (fun _ => ⟨0, 0, 0⟩) bitmap.Palette bitmap.PaletteSize = pal
    at hp8 ⊢
  have hpow : 2 ^ pal.1 ≤ 256 := by
    calc 2 ^ pal.1 ≤ 2 ^ 8 := Nat.pow_le_pow_right (by norm_num) hp8
      _ = 256 := by norm_num
  rw [destruct_single _ { GCE := {}, IMD := ⟨0, 0, bitmap.Width, bitmap.Height, 0⟩, LZW := L }
    rfl rfl hp8 rfl hdrop (by
      rw [headerBytes_length, GIFFrame_bytes_length]
      simp only [Bool.false_eq_true, if_false]
      split <;> simp <;> omega)]
  simp [headerBytes, WriteHeaderLSD, GIFFrame.bytes, List.append_assoc]

/-- C12, at a concrete input: one frame of 2x1 pixels `0 1` with the palette black,
white, into a stream with room for 2000 bytes. -/
theorem single_still_image_witness :
    (1 ≤ 2 ∧ Example.still2x1.TransparentColor < 0 ∧ Example.still2x1.Interleave = 0) ∧
    (AddFrame 2 { Output := ⟨[], 2000⟩, CanOpen := true } Example.still2x1
        (fun i => i)).destruct.Output.data =
      [71, 73, 70, 56, 57, 97, 2, 0, 1, 0, 0xF0, 0, 0, 0, 0, 0, 255, 255, 255,
        0x2C, 0, 0, 0, 0, 2, 0, 1, 0, 0] ++
        LZWCompress [] ⟨0, 0, 2, 1, 0⟩ (fun _ => 0) (fun i => i) 2 1 (-1) ++ [0x3B] :=
  ⟨by decide, single_still_image 2 (by decide) ⟨[], 2000⟩ Example.still2x1 (fun i => i)
    (fun _ => 0) (by decide) rfl (by decide)⟩

end Iff2Gif

namespace Iff2Gif

open GIFWriter GIFFrameQueue

/-- C13: frame serialization.  On an open stream with room for the frame, `GIFFrame::Write`
returns true and appends the 8 bytes of the graphic control extension if and only if the
flags byte or the delay time of the frame is not zero, then `0x2C`, the 9 bytes of the
image descriptor and the LZW payload of the frame unchanged, in that order. -/
theorem GIFFrame_Write_layout (f : GIFFrame) (out : FILE)
    (hroom : (if f.GCE.Flags ≠ 0 ∨ f.GCE.DelayTime ≠ 0 then 8 else 0) + 1 + 9 + f.LZW.length
      ≤ out.room) :
    (f.Write true out).1 = true ∧
    (f.Write true out).2.data =
      out.data ++ (if f.GCE.Flags ≠ 0 ∨ f.GCE.DelayTime ≠ 0 then f.GCE.bytes else []) ++
        [0x2C] ++ f.IMD.bytes ++ f.LZW ∧
    f.GCE.bytes.length = 8 ∧ f.IMD.bytes.length = 9 := by
  have hlen := GIFFrame_bytes_length f
  rw [Write_ok f out (by omega)]
  refine ⟨rfl, ?_, GCE_bytes_length _, IMD_bytes_length _⟩
  simp [GIFFrame.bytes, List.append_assoc]

/-- C13, at a concrete input: a frame with the transparency flag set, the rectangle
`(1, 2, 3, 4)` and the payload `2 1 0`, written behind the byte `9`. -/
theorem GIFFrame_Write_layout_witness :
    (8 + 1 + 9 + 3 ≤ 100) ∧
    (Example.frameT.Write true ⟨[9], 100⟩).2.data =
      [9, 0x21, 0xF9, 4, 1, 0, 0, 5, 0, 0x2C, 1, 0, 2, 0, 3, 0, 4, 0, 0, 2, 1, 0] :=
  ⟨by decide, (GIFFrame_Write_layout Example.frameT ⟨[9], 100⟩ (by decide)).2.1⟩

end Iff2Gif

namespace Iff2Gif

open GIFWriter GIFFrameQueue

/-- C14: bounded FIFO enqueue.  For a queue of at most `QUEUE_SIZE` frames
(`QUEUE_SIZE ≥ 1`): with fewer than `QUEUE_SIZE` frames, `Enqueue(g)` writes nothing and
appends `g` behind the frames queued; with exactly `QUEUE_SIZE` frames `f0, rest`, it
writes exactly `f0` and leaves `rest, g`.  So `QueueCount` stays at most `QUEUE_SIZE`, and
a run of `Enqueue` calls on an open stream with room sends the frames to the stream in the
order they were enqueued: the stream holds the oldest ones and the queue the others. -/
theorem Enqueue_fifo (QUEUE_SIZE : Nat) (hQ : 1 ≤ QUEUE_SIZE) (q : GIFFrameQueue)
    (out : FILE) (g : GIFFrame) (hle : q.QueueCount ≤ QUEUE_SIZE) :
    (q.QueueCount < QUEUE_SIZE →
      q.Enqueue QUEUE_SIZE out g = (true, { q with Queue := q.Queue ++ [g] }, out)) ∧
    (q.QueueCount = QUEUE_SIZE → ∃ f0 rest, q.Queue = f0 :: rest ∧
      q.Enqueue QUEUE_SIZE out g =
        ((f0.Write q.File out).1, { q with Queue := rest ++ [g] }, (f0.Write q.File out).2)) ∧
    (q.Enqueue QUEUE_SIZE out g).2.1.QueueCount ≤ QUEUE_SIZE ∧
    (∀ gs : List GIFFrame, q.File = true →
      ((q.Queue ++ gs).flatMap GIFFrame.bytes).length ≤ out.room →
      (q.EnqueueAll QUEUE_SIZE out gs).1.Queue =
          (q.Queue ++ gs).drop (q.Queue.length + gs.length - QUEUE_SIZE) ∧
      (q.EnqueueAll QUEUE_SIZE out gs).2.data =
          out.data ++
            ((q.Queue ++ gs).take (q.Queue.length + gs.length - QUEUE_SIZE)).flatMap
              GIFFrame.bytes) := by
  have hle' : q.Queue.length ≤ QUEUE_SIZE := hle
  have hfull : q.QueueCount = QUEUE_SIZE → ∃ f0 rest, q.Queue = f0 :: rest ∧
      q.Enqueue QUEUE_SIZE out g =
        ((f0.Write q.File out).1, { q with Queue := rest ++ [g] }, (f0.Write q.File out).2) := by
    intro heq
    have heq' : q.Queue.length = QUEUE_SIZE := heq
    cases hq : q.Queue with
    | nil => rw [hq] at heq'; simp at heq'; omega
    | cons f0 rest => exact ⟨f0, rest, rfl, Enqueue_full QUEUE_SIZE q out g f0 rest hq heq⟩
  refine ⟨Enqueue_room QUEUE_SIZE q out g, hfull, ?_,
    fun gs hf hr => EnqueueAll_ok QUEUE_SIZE hQ gs q out hle hf hr⟩
  by_cases hlt : q.QueueCount < QUEUE_SIZE
  · have hlt' : q.Queue.length < QUEUE_SIZE := hlt
    rw [Enqueue_room QUEUE_SIZE q out g hlt]
    show (q.Queue ++ [g]).length ≤ QUEUE_SIZE
    simp; omega
  · obtain ⟨f0, rest, hq, he⟩ := hfull (by omega)
    rw [he]
    show (rest ++ [g]).length ≤ QUEUE_SIZE
    rw [hq] at hle'
    simpa using hle'

/-- C14, at a concrete input: a full queue of two frames with payloads `1` and `2` on an
open stream; enqueueing the frame with payload `3` writes the first one and leaves the
other two. -/
theorem Enqueue_fifo_witness :
    (1 ≤ 2 ∧ Example.queue2.QueueCount ≤ 2) ∧
    (Example.queue2.Enqueue 2 ⟨[], 100⟩ { LZW := [3] }).2.1.QueueCount ≤ 2 ∧
    (Example.queue2.EnqueueAll 2 ⟨[], 100⟩ [{ LZW := [3] }]).2.data =
      [0x2C, 0, 0, 0, 0, 0, 0, 0, 0, 0, 1] :=
  ⟨by decide, (Enqueue_fifo 2 (by decide) Example.queue2 ⟨[], 100⟩ { LZW := [3] }
    (by decide)).2.2.1, ((Enqueue_fifo 2 (by decide) Example.queue2 ⟨[], 100⟩ { LZW := [3] }
    (by decide)).2.2.2 [{ LZW := [3] }] rfl (by decide)).2⟩

end Iff2Gif

namespace Iff2Gif

open GIFWriter GIFFrameQueue

/-- C15: the final flush drops the trailing frames.  With `q` frames queued,
`FinalFramesToDrop = d` and an open stream with room, `Flush` returns true, writes exactly
the first `q - d` frames (none when `d ≥ q`) in queue order, writes none of the last
`min d q` frames, and leaves the queue empty. -/
theorem Flush_drops (q : GIFFrameQueue) (out : FILE) (hfile : q.File = true)
    (hroom : ((q.Queue.take (q.QueueCount - q.FinalFramesToDrop)).flatMap GIFFrame.bytes).length
      ≤ out.room) :
    (q.Flush out).1 = true ∧
    (q.Flush out).2.1.QueueCount = 0 ∧
    (q.Flush out).2.2.data =
      out.data ++ (q.Queue.take (q.QueueCount - q.FinalFramesToDrop)).flatMap GIFFrame.bytes ∧
    (q.Queue.take (q.QueueCount - q.FinalFramesToDrop)).length =
      q.QueueCount - q.FinalFramesToDrop ∧
    (q.Queue.drop (q.QueueCount - q.FinalFramesToDrop)).length =
      min q.FinalFramesToDrop q.QueueCount := by
  unfold Flush
  rw [hfile, FlushLoop_ok _ out hroom]
  refine ⟨rfl, rfl, rfl, ?_, ?_⟩
  · simp [QueueCount]
  · simp [QueueCount]; omega

/-- C15, at a concrete input: two frames with the payloads `1` and `2` queued and one
frame to drop; `Flush` writes the first frame only. -/
theorem Flush_drops_witness :
    (Example.queue2drop.File = true ∧ 11 ≤ 100) ∧
    (Example.queue2drop.Flush ⟨[], 100⟩).2.2.data = [0x2C, 0, 0, 0, 0, 0, 0, 0, 0, 0, 1] :=
  ⟨by decide, (Flush_drops Example.queue2drop ⟨[], 100⟩ rfl (by decide)).2.2.1⟩

end Iff2Gif

namespace Iff2Gif

open GIFWriter GIFFrameQueue

/-- C16: fail-soft writes.  `BadWrite` leaves both `File` pointers `NULL`.  For a writer in
that state, `GIFFrame::Write`, `Enqueue` and `Flush` return true and leave the stream as it
is, for every frame and every queue content; so `MakeFrame` does not reach `BadWrite`
again, still builds the frame and queues it, and every later `AddFrame` and the destructor
append nothing to the stream. -/
theorem fail_soft (QUEUE_SIZE : Nat) (w : GIFWriter) (hw : w.File = false)
    (hq : w.WriteQueue.File = false) :
    (∀ w0 : GIFWriter, w0.BadWrite.File = false ∧ w0.BadWrite.WriteQueue.File = false ∧
      w0.BadWrite.Output = w0.Output) ∧
    (∀ (f : GIFFrame) (out : FILE), f.Write w.File out = (true, out)) ∧
    (∀ (g : GIFFrame) (out : FILE), (w.WriteQueue.Enqueue QUEUE_SIZE out g).1 = true ∧
      (w.WriteQueue.Enqueue QUEUE_SIZE out g).2.2 = out) ∧
    (∀ out : FILE, (w.WriteQueue.Flush out).1 = true ∧ (w.WriteQueue.Flush out).2.2 = out) ∧
    (∀ (bitmap : PlanarBitmap) (chunky : Nat → Nat),
      (w.MakeFrame QUEUE_SIZE bitmap chunky).Output = w.Output ∧
      (w.MakeFrame QUEUE_SIZE bitmap chunky).File = false ∧
      (w.MakeFrame QUEUE_SIZE bitmap chunky).WriteQueue.File = false ∧
      (w.MakeFrame QUEUE_SIZE bitmap chunky).WriteQueue.MostRecent =
        some (w.MakeFrameFrame bitmap chunky)) ∧
    (2 ≤ w.FrameCount →
      (∀ (bitmap : PlanarBitmap) (chunky : Nat → Nat),
        (w.AddFrame QUEUE_SIZE bitmap chunky).Output = w.Output ∧
        (w.AddFrame QUEUE_SIZE bitmap chunky).File = false ∧
        (w.AddFrame QUEUE_SIZE bitmap chunky).WriteQueue.File = false ∧
        (w.AddFrame QUEUE_SIZE bitmap chunky).FrameCount = w.FrameCount + 1) ∧
      w.destruct.Output = w.Output) := by
  refine ⟨fun w0 => ⟨rfl, rfl, rfl⟩, fun f out => by rw [hw]; exact Write_closed f out,
    fun g out => ?_, fun out => ?_, fun bitmap chunky => ?_, fun h2 => ⟨fun bitmap chunky => ?_, ?_⟩⟩
  · obtain ⟨e1, e2, -⟩ := Enqueue_closed QUEUE_SIZE w.WriteQueue out g hq
    exact ⟨e1, e2⟩
  · obtain ⟨e1, e2, -⟩ := Flush_closed w.WriteQueue out hq
    exact ⟨e1, e2⟩
  · obtain ⟨e1, e2, e3, -⟩ := MakeFrame_closed QUEUE_SIZE w bitmap chunky hw hq
    exact ⟨e1, e2, e3, MakeFrame_MostRecent QUEUE_SIZE w bitmap chunky⟩
  · unfold AddFrame
    simp only
    rw [if_neg (show ¬ w.FrameCount = 0 by omega), if_neg (show ¬ w.FrameCount = 1 by omega)]
    by_cases hr : bitmap.Rate > 0
    · rw [if_pos hr]
      obtain ⟨e1, e2, e3, e4⟩ := MakeFrame_closed QUEUE_SIZE
        ({ w with FrameRate := bitmap.Rate } : GIFWriter) bitmap chunky hw hq
      exact ⟨e1, e2, e3, by rw [e4]⟩
    · rw [if_neg hr]
      obtain ⟨e1, e2, e3, e4⟩ := MakeFrame_closed QUEUE_SIZE w bitmap chunky hw hq
      exact ⟨e1, e2, e3, by rw [e4]⟩
  · unfold destruct
    simp only
    rw [if_neg (show ¬ w.FrameCount = 1 by omega)]
    simp only [hw, Bool.false_eq_true, if_false]
    exact (Flush_closed w.WriteQueue w.Output hq).2.1

/-- C16, at a concrete input: a writer whose stream failed after two bytes, with two
frames taken; the next frame and the destructor leave the two bytes as they are. -/
theorem fail_soft_witness :
    (Example.writerFailed.File = false ∧ Example.writerFailed.WriteQueue.File = false ∧
      2 ≤ Example.writerFailed.FrameCount) ∧
    (Example.writerFailed.AddFrame 2 Example.bitmap2x1 Example.chunky10).Output.data = [71, 73] ∧
    Example.writerFailed.destruct.Output.data = [71, 73] :=
  ⟨by decide,
    congrArg FILE.data (((fail_soft 2 Example.writerFailed rfl rfl).2.2.2.2.2 (by decide)).1
      Example.bitmap2x1 Example.chunky10).1,
    congrArg FILE.data ((fail_soft 2 Example.writerFailed rfl rfl).2.2.2.2.2 (by decide)).2⟩

end Iff2Gif

namespace Iff2Gif

open GIFWriter GIFFrameQueue

/-- C17: the synthetic colour search.  Call a colour used when some pixel of the
rectangle differs between `prev` and `now` and has that colour in `now`.
`SelectTransparentColor` returns either a colour `c` below 256 and below
`2 ^ GlobalPalBits` that is not used while every lower colour is, or -1, and then every
colour below 256 and below `2 ^ GlobalPalBits` is used.  So a result that is not negative
is inside the active palette and is not the value of a changed pixel of the rectangle. -/
theorem SelectTransparentColor_lowest (w : GIFWriter) (prev now : Nat → Nat)
    (imd : ImageDescriptor) (pitch : Nat) :
    (w.SelectTransparentColor prev now imd pitch = -1 ∧
      ∀ c, c < 256 → c < 2 ^ w.GlobalPalBits →
        ∃ y x, y < imd.Height ∧ x < imd.Width ∧
          prev (imd.Left + imd.Top * pitch + y * pitch + x) ≠
            now (imd.Left + imd.Top * pitch + y * pitch + x) ∧
          now (imd.Left + imd.Top * pitch + y * pitch + x) = c) ∨
    (∃ c : Nat, w.SelectTransparentColor prev now imd pitch = (c : Int) ∧ c < 256 ∧
      c < 2 ^ w.GlobalPalBits ∧
      (¬ ∃ y x, y < imd.Height ∧ x < imd.Width ∧
          prev (imd.Left + imd.Top * pitch + y * pitch + x) ≠
            now (imd.Left + imd.Top * pitch + y * pitch + x) ∧
          now (imd.Left + imd.Top * pitch + y * pitch + x) = c) ∧
      ∀ c', c' < c →
        ∃ y x, y < imd.Height ∧ x < imd.Width ∧
          prev (imd.Left + imd.Top * pitch + y * pitch + x) ≠
            now (imd.Left + imd.Top * pitch + y * pitch + x) ∧
          now (imd.Left + imd.Top * pitch + y * pitch + x) = c') := by
  obtain ⟨hused, hmark⟩ := Mark_spec prev now imd pitch
  unfold SelectTransparentColor
  rcases Find_spec (SelectTransparentColorMark prev now imd pitch) w.GlobalPalBits hused
    (256 / 8) 0 with ⟨k, j, -, hk, h255, hj, hf, hall, he⟩ | ⟨h255, he⟩
  · have hk32 : k < 32 := by omega
    have hlow : ∀ c', c' < 8 * k + j →
        ∃ y x, y < imd.Height ∧ x < imd.Width ∧
          prev (imd.Left + imd.Top * pitch + y * pitch + x) ≠
            now (imd.Left + imd.Top * pitch + y * pitch + x) ∧
          now (imd.Left + imd.Top * pitch + y * pitch + x) = c' := by
      intro c' hc'
      rw [← hmark]
      by_cases hlt : c' / 8 < k
      · rw [h255 _ (Nat.zero_le _) hlt]
        exact testBit_255 _ (Nat.mod_lt _ (by norm_num))
      · have hdiv : c' / 8 = k := by omega
        rw [hdiv]
        exact hall _ (by omega)
    have hnot : ¬ ∃ y x, y < imd.Height ∧ x < imd.Width ∧
          prev (imd.Left + imd.Top * pitch + y * pitch + x) ≠
            now (imd.Left + imd.Top * pitch + y * pitch + x) ∧
          now (imd.Left + imd.Top * pitch + y * pitch + x) = 8 * k + j := by
      rw [← hmark, show (8 * k + j) / 8 = k by omega, show (8 * k + j) % 8 = j by omega, hf]
      simp
    by_cases hP : 8 * k + j < 2 ^ w.GlobalPalBits
    · right
      rw [if_pos hP] at he
      exact ⟨8 * k + j, he, by omega, hP, hnot, hlow⟩
    · left
      rw [if_neg hP] at he
      exact ⟨he, fun c _ hc => hlow c (by omega)⟩
  · left
    refine ⟨he, ?_⟩
    intro c hc _
    rw [← hmark, h255 _ (Nat.zero_le _) (by omega)]
    exact testBit_255 _ (Nat.mod_lt _ (by norm_num))

end Iff2Gif

namespace Iff2Gif

open GIFWriter GIFFrameQueue

/-- C18 (the code departs from the claim).  A stream of two frames of 2x1 pixels with the
transparent colour 0: the pixels `1 1`, then `1 0`.  For the second frame `SelectDisposal`
returns 2 (restore to background), and `MakeFrame` still goes on with the substitution
colour 0 and not with -1, so `LZWCompress` runs with the substitution and again
without: the test of line 238 looks for the disposal in the flags of the new frame, under
the mask `0x1C0`, where it never is. -/
theorem MakeFrame_restore_substitutes :
    GIFWriter.AddFrame 2 Example.writerA Example.bitmap2x1 Example.chunky10 =
      { Example.writerB.MakeFrame 2 Example.bitmap2x1 Example.chunky10 with FrameCount := 2 } ∧
    (Example.writerB.SelectDisposal Example.bitmap2x1 (MakeFrameNew Example.bitmap2x1).IMD
      Example.chunky10).1 = 2 ∧
    (Example.writerB.MakeFrameChoice Example.bitmap2x1 Example.chunky10).1 = 0 ∧
    (Example.writerB.MakeFrameChoice Example.bitmap2x1 Example.chunky10).1 ≠ -1 ∧
    (MakeFrameNew Example.bitmap2x1).GCE.Flags &&& 0x1C0 ≠ 0x80 :=
  ⟨rfl, by decide, by decide, by decide, by decide⟩

end Iff2Gif

namespace Iff2Gif

open GIFWriter GIFFrameQueue

/-- C19: background restore blanks the canvas model.  For every writer, bitmap and
rectangle `SelectDisposal` returns 1 or 2.  When it returns 1 it leaves the writer, and so
the previous-frame buffer, as it is; when it returns 2, every byte of the
`Width * Height` previous-frame buffer is the transparent colour `t` afterwards.  In
`MakeFrame`, which calls it with the full frame when a frame is queued, the buffer
`MakeFrame` goes on with is the one it leaves: unchanged after 1, and after 2 blank, so
that the rectangle `MakeFrame` then encodes is the bounding box of the pixels of the new
frame other than `t`: it holds every such pixel, its first and its last row and its first
and its last column each hold one, and it is the 1x1 rectangle at the origin when there
is none. -/
theorem SelectDisposal_blank (w : GIFWriter) (bitmap : PlanarBitmap) (chunky : Nat → Nat) :
    (∀ imd, (w.SelectDisposal bitmap imd chunky).1 = 1 ∨
      (w.SelectDisposal bitmap imd chunky).1 = 2) ∧
    (∀ imd, (w.SelectDisposal bitmap imd chunky).1 = 1 →
      (w.SelectDisposal bitmap imd chunky).2 = w) ∧
    (∀ imd, (w.SelectDisposal bitmap imd chunky).1 = 2 →
      ∃ blank, (w.SelectDisposal bitmap imd chunky).2.PrevFrame = some blank ∧
        ∀ i, i < bitmap.Width * bitmap.Height →
          blank i = (bitmap.TransparentColor % 256).toNat) ∧
    (∀ old, w.WriteQueue.MostRecent = some old →
      ((w.SelectDisposal bitmap (MakeFrameNew bitmap).IMD chunky).1 = 1 →
        (w.MakeFramePatched bitmap chunky).PrevFrame = w.PrevFrame) ∧
      ((w.SelectDisposal bitmap (MakeFrameNew bitmap).IMD chunky).1 = 2 →
        (∃ blank, (w.MakeFramePatched bitmap chunky).PrevFrame = some blank ∧
          ∀ i, i < bitmap.Width * bitmap.Height →
            blank i = (bitmap.TransparentColor % 256).toNat) ∧
        ((∀ i, i < bitmap.Width * bitmap.Height →
            chunky i = (bitmap.TransparentColor % 256).toNat) →
          (w.MakeFrameRect bitmap chunky).IMD = ⟨0, 0, 1, 1, 0⟩) ∧
        ((∃ i, i < bitmap.Width * bitmap.Height ∧
            chunky i ≠ (bitmap.TransparentColor % 256).toNat) →
          ∃ top bot left right : Nat,
            (w.MakeFrameRect bitmap chunky).IMD =
              ⟨left, top, right - left + 1, bot - top + 1, 0⟩ ∧
            top ≤ bot ∧ bot < bitmap.Height ∧ left ≤ right ∧ right < bitmap.Width ∧
            (∀ x y, x < bitmap.Width → y < bitmap.Height →
              chunky (y * bitmap.Width + x) ≠ (bitmap.TransparentColor % 256).toNat →
              top ≤ y ∧ y ≤ bot ∧ left ≤ x ∧ x ≤ right) ∧
            (∃ x, x < bitmap.Width ∧
              chunky (top * bitmap.Width + x) ≠ (bitmap.TransparentColor % 256).toNat) ∧
            (∃ x, x < bitmap.Width ∧
              chunky (bot * bitmap.Width + x) ≠ (bitmap.TransparentColor % 256).toNat) ∧
            (∃ y, top ≤ y ∧ y ≤ bot ∧
              chunky (y * bitmap.Width + left) ≠ (bitmap.TransparentColor % 256).toNat) ∧
            (∃ y, top ≤ y ∧ y ≤ bot ∧
              chunky (y * bitmap.Width + right) ≠ (bitmap.TransparentColor % 256).toNat)))) := by
  refine ⟨fun imd => (SelectDisposal_result w bitmap imd chunky).1, ?_, ?_, ?_⟩
  · intro imd h1
    rw [(SelectDisposal_result w bitmap imd chunky).2.1 h1]
  · intro imd h2
    obtain ⟨h0, prev, -, -, hpf⟩ := (SelectDisposal_result w bitmap imd chunky).2.2.2 h2
    exact ⟨_, hpf, fun i hi => memset_blank prev _ h0 _ i hi⟩
  · intro old hq
    have hpatched := MakeFramePatched_PrevFrame w bitmap chunky old hq
    constructor
    · intro h1
      rw [hpatched, (SelectDisposal_result w bitmap (MakeFrameNew bitmap).IMD chunky).2.1 h1]
    · intro hdisp
      obtain ⟨h0, prev, -, -, hpf⟩ :=
        (SelectDisposal_result w bitmap (MakeFrameNew bitmap).IMD chunky).2.2.2 hdisp
      have hblank : ∀ i, i < bitmap.Width * bitmap.Height →
          memset prev bitmap.TransparentColor.toNat (bitmap.Width * bitmap.Height) i =
            (bitmap.TransparentColor % 256).toNat :=
        fun i hi => memset_blank prev _ h0 _ i hi
      rw [hpf] at hpatched
      obtain ⟨hrect, -⟩ := MakeFrameRect_IMD w bitmap chunky
      rw [hpatched] at hrect
      simp only at hrect
      obtain ⟨b1, b2⟩ := MinimumArea_blank bitmap.Width bitmap.Height
        (bitmap.TransparentColor % 256).toNat
        (memset prev bitmap.TransparentColor.toNat (bitmap.Width * bitmap.Height)) chunky hblank
      refine ⟨⟨_, hpatched, hblank⟩, ?_, ?_⟩
      · intro hall
        rw [hrect]
        exact b1 hall
      · intro hex
        rw [hrect]
        exact b2 hex

/-- C19, at concrete inputs: after the pixels `1 1` the frame `1 0` with the transparent
colour 0 arrives; `SelectDisposal` returns 2, the buffer `MakeFrame` goes on with is blank,
and the rectangle encoded is the left pixel alone.  When the frame `1 1` arrives instead,
`SelectDisposal` returns 1 and the buffer is left as it is. -/
theorem SelectDisposal_blank_witness :
    (Example.writerB.WriteQueue.MostRecent = some Example.frameA ∧
      (Example.writerB.SelectDisposal Example.bitmap2x1 (MakeFrameNew Example.bitmap2x1).IMD
        Example.chunky10).1 = 2 ∧
      (Example.writerB.SelectDisposal Example.bitmap2x1 (MakeFrameNew Example.bitmap2x1).IMD
        Example.chunky11).1 = 1) ∧
    (∃ blank,
      (Example.writerB.MakeFramePatched Example.bitmap2x1 Example.chunky10).PrevFrame =
        some blank ∧
      ∀ i, i < Example.bitmap2x1.Width * Example.bitmap2x1.Height →
        blank i = (Example.bitmap2x1.TransparentColor % 256).toNat) ∧
    (Example.writerB.MakeFrameRect Example.bitmap2x1 Example.chunky10).IMD = ⟨0, 0, 1, 1, 0⟩ ∧
    (Example.writerB.MakeFramePatched Example.bitmap2x1 Example.chunky11).PrevFrame =
      Example.writerB.PrevFrame :=
  ⟨⟨by decide, by decide, by decide⟩,
    ((SelectDisposal_blank Example.writerB Example.bitmap2x1 Example.chunky10).2.2.2
      Example.frameA (by decide)).2 (by decide) |>.1,
    by decide,
    ((SelectDisposal_blank Example.writerB Example.bitmap2x1 Example.chunky11).2.2.2
      Example.frameA (by decide)).1 (by decide)⟩

end Iff2Gif

namespace Iff2Gif

open GIFWriter GIFFrameQueue CodeStream

/-- C20: the substitution is visually lossless.  For a frame of at least one pixel, with a
frame queued, when `MakeFrame` calls `LZWCompress` with a substitution colour `t ≥ 0`
(the transparent colour of the bitmap or a synthetic one): `t` is a byte, the stream
`LZWCompress` encodes has, at every pixel of the rectangle, the new pixel where it
differs from the previous-frame buffer and `t` where it does not; no pixel of the
rectangle that differs has the value `t`, so the stream carries `t` exactly at the
unchanged pixels, and laying the stream over the previous-frame buffer with `t`
transparent gives the new frame at every pixel of the rectangle. -/
theorem substitution_lossless (w : GIFWriter) (bitmap : PlanarBitmap) (chunky : Nat → Nat)
    (old : GIFFrame) (hW : 1 ≤ bitmap.Width) (hH : 1 ≤ bitmap.Height)
    (hq : w.WriteQueue.MostRecent = some old)
    (htrans : 0 ≤ (w.MakeFrameChoice bitmap chunky).1) :
    ∃ (prevFrame : Nat → Nat) (t : Nat),
      (w.MakeFramePatched bitmap chunky).PrevFrame = some prevFrame ∧
      (w.MakeFrameChoice bitmap chunky).1 = (t : Int) ∧ t < 256 ∧
      w.MakeFrameTry bitmap chunky (w.MakeFrameChoice bitmap chunky).1 =
        ((LZWCompressInput (w.MakeFrameRect bitmap chunky).IMD prevFrame chunky bitmap.Width
            (w.MakeFrameChoice bitmap chunky).1).foldl AddByte
          (construct (if bitmap.NumPlanes % 256 < 2 then 2 else bitmap.NumPlanes % 256)
            [if bitmap.NumPlanes % 256 < 2 then 2 else bitmap.NumPlanes % 256])).destruct.Codes ∧
      LZWCompressInput (w.MakeFrameRect bitmap chunky).IMD prevFrame chunky bitmap.Width
          (w.MakeFrameChoice bitmap chunky).1 =
        ((List.range (w.MakeFrameRect bitmap chunky).IMD.Height).flatMap fun y =>
          (List.range (w.MakeFrameRect bitmap chunky).IMD.Width).map fun x =>
            if prevFrame ((w.MakeFrameRect bitmap chunky).IMD.Left +
                  (w.MakeFrameRect bitmap chunky).IMD.Top * bitmap.Width + y * bitmap.Width + x) ≠
                chunky ((w.MakeFrameRect bitmap chunky).IMD.Left +
                  (w.MakeFrameRect bitmap chunky).IMD.Top * bitmap.Width + y * bitmap.Width + x)
            then chunky ((w.MakeFrameRect bitmap chunky).IMD.Left +
                  (w.MakeFrameRect bitmap chunky).IMD.Top * bitmap.Width + y * bitmap.Width + x)
            else t) ∧
      ∀ y x, y < (w.MakeFrameRect bitmap chunky).IMD.Height →
        x < (w.MakeFrameRect bitmap chunky).IMD.Width →
        ∀ i, i = (w.MakeFrameRect bitmap chunky).IMD.Left +
            (w.MakeFrameRect bitmap chunky).IMD.Top * bitmap.Width + y * bitmap.Width + x →
          (prevFrame i ≠ chunky i → chunky i ≠ t) ∧
          ((if prevFrame i ≠ chunky i then chunky i else t) = t ↔ prevFrame i = chunky i) ∧
          (if (if prevFrame i ≠ chunky i then chunky i else t) = t then prevFrame i
            else (if prevFrame i ≠ chunky i then chunky i else t)) = chunky i := by
  obtain ⟨prevFrame, hP, hfc, hcase⟩ := MakeFrameChoice_cases w bitmap chunky htrans
  obtain ⟨hrect, -⟩ := MakeFrameRect_IMD w bitmap chunky
  rw [hP] at hrect
  simp only at hrect
  obtain ⟨hin1, hin2⟩ := MinimumArea_inside bitmap.Width bitmap.Height hW hH prevFrame chunky
  rw [← hrect] at hin1 hin2
  -- the colour, and that no changed pixel of the rectangle has it
  have hkey : ∃ t : Nat, (w.MakeFrameChoice bitmap chunky).1 = (t : Int) ∧ t < 256 ∧
      ∀ y x, y < (w.MakeFrameRect bitmap chunky).IMD.Height →
        x < (w.MakeFrameRect bitmap chunky).IMD.Width →
        prevFrame ((w.MakeFrameRect bitmap chunky).IMD.Left +
            (w.MakeFrameRect bitmap chunky).IMD.Top * bitmap.Width + y * bitmap.Width + x) ≠
          chunky ((w.MakeFrameRect bitmap chunky).IMD.Left +
            (w.MakeFrameRect bitmap chunky).IMD.Top * bitmap.Width + y * bitmap.Width + x) →
        chunky ((w.MakeFrameRect bitmap chunky).IMD.Left +
            (w.MakeFrameRect bitmap chunky).IMD.Top * bitmap.Width + y * bitmap.Width + x) ≠ t := by
    rcases hcase with ⟨h0, he⟩ | ⟨hneg, he⟩
    · refine ⟨(bitmap.TransparentColor % 256).toNat, he, by omega, ?_⟩
      intro y x hy hx hd hc
      obtain ⟨e, hty, hlx, hidx⟩ := rect_index bitmap.Width bitmap.Height _ _ _ _ y x hin1 hin2
        hy hx
      have hpatched := MakeFramePatched_PrevFrame w bitmap chunky old hq
      rw [hP] at hpatched
      obtain ⟨hor, r1, r1s, r2⟩ := SelectDisposal_result w bitmap (MakeFrameNew bitmap).IMD chunky
      rcases hor with h1 | h2
      · -- the preceding frame is kept: no pixel turns transparent
        rw [r1 h1] at hpatched
        have hs := r1s h1 h0 prevFrame hpatched.symm
        have hs' : ¬ SelectDisposalScan prevFrame chunky (MakeFrameNew bitmap).IMD bitmap.Width
            (bitmap.TransparentColor % 256).toNat = true := by rw [hs]; simp
        rw [SelectDisposalScan_iff, (MakeFrameNew_IMD bitmap).1] at hs'
        apply hs'
        refine ⟨(w.MakeFrameRect bitmap chunky).IMD.Top + y,
          (w.MakeFrameRect bitmap chunky).IMD.Left + x, hty, hlx, ?_, ?_⟩
        · simp only [Nat.zero_add, Nat.zero_mul]
          rw [← e, ← hc]
          exact hd
        · simp only [Nat.zero_add, Nat.zero_mul]
          rw [← e]
          exact hc
      · -- the preceding frame is disposed: the buffer holds the transparent colour
        obtain ⟨-, prev, -, -, hpf⟩ := r2 h2
        rw [hpf] at hpatched
        have hpe : prevFrame = memset prev bitmap.TransparentColor.toNat
            (bitmap.Width * bitmap.Height) := Option.some.inj hpatched
        apply hd
        rw [hc, hpe]
        exact memset_blank prev _ h0 _ _ hidx
    · have hsel : 0 ≤ (w.MakeFramePatched bitmap chunky).SelectTransparentColor prevFrame chunky
          (w.MakeFrameRect bitmap chunky).IMD bitmap.Width := by rw [← he]; exact htrans
      obtain ⟨c, hc, hc256, hun⟩ := SelectTransparentColor_unused _ _ _ _ _ hsel
      exact ⟨c, by rw [he, hc], hc256, hun⟩
  obtain ⟨t, ht, ht256, hun⟩ := hkey
  have hmod : ((t : Int) % 256).toNat = t := by omega
  refine ⟨prevFrame, t, hP, ht, ht256, ?_, ?_, ?_⟩
  · unfold MakeFrameTry LZWCompress
    rw [LZWCompressCodes_eq, hP]
    rfl
  · unfold LZWCompressInput
    rw [ht]
    simp only [show ¬ ((t : Int) < 0) by omega, if_false, hmod]
  · intro y x hy hx i hi
    have hu := hun y x hy hx
    rw [← hi] at hu
    by_cases hd : prevFrame i ≠ chunky i
    · have hne := hu hd
      simp only [hd, if_true, ne_eq, not_false_eq_true, hne, if_false, false_iff, true_and]
      trivial
    · have heq : prevFrame i = chunky i := by simpa using hd
      simp [heq]

/-- C20, at a concrete input: after the pixels `1 1` the frame `1 0` with the transparent
colour 0 arrives; the substitution colour is 0 and the previous-frame buffer is blank. -/
theorem substitution_lossless_witness :
    (1 ≤ Example.bitmap2x1.Width ∧ 1 ≤ Example.bitmap2x1.Height ∧
      Example.writerB.WriteQueue.MostRecent = some Example.frameA ∧
      0 ≤ (Example.writerB.MakeFrameChoice Example.bitmap2x1 Example.chunky10).1) ∧
    ∃ (prevFrame : Nat → Nat) (t : Nat),
      (Example.writerB.MakeFramePatched Example.bitmap2x1 Example.chunky10).PrevFrame =
        some prevFrame ∧
      (Example.writerB.MakeFrameChoice Example.bitmap2x1 Example.chunky10).1 = (t : Int) ∧
      t < 256 :=
  ⟨by decide,
    (substitution_lossless Example.writerB Example.bitmap2x1 Example.chunky10 Example.frameA
      (by decide) (by decide) (by decide) (by decide)).elim
      fun prevFrame h => h.elim fun t ht => ⟨prevFrame, t, ht.1, ht.2.1, ht.2.2.1⟩⟩

end Iff2Gif

namespace Iff2Gif

open GIFWriter GIFFrameQueue CodeStream

/-- C21: the substitution is a no-op after a background restore.  When `SelectDisposal` has
returned 2 for the frame `MakeFrame` has been given (a frame is queued), the
previous-frame buffer holds the transparent colour `t` everywhere in the frame, and
`LZWCompress` on the rectangle of `MakeFrame` gives the same bytes with the substitution
colour `t` as without substitution, whatever the frame holds.  From the second frame of
a stream on, `MakeFrame` runs both, with `t` taken from the bitmap and not synthetic; the
frame it queues has the payload compressed without substitution, and its transparency
flag and index are those of the bitmap. -/
theorem restore_substitution_noop (w : GIFWriter) (bitmap : PlanarBitmap) (chunky : Nat → Nat)
    (old : GIFFrame) (hq : w.WriteQueue.MostRecent = some old)
    (hdisp : (w.SelectDisposal bitmap (MakeFrameNew bitmap).IMD chunky).1 = 2) :
    (∃ blank, (w.MakeFramePatched bitmap chunky).PrevFrame = some blank ∧
      ∀ i, i < bitmap.Width * bitmap.Height →
        blank i = (bitmap.TransparentColor % 256).toNat) ∧
    w.MakeFrameTry bitmap chunky ((bitmap.TransparentColor % 256).toNat : Int) =
      w.MakeFrameTry bitmap chunky (-1) ∧
    (w.FrameCount ≠ 0 →
      (w.MakeFrameChoice bitmap chunky).1 = ((bitmap.TransparentColor % 256).toNat : Int) ∧
      (w.MakeFrameChoice bitmap chunky).2.1 = false) ∧
    (w.MakeFrameFrame bitmap chunky).LZW = w.MakeFrameTry bitmap chunky (-1) ∧
    (w.MakeFrameFrame bitmap chunky).GCE = (MakeFrameNew bitmap).GCE ∧
    (MakeFrameNew bitmap).GCE.Flags = 1 ∧
    (MakeFrameNew bitmap).GCE.TransparentColor = (bitmap.TransparentColor % 256).toNat := by
  obtain ⟨h0, blank, hP, hb, -, -⟩ := MakeFrame_restore_state w bitmap chunky old hq hdisp
  obtain ⟨c1, c2⟩ := MakeFrameChoice_restore_frame w bitmap chunky old hq hdisp
  obtain ⟨f1, f2⟩ := (MakeFrameNew_GCE bitmap).1 h0
  obtain ⟨-, hgce⟩ := MakeFrameRect_IMD w bitmap chunky
  have htry := MakeFrameTry_restore w bitmap chunky old hq hdisp
  have hnil : (w.MakeFrameRect bitmap chunky).LZW = [] := by
    unfold MakeFrameRect
    rw [(MakeFrameArea_LZW _ _ _).1, (MakeFrameNew_IMD bitmap).2]
  have hframe : (w.MakeFrameFrame bitmap chunky).LZW = w.MakeFrameTry bitmap chunky (-1) ∧
      (w.MakeFrameFrame bitmap chunky).GCE = (MakeFrameNew bitmap).GCE := by
    by_cases hfc : w.FrameCount = 0
    · obtain ⟨k1, -, -⟩ := MakeFrameCompress_cases
        ((w.MakeFramePatched bitmap chunky).PrevFrame.getD fun _ => 0) bitmap chunky
        (w.MakeFrameRect bitmap chunky) (-1) false hnil
        (w.MakeFrameTry bitmap chunky (-1)) (w.MakeFrameTry bitmap chunky (-1)) rfl rfl
      unfold MakeFrameFrame
      rw [c2 hfc]
      simp only
      rw [k1 (by decide)]
      exact ⟨rfl, hgce⟩
    · obtain ⟨-, -, k3⟩ := MakeFrameCompress_cases
        ((w.MakeFramePatched bitmap chunky).PrevFrame.getD fun _ => 0) bitmap chunky
        (w.MakeFrameRect bitmap chunky) ((bitmap.TransparentColor % 256).toNat : Int) false hnil
        (w.MakeFrameTry bitmap chunky ((bitmap.TransparentColor % 256).toNat : Int))
        (w.MakeFrameTry bitmap chunky (-1)) rfl rfl
      unfold MakeFrameFrame
      rw [c1 hfc]
      simp only
      rw [k3 (by omega) (by rw [htry])]
      exact ⟨rfl, hgce⟩
  refine ⟨⟨blank, hP, hb⟩, htry, ?_, hframe.1, hframe.2, f1, f2⟩
  intro hfc
  rw [c1 hfc]
  exact ⟨rfl, rfl⟩

/-- C21, at a concrete input: after the pixels `1 1` the frame `1 0` with the transparent
colour 0 arrives; `SelectDisposal` returns 2, both compressions of the left pixel give the
bytes `2 2 76 1 0`, and the frame queued keeps the flag 1 and the index 0. -/
theorem restore_substitution_noop_witness :
    (Example.writerB.WriteQueue.MostRecent = some Example.frameA ∧
      (Example.writerB.SelectDisposal Example.bitmap2x1 (MakeFrameNew Example.bitmap2x1).IMD
        Example.chunky10).1 = 2) ∧
    Example.writerB.MakeFrameTry Example.bitmap2x1 Example.chunky10
        ((Example.bitmap2x1.TransparentColor % 256).toNat : Int) =
      Example.writerB.MakeFrameTry Example.bitmap2x1 Example.chunky10 (-1) ∧
    Example.writerB.MakeFrameTry Example.bitmap2x1 Example.chunky10 (-1) = [2, 2, 76, 1, 0] ∧
    (Example.writerB.MakeFrameFrame Example.bitmap2x1 Example.chunky10).LZW =
      Example.writerB.MakeFrameTry Example.bitmap2x1 Example.chunky10 (-1) ∧
    (Example.writerB.MakeFrameFrame Example.bitmap2x1 Example.chunky10).GCE =
      (MakeFrameNew Example.bitmap2x1).GCE :=
  ⟨⟨by decide, by decide⟩,
    (restore_substitution_noop Example.writerB Example.bitmap2x1 Example.chunky10 Example.frameA
      (by decide) (by decide)).2.1,
    by decide,
    (restore_substitution_noop Example.writerB Example.bitmap2x1 Example.chunky10 Example.frameA
      (by decide) (by decide)).2.2.2.1,
    (restore_substitution_noop Example.writerB Example.bitmap2x1 Example.chunky10 Example.frameA
      (by decide) (by decide)).2.2.2.2.1⟩

end Iff2Gif
